import Mathlib

/-!
# The DIMACS parser of `solver/src/parse.c`

`parse_dimacs` is one C function that reads its input one character at a time
through `NEXT ()` and leaves by `return`.  It is embedded here as the control
flow graph of that function: there is one `Mode` for every textual occurrence
of `NEXT ()` in the source (named after its line, carrying the local variables
that are live there), and `step` is the code that runs between the moment that
`NEXT ()` delivers a character and the next `NEXT ()` or `return`.

* the file is a `List Char`, one `Char` per byte; `none` is `EOF`;
* `int` variables are `Int` (the source guards every arithmetic step, the
  guards are kept), `uint64_t` variables are `Nat` reduced modulo `2 ^ 64`;
* the solver is represented by the sequence of calls made on it (`Call`);
* `EXTERNAL_MAX_VAR`, the `EMBEDDED` compile time switch, the run time value of
  the option `embedded` and the option registry are declared outside
  `parse.c`; they are the fields of `Env`.
-/

namespace Parse

/-- The `strictness` argument of `parse_dimacs`. -/
inductive strictness
  | RELAXED_PARSING
  | NORMAL_PARSING
  | PEDANTIC_PARSING
  deriving DecidableEq

/-- Calls that `parse_dimacs` makes on the solver and its option table. -/
inductive Call
  | kissat_message (vars : Int) (clauses : Nat)
  | kissat_reserve (vars : Int)
  | kissat_add (lit : Int)
  | kissat_options_set_opt (name : List Char) (arg : Int)
  | kissat_verbose (name : List Char) (arg : Int)
  | kissat_warning (name : List Char) (arg : Int)
  deriving DecidableEq

/-- What `parse.c` takes from other files of the solver. `GET_OPTION_embedded`
    is the value of `GET_OPTION (embedded)` after the given calls have been
    made (an embedded option may itself change the option table). -/
structure Env where
  EXTERNAL_MAX_VAR : Nat
  EMBEDDED : Bool
  GET_OPTION_embedded : List Call → Bool
  kissat_options_has : List Char → Bool

/-- Everything `parse_dimacs` writes: `*lineno_ptr`, `*max_var_ptr` (`none`
    while it has not been assigned), the calls made so far (oldest first), and
    whether `assert (*lineno_ptr > 1)` in `nonl` has been violated. -/
structure State where
  lineno : Nat
  max_var : Option Int
  calls : List Call
  nonl_assert_failed : Bool
  deriving DecidableEq

/-- Locals of the clause loop (lines 277–385). -/
structure Body where
  vars : Int
  clauses : Nat
  parsed : Nat
  lit : Int
  deriving DecidableEq

/-- Program points: `Lnnn` is "about to evaluate the `NEXT ()` of line nnn". -/
inductive Mode
  | L45 (first : Bool)
  | L58
  | L72
  | L77
  | L89
  | L95 (name : List Char)
  | L104
  | L116 (name : List Char)
  | L120 (name : List Char)
  | L128 (name : List Char) (sign arg : Int)
  | L139 (name : List Char) (sign arg : Int)
  | L142 (name : List Char) (sign arg : Int)
  | L166
  | L174
  | L185
  | L188
  | L192
  | L196
  | L199
  | L202
  | L205
  | L209
  | L214 (vars : Int)
  | L228 (vars : Int)
  | L237 (vars : Int)
  | L241 (vars : Int)
  | L246 (vars : Int) (clauses : Nat)
  | L261 (vars : Int) (clauses : Nat)
  | L265 (vars : Int) (clauses : Nat)
  | L281 (b : Body)
  | L290 (b : Body)
  | L297 (b : Body)
  | L313 (b : Body)
  | L330 (b : Body) (sign idx : Int)
  | L352 (b : Body) (sign idx : Int)
  | L358 (b : Body) (sign idx : Int)
  deriving DecidableEq

/-- Either `parse_dimacs` has returned `res` (`none` is the null pointer, no
    error), or control is at the `NEXT ()` of `m`. -/
inductive Outcome
  | ret (res : Option String) (st : State)
  | goto (m : Mode) (st : State)
  deriving DecidableEq

/-- Return value of `parse_dimacs` together with what it has written. -/
structure Result where
  error : Option String
  state : State
  deriving DecidableEq

def EOF : Option Char := none

def INT_MAX : Int := 2147483647

def UINT64_MAX : Nat := 18446744073709551615

def TRY_RELAXED_PARSING : String := "(try '--relaxed' parsing)"

/-- `isdigit (ch)` of `<ctype.h>`; false on `EOF`. -/
def isdigit : Option Char → Bool
  | some c => decide ('0'.toNat ≤ c.toNat ∧ c.toNat ≤ '9'.toNat)
  | none => false

/-- The test `'a' <= ch && ch <= 'z'` of line 95. -/
def is_lower : Option Char → Bool
  | some c => decide ('a'.toNat ≤ c.toNat ∧ c.toNat ≤ 'z'.toNat)
  | none => false

/-- The test `ch == ' ' || ch == '\t'`. -/
def is_blank (ch : Option Char) : Bool :=
  decide (ch = some ' ' ∨ ch = some '\t')

/-- The expression `ch - '0'`. -/
def digit_of : Option Char → Int
  | some c => (c.toNat : Int) - ('0'.toNat : Int)
  | none => -1 - ('0'.toNat : Int)

/-- Line counting of `next` (lines 11–18): the character `ch` has just been
    delivered by `kissat_getc`. -/
def next (ch : Option Char) (st : State) : State :=
  if ch = some '\n' then { st with lineno := (st.lineno + 1) % 2 ^ 64 } else st

/-- Lines 23–32, `nonl`, on the state (the string is returned unchanged). -/
def nonl (ch : Option Char) (st : State) : State :=
  if ch = some '\n' then
    { st with
      nonl_assert_failed := st.nonl_assert_failed || !decide (st.lineno > 1)
      lineno := (st.lineno + 2 ^ 64 - 1) % 2 ^ 64 }
  else st

/-- The guarded `int` accumulation of lines 216–222, 332–338 and 130–136
    (with bound `EXTERNAL_MAX_VAR`, `EXTERNAL_MAX_VAR`, `INT_MAX`): `none` when
    one of the two guards fires. -/
def accumulate (bound acc : Int) (ch : Option Char) : Option Int :=
  if bound / 10 < acc then none
  else
    let acc10 := acc * 10
    let digit := digit_of ch
    if bound - digit < acc10 then none else some (acc10 + digit)

/-- The guarded `uint64_t` accumulation of lines 248–254. -/
def accumulate_clauses (clauses : Nat) (ch : Option Char) : Option Nat :=
  if UINT64_MAX / 10 < clauses then none
  else
    let clauses10 := clauses * 10 % 2 ^ 64
    let digit := (digit_of ch).toNat
    if (UINT64_MAX - digit) % 2 ^ 64 < clauses10 then none
    else some ((clauses10 + digit) % 2 ^ 64)

/-- The label `COMPLETE` (lines 168–178): the body of the comment loop entered
    with `ch` already read. -/
def COMPLETE (ch : Option Char) (st : State) : Outcome :=
  if ch = EOF then .ret (some "end-of-file in header comment") st
  else if ch = some '\r' then .goto .L174 st
  else .goto .L166 st

/-- Lines 148–160: apply or warn about the embedded option. -/
def apply_option (env : Env) (name : List Char) (sign arg : Int) (st : State) : State :=
  let arg := arg * sign
  if env.kissat_options_has name then
    { st with calls := st.calls ++ [.kissat_options_set_opt name arg, .kissat_verbose name arg] }
  else
    { st with calls := st.calls ++ [.kissat_warning name arg] }

/-- Lines 140–161, after the loop of lines 138–139 has stopped at `ch`. -/
def option_end (env : Env) (name : List Char) (sign arg : Int) (ch : Option Char)
    (st : State) : Outcome :=
  if ch = some '\r' then .goto (.L142 name sign arg) st
  else if ch ≠ some '\n' then COMPLETE ch st
  else .goto (.L45 false) (apply_option env name sign arg st)

/-- Lines 125–127: first character of the option value. -/
def option_value (name : List Char) (sign : Int) (ch : Option Char) (st : State) : Outcome :=
  if !isdigit ch then COMPLETE ch st
  else .goto (.L128 name sign (digit_of ch)) st

/-- Lines 194–195. -/
def header_c (ch : Option Char) (st : State) : Outcome :=
  if ch ≠ some 'c' then .ret (some "expected 'c' after 'p '") (nonl ch st)
  else .goto .L196 st

/-- Lines 211–213. -/
def header_variables (ch : Option Char) (st : State) : Outcome :=
  if !isdigit ch then .ret (some "expected digit after 'p cnf '") (nonl ch st)
  else .goto (.L214 (digit_of ch)) st

/-- Lines 243–245. -/
def header_clauses (vars : Int) (ch : Option Char) (st : State) : Outcome :=
  if !isdigit ch then .ret (some "expected number of clauses after maximum variable") st
  else .goto (.L246 vars (digit_of ch).toNat) st

/-- Lines 269–279: end of the header line, `ch` is what the loop of lines
    258–262 and the carriage-return test of lines 263–268 have left. -/
def header_end (vars : Int) (clauses : Nat) (ch : Option Char) (st : State) : Outcome :=
  if ch = EOF then .ret (some "unexpected end-of-file after parsing number of clauses") st
  else if ch ≠ some '\n' then .ret (some "expected new-line after parsing number of clauses") st
  else
    .goto (.L281 { vars := vars, clauses := clauses, parsed := 0, lit := 0 })
      { st with
        max_var := some vars
        calls := st.calls ++ [.kissat_message vars clauses, .kissat_reserve vars] }

/-- Lines 263–279. -/
def header_cr (vars : Int) (clauses : Nat) (ch : Option Char) (st : State) : Outcome :=
  if ch = some '\r' then .goto (.L265 vars clauses) st
  else header_end vars clauses ch st

/-- Lines 368–385: the numeral `sign * idx` has been read and `ch` follows it. -/
def after_literal (strict : strictness) (b : Body) (sign idx : Int) (ch : Option Char)
    (st : State) : Outcome :=
  if strict ≠ .RELAXED_PARSING ∧ idx > b.vars then
    .ret (some ("maximum variable index exceeded " ++ TRY_RELAXED_PARSING)) (nonl ch st)
  else if idx ≠ 0 then
    .goto (.L281 { b with lit := sign * idx })
      { st with calls := st.calls ++ [.kissat_add (sign * idx)] }
  else if strict ≠ .RELAXED_PARSING ∧ b.parsed = b.clauses then
    .ret (some ("too many clauses " ++ TRY_RELAXED_PARSING)) st
  else
    .goto (.L281 { b with parsed := (b.parsed + 1) % 2 ^ 64, lit := 0 })
      { st with calls := st.calls ++ [.kissat_add 0] }

/-- Lines 386–394, reached by `break` out of the clause loop. -/
def finish (strict : strictness) (b : Body) (st : State) : Outcome :=
  if b.lit ≠ 0 then .ret (some "trailing zero missing") st
  else if strict ≠ .RELAXED_PARSING ∧ b.parsed < b.clauses then
    if (b.parsed + 1) % 2 ^ 64 = b.clauses then
      .ret (some ("one clause missing " ++ TRY_RELAXED_PARSING)) st
    else .ret (some ("more than one clause missing " ++ TRY_RELAXED_PARSING)) st
  else .ret none st

/-- The code of `parse_dimacs` from the `NEXT ()` of mode `m`, which has
    delivered `ch` (and counted it: `st` is the state after `next`), up to the
    following `NEXT ()` or `return`. -/
def step (env : Env) (strict : strictness) : Mode → Option Char → State → Outcome
  -- lines 45–70, 181–182
  | .L45 first, ch, st =>
    if ch = some 'p' then .goto .L185 st
    else if ch = EOF then
      if first then .ret (some "empty file") st
      else .ret (some "end-of-file before header") st
    else if ch = some '\r' then .goto .L58 st
    else if ch = some '\n' then
      if strict = .PEDANTIC_PARSING then .ret (some "unexpected empty line") (nonl ch st)
      else .goto (.L45 false) st
    else if ch = some 'c' then .goto .L72 st
    else .ret (some "expected 'c' or 'p' at start of line") st
  -- lines 58–62
  | .L58, ch, st =>
    if ch ≠ some '\n' then .ret (some "expected new-line after carriage-return") st
    else if strict = .PEDANTIC_PARSING then
      .ret (some "unexpected empty line") (nonl ch st)
    else .goto (.L45 false) st
  -- lines 72–87, 163–166
  | .L72, ch, st =>
    if ch = some '\n' then .goto (.L45 false) st
    else if ch = some '\r' then .goto .L77 st
    else if ch = EOF then .ret (some "end-of-file in header comment") st
    else if ch = some ' ' ∨ ch = some '\t' then .goto .L72 st
    else if env.EMBEDDED ∧ ch = some '-' ∧ env.GET_OPTION_embedded st.calls then .goto .L89 st
    else .goto .L166 st
  -- lines 77–80
  | .L77, ch, st =>
    if ch ≠ some '\n' then .ret (some "expected new-line after carriage-return") st
    else .goto (.L45 false) st
  -- lines 89–94
  | .L89, ch, st =>
    if ch ≠ some '-' then COMPLETE ch st
    else .goto (.L95 []) st
  -- lines 95–113; `pos` is the length of `name`
  | .L95 name, ch, st =>
    if is_lower ch then
      match ch with
      | some c =>
        if (name ++ [c]).length = 32 then COMPLETE ch st
        else .goto (.L95 (name ++ [c])) st
      | none => COMPLETE ch st
    else if ch = some '\r' then .goto .L104 st
    else if ch = some '\n' then .goto (.L45 false) st
    else if ch ≠ some '=' then COMPLETE ch st
    else .goto (.L116 name) st
  -- lines 104–109
  | .L104, ch, st =>
    if ch ≠ some '\n' then .ret (some "expected new-line after carriage-return") st
    else .goto (.L45 false) st
  -- lines 116–127
  | .L116 name, ch, st =>
    if ch = some '-' then .goto (.L120 name) st
    else option_value name 1 ch st
  -- lines 120–127
  | .L120 name, ch, st => option_value name (-1) ch st
  -- lines 128–161
  | .L128 name sign arg, ch, st =>
    if isdigit ch then
      match accumulate INT_MAX arg ch with
      | none => COMPLETE ch st
      | some arg => .goto (.L128 name sign arg) st
    else if is_blank ch then .goto (.L139 name sign arg) st
    else option_end env name sign arg ch st
  -- lines 138–161
  | .L139 name sign arg, ch, st =>
    if is_blank ch then .goto (.L139 name sign arg) st
    else option_end env name sign arg ch st
  -- lines 142–161
  | .L142 name sign arg, ch, st =>
    if ch ≠ some '\n' then .ret (some "expected new-line after carriage-return") st
    else .goto (.L45 false) (apply_option env name sign arg st)
  -- lines 166–178
  | .L166, ch, st =>
    if ch ≠ some '\n' then COMPLETE ch st
    else .goto (.L45 false) st
  -- lines 174–177
  | .L174, ch, st =>
    if ch ≠ some '\n' then .ret (some "expected new-line after carriage-return") st
    else .goto (.L45 false) st
  -- lines 185–187
  | .L185, ch, st =>
    if ch ≠ some ' ' then .ret (some "expected space after 'p'") (nonl ch st)
    else .goto .L188 st
  -- lines 188–195
  | .L188, ch, st =>
    if strict ≠ .PEDANTIC_PARSING ∧ is_blank ch then .goto .L192 st
    else header_c ch st
  -- lines 191–195
  | .L192, ch, st =>
    if is_blank ch then .goto .L192 st
    else header_c ch st
  -- lines 196–198
  | .L196, ch, st =>
    if ch ≠ some 'n' then .ret (some "expected 'n' after 'p c'") (nonl ch st)
    else .goto .L199 st
  -- lines 199–201
  | .L199, ch, st =>
    if ch ≠ some 'f' then .ret (some "expected 'n' after 'p cn'") (nonl ch st)
    else .goto .L202 st
  -- lines 202–204
  | .L202, ch, st =>
    if ch ≠ some ' ' then .ret (some "expected space after 'p cnf'") (nonl ch st)
    else .goto .L205 st
  -- lines 205–213
  | .L205, ch, st =>
    if strict ≠ .PEDANTIC_PARSING ∧ is_blank ch then .goto .L209 st
    else header_variables ch st
  -- lines 208–213
  | .L209, ch, st =>
    if is_blank ch then .goto .L209 st
    else header_variables ch st
  -- lines 214–236
  | .L214 vars, ch, st =>
    if isdigit ch then
      match accumulate env.EXTERNAL_MAX_VAR vars ch with
      | none => .ret (some "maximum variable too large") st
      | some vars => .goto (.L214 vars) st
    else if ch = EOF then
      .ret (some "unexpected end-of-file while parsing maximum variable") st
    else if ch = some '\r' then .goto (.L228 vars) st
    else if ch = some '\n' then
      .ret (some "unexpected new-line after maximum variable") (nonl ch st)
    else if ch ≠ some ' ' then .ret (some "expected space after maximum variable") st
    else .goto (.L237 vars) st
  -- lines 228–236
  | .L228 _, ch, st =>
    if ch ≠ some '\n' then .ret (some "expected new-line after carriage-return") st
    else .ret (some "unexpected new-line after maximum variable") (nonl ch st)
  -- lines 237–245
  | .L237 vars, ch, st =>
    if strict ≠ .PEDANTIC_PARSING ∧ is_blank ch then .goto (.L241 vars) st
    else header_clauses vars ch st
  -- lines 240–245
  | .L241 vars, ch, st =>
    if is_blank ch then .goto (.L241 vars) st
    else header_clauses vars ch st
  -- lines 246–279
  | .L246 vars clauses, ch, st =>
    if isdigit ch then
      match accumulate_clauses clauses ch with
      | none => .ret (some "number of clauses too large") st
      | some clauses => .goto (.L246 vars clauses) st
    else if ch = EOF then
      .ret (some "unexpected end-of-file while parsing number of clauses") st
    else if strict ≠ .PEDANTIC_PARSING ∧ is_blank ch then .goto (.L261 vars clauses) st
    else header_cr vars clauses ch st
  -- lines 260–279
  | .L261 vars clauses, ch, st =>
    if is_blank ch then .goto (.L261 vars clauses) st
    else header_cr vars clauses ch st
  -- lines 265–279
  | .L265 vars clauses, ch, st =>
    if ch ≠ some '\n' then .ret (some "expected new-line after carriage-return") st
    else header_end vars clauses ch st
  -- lines 281–329
  | .L281 b, ch, st =>
    if ch = some ' ' then .goto (.L281 b) st
    else if ch = some '\t' then .goto (.L281 b) st
    else if ch = some '\n' then .goto (.L281 b) st
    else if ch = some '\r' then .goto (.L290 b) st
    else if ch = some 'c' then .goto (.L297 b) st
    else if ch = EOF then finish strict b st
    else if ch = some '-' then .goto (.L313 b) st
    else if !isdigit ch then .ret (some "expected digit or '-'") st
    else .goto (.L330 b 1 (digit_of ch)) st
  -- lines 290–293
  | .L290 b, ch, st =>
    if ch ≠ some '\n' then .ret (some "expected new-line after carriage-return") st
    else .goto (.L281 b) st
  -- lines 297–306
  | .L297 b, ch, st =>
    if ch ≠ some '\n' then
      if ch = EOF then
        if strict ≠ .PEDANTIC_PARSING then finish strict b st
        else .ret (some "unexpected end-of-file in comment after header") st
      else .goto (.L297 b) st
    else .goto (.L281 b) st
  -- lines 313–329
  | .L313 b, ch, st =>
    if ch = EOF then .ret (some "unexpected end-of-file after '-'") st
    else if ch = some '\n' then .ret (some "unexpected new-line after '-'") (nonl ch st)
    else if !isdigit ch then .ret (some "expected digit after '-'") st
    else if ch = some '0' then .ret (some "expected non-zero digit after '-'") st
    else .goto (.L330 b (-1) (digit_of ch)) st
  -- lines 330–385
  | .L330 b sign idx, ch, st =>
    if isdigit ch then
      match accumulate env.EXTERNAL_MAX_VAR idx ch with
      | none => .ret (some "variable index too large") st
      | some idx => .goto (.L330 b sign idx) st
    else if ch = EOF then
      if strict = .PEDANTIC_PARSING then
        if idx ≠ 0 then .ret (some "unexpected end-of-file after literal") st
        else .ret (some "unexpected end-of-file after trailing zero") st
      else after_literal strict b sign idx ch st
    else if ch = some '\r' then .goto (.L352 b sign idx) st
    else if ch = some 'c' then .goto (.L358 b sign idx) st
    else if ch ≠ some ' ' ∧ ch ≠ some '\t' ∧ ch ≠ some '\n' then
      .ret (some "expected white space after literal") st
    else after_literal strict b sign idx ch st
  -- lines 352–385
  | .L352 b sign idx, ch, st =>
    if ch ≠ some '\n' then .ret (some "expected new-line after carriage-return") st
    else after_literal strict b sign idx ch st
  -- lines 358–385
  | .L358 b sign idx, ch, st =>
    if ch ≠ some '\n' then
      if ch = EOF then
        if strict ≠ .PEDANTIC_PARSING then after_literal strict b sign idx ch st
        else .ret (some "unexpected end-of-file in comment after literal") st
      else .goto (.L358 b sign idx) st
    else after_literal strict b sign idx ch st

/-- Run `parse_dimacs` from mode `m` over the characters of `input`: the
    outcome is a `return` met on the way, or the program point that asks for
    the character after `input`. -/
def exec (env : Env) (strict : strictness) : Mode → State → List Char → Outcome
  | m, st, [] => .goto m st
  | m, st, c :: cs =>
    match step env strict m (some c) (next (some c) st) with
    | .ret res st' => .ret res st'
    | .goto m' st' => exec env strict m' st' cs

/-- Second `NEXT ()` at the end of the file: it delivers `EOF` again. The code
    returns here at the latest (`at_eof_returns`); the last branch is never
    taken. -/
def at_eof_again (env : Env) (strict : strictness) (m : Mode) (st : State) : Result :=
  match step env strict m EOF st with
  | .ret res st' => ⟨res, st'⟩
  | .goto _ st' => ⟨some "end-of-file read more than twice", st'⟩

/-- The input is exhausted and control is at the `NEXT ()` of `m`, which
    delivers `EOF`. -/
def at_eof (env : Env) (strict : strictness) (m : Mode) (st : State) : Result :=
  match step env strict m EOF st with
  | .ret res st' => ⟨res, st'⟩
  | .goto m' st' => at_eof_again env strict m' st'

/-- Run from mode `m` to the `return`. -/
def run (env : Env) (strict : strictness) (m : Mode) (st : State) (input : List Char) : Result :=
  match exec env strict m st input with
  | .ret res st' => ⟨res, st'⟩
  | .goto m' st' => at_eof env strict m' st'

/-- Line 40 and `bool first = true`. -/
def init : State :=
  { lineno := 1, max_var := none, calls := [], nonl_assert_failed := false }

/-- Lines 36–395 on the contents `file` of the input. -/
def parse_dimacs (env : Env) (strict : strictness) (file : List Char) : Result :=
  run env strict (.L45 true) init file

/-- The literals handed to `kissat_add`, in call order. -/
def adds : List Call → List Int
  | [] => []
  | .kissat_add lit :: cs => lit :: adds cs
  | _ :: cs => adds cs

/-- `sat P Q o`: the outcome `o` satisfies `Q` if it is a `return` and `P` if
    it is a program point. -/
def Outcome.sat (P : Mode → State → Prop) (Q : Option String → State → Prop) : Outcome → Prop
  | .ret res st => Q res st
  | .goto m st => P m st

/-- Value of a string of decimal digits read most significant digit first,
    starting from `acc` (48 is the code of `0`). -/
def decimal_value (acc : Nat) (ds : List Char) : Nat :=
  ds.foldl (fun a c => a * 10 + (c.toNat - 48)) acc

/-- Every character is one of `0` … `9`. -/
def all_digits (ds : List Char) : Prop :=
  ∀ c ∈ ds, isdigit (some c) = true

/-- Canonical decimal numeral of a natural number (as printed by `%d`). -/
def numeral (n : Nat) : List Char :=
  Nat.toDigits 10 n

/-- Canonical text of a literal: an optional `-` and the magnitude. -/
def literal_text (l : Int) : List Char :=
  if l < 0 then '-' :: numeral l.natAbs else numeral l.natAbs

/-- Canonical text of a clause: every literal followed by one space, then
    `0` and a new-line. -/
def clause_text : List Int → List Char
  | [] => ['0', '\n']
  | l :: ls => literal_text l ++ ' ' :: clause_text ls

/-- Canonical text of a list of clauses. -/
def body_text : List (List Int) → List Char
  | [] => []
  | c :: cs => clause_text c ++ body_text cs

/-- The canonical header line `p cnf V C`. -/
def header_text (V C : Nat) : List Char :=
  'p' :: ' ' :: 'c' :: 'n' :: 'f' :: ' ' :: (numeral V ++ ' ' :: (numeral C ++ ['\n']))

/-- What `kissat_add` is expected to receive for a list of clauses: the
    literals of each clause followed by `0`. -/
def body_adds : List (List Int) → List Int
  | [] => []
  | c :: cs => c ++ 0 :: body_adds cs

/-- The literals of the clauses are non-zero and of magnitude at most `V`. -/
def clauses_within (V : Nat) (cs : List (List Int)) : Prop :=
  ∀ c ∈ cs, ∀ l ∈ c, l ≠ 0 ∧ l.natAbs ≤ V

/-- A run of spaces and tabs. -/
def blanks (ws : List Char) : Prop :=
  ∀ c ∈ ws, c = ' ' ∨ c = '\t'

/-- The two accepted line ends. -/
def is_eol (eol : List Char) : Prop :=
  eol = ['\n'] ∨ eol = ['\r', '\n']

/-- A header line: `p`, a space, `cnf`, a space, the digits `dV`, a space,
    the digits `dC` and the line end, with the runs `ws1` … `ws4` inserted
    after the three spaces and before the line end. -/
def header_line (ws1 ws2 ws3 ws4 dV dC eol : List Char) : List Char :=
  'p' :: ' ' :: (ws1 ++ 'c' :: 'n' :: 'f' :: ' ' :: (ws2 ++ (dV ++ ' ' :: (ws3 ++ (dC ++ (ws4 ++ eol))))))

/-- State after an accepted header line that declares `V` and `C`:
    one more line, `*max_var_ptr` assigned, the header announced and the
    storage reserved. -/
def header_state (V : Int) (C : Nat) (st : State) : State :=
  { st with
    lineno := (st.lineno + 1) % 2 ^ 64
    max_var := some V
    calls := st.calls ++ [.kissat_message V C, .kissat_reserve V] }

/-- State after `k` more lines in which the literals `lits` have been handed
    to `kissat_add`. -/
def body_state (k : Nat) (lits : List Int) (st : State) : State :=
  { st with
    lineno := (st.lineno + k) % 2 ^ 64
    calls := st.calls ++ lits.map Call.kissat_add }

/-- Number of terminators `0` handed to `kissat_add`. -/
def terminators (calls : List Call) : Nat :=
  (adds calls).count 0

/-- No header has been announced and nothing has been handed to `kissat_add`. -/
def no_header (calls : List Call) : Prop :=
  adds calls = [] ∧ ∀ V C, Call.kissat_message V C ∉ calls

/-- In the clause loop with locals `b`, outside `RELAXED_PARSING`: the header
    announced is the one of `b`, `parsed` counts the terminators handed over
    and has not passed `clauses`, the literals handed over are within the
    declared range, and `lit` is the last value handed over. -/
def in_body (b : Body) (calls : List Call) : Prop :=
  (∀ V C, Call.kissat_message V C ∈ calls ↔ V = b.vars ∧ C = b.clauses) ∧
  b.clauses < 2 ^ 64 ∧ terminators calls = b.parsed ∧ b.parsed ≤ b.clauses ∧
  (∀ l ∈ adds calls, l ≠ 0 → 1 ≤ l.natAbs ∧ (l.natAbs : Int) ≤ b.vars) ∧
  (adds calls).getLast?.getD 0 = b.lit

/-- The invariant of `parse_dimacs` outside `RELAXED_PARSING`, by program
    point. -/
def strict_inv : Mode → List Call → Prop
  | .L281 b, calls => in_body b calls
  | .L290 b, calls => in_body b calls
  | .L297 b, calls => in_body b calls
  | .L313 b, calls => in_body b calls
  | .L330 b sign idx, calls => in_body b calls ∧ 0 ≤ idx ∧ (sign = 1 ∨ sign = -1)
  | .L352 b sign idx, calls => in_body b calls ∧ 0 ≤ idx ∧ (sign = 1 ∨ sign = -1)
  | .L358 b sign idx, calls => in_body b calls ∧ 0 ≤ idx ∧ (sign = 1 ∨ sign = -1)
  | .L246 _ C, calls => no_header calls ∧ C < 2 ^ 64
  | .L261 _ C, calls => no_header calls ∧ C < 2 ^ 64
  | .L265 _ C, calls => no_header calls ∧ C < 2 ^ 64
  | _, calls => no_header calls

/-- What holds when `parse_dimacs` returns outside `RELAXED_PARSING`. -/
def strict_post (res : Option String) (calls : List Call) : Prop :=
  (res ≠ none ∧ no_header calls) ∨
  ∃ b, in_body b calls ∧ (res = none → b.parsed = b.clauses ∧ b.lit = 0)

/-- Text of a numeral token of the clauses: the digits `ds`, after `-` if
    `neg`. -/
def numeral_token (neg : Bool) (ds : List Char) : List Char :=
  if neg then '-' :: ds else ds

/-- The `sign` local after the token. -/
def sign_of (neg : Bool) : Int :=
  if neg then -1 else 1

/-- A delimiter that ends a numeral before the end of the file: one space,
    tab or new-line, a carriage-return with its new-line, or a comment up to
    its new-line. -/
def closed_delimiter (d : List Char) : Prop :=
  (∃ w, (w = ' ' ∨ w = '\t' ∨ w = '\n') ∧ d = [w]) ∨ d = ['\r', '\n'] ∨
  ∃ cm, '\n' ∉ cm ∧ d = 'c' :: (cm ++ ['\n'])

/-- What may stand between a numeral and the end of the file when there is
    no closed delimiter: nothing, or a comment without new-line. -/
def open_delimiter (d : List Char) : Prop :=
  d = [] ∨ ∃ cm, '\n' ∉ cm ∧ d = 'c' :: cm

/-- Go on from the outcome `o` with the characters `rest`. -/
def continue_exec (env : Env) (strict : strictness) (o : Outcome) (rest : List Char) : Outcome :=
  match o with
  | .ret res st => .ret res st
  | .goto m st => exec env strict m st rest

/-- Go on from the outcome `o` with `rest` as the remaining input, to the
    `return`. -/
def continue_run (env : Env) (strict : strictness) (o : Outcome) (rest : List Char) : Result :=
  match o with
  | .ret res st => ⟨res, st⟩
  | .goto m st => run env strict m st rest

/-- Program points of the clause loop that are not inside a comment. -/
def outside_comment : Mode → Prop
  | .L281 _ => True
  | .L290 _ => True
  | .L313 _ => True
  | .L330 _ _ _ => True
  | .L352 _ _ _ => True
  | _ => False

/-- A run of blank lines, each `\n` or `\r\n`. -/
inductive blank_lines : List Char → Prop
  | nil : blank_lines []
  | lf (bl : List Char) : blank_lines bl → blank_lines ('\n' :: bl)
  | crlf (bl : List Char) : blank_lines bl → blank_lines ('\r' :: '\n' :: bl)

/-- The two states agree on what the solver has seen: the calls and
    `*max_var_ptr` (they may differ in the line counter). -/
def same_solver (s s' : State) : Prop :=
  s.calls = s'.calls ∧ s.max_var = s'.max_var

/-- Two program points are the same, up to the flag `first` having been
    cleared in the second. -/
def same_point (m m' : Mode) : Prop :=
  m = m' ∨ ∃ f, m = .L45 f ∧ m' = .L45 false

/-- Two results are the same, up to the message for a file without header
    (`empty file` becomes `end-of-file before header` once `first` is
    cleared). -/
def same_error (r r' : Option String) : Prop :=
  r = r' ∨ (r = some "empty file" ∧ r' = some "end-of-file before header")

/-- Two outcomes agree up to the line counter and the flag `first`. -/
def outcome_rel : Outcome → Outcome → Prop
  | .ret r s, .ret r' s' => same_error r r' ∧ same_solver s s'
  | .goto m s, .goto m' s' => same_point m m' ∧ same_solver s s'
  | _, _ => False

/-- By program point: the `int` accumulators `variables` and `idx` are
    between `0` and `EXTERNAL_MAX_VAR`, and `*max_var_ptr` is unassigned before
    the clause loop and holds `variables` in it. -/
def bound_inv (env : Env) : Mode → State → Prop
  | .L214 v, st => 0 ≤ v ∧ v ≤ env.EXTERNAL_MAX_VAR ∧ st.max_var = none
  | .L228 v, st => 0 ≤ v ∧ v ≤ env.EXTERNAL_MAX_VAR ∧ st.max_var = none
  | .L237 v, st => 0 ≤ v ∧ v ≤ env.EXTERNAL_MAX_VAR ∧ st.max_var = none
  | .L241 v, st => 0 ≤ v ∧ v ≤ env.EXTERNAL_MAX_VAR ∧ st.max_var = none
  | .L246 v _, st => 0 ≤ v ∧ v ≤ env.EXTERNAL_MAX_VAR ∧ st.max_var = none
  | .L261 v _, st => 0 ≤ v ∧ v ≤ env.EXTERNAL_MAX_VAR ∧ st.max_var = none
  | .L265 v _, st => 0 ≤ v ∧ v ≤ env.EXTERNAL_MAX_VAR ∧ st.max_var = none
  | .L281 b, st => 0 ≤ b.vars ∧ b.vars ≤ env.EXTERNAL_MAX_VAR ∧ st.max_var = some b.vars
  | .L290 b, st => 0 ≤ b.vars ∧ b.vars ≤ env.EXTERNAL_MAX_VAR ∧ st.max_var = some b.vars
  | .L297 b, st => 0 ≤ b.vars ∧ b.vars ≤ env.EXTERNAL_MAX_VAR ∧ st.max_var = some b.vars
  | .L313 b, st => 0 ≤ b.vars ∧ b.vars ≤ env.EXTERNAL_MAX_VAR ∧ st.max_var = some b.vars
  | .L330 b _ idx, st =>
    (0 ≤ b.vars ∧ b.vars ≤ env.EXTERNAL_MAX_VAR ∧ st.max_var = some b.vars) ∧
      0 ≤ idx ∧ idx ≤ env.EXTERNAL_MAX_VAR
  | .L352 b _ idx, st =>
    (0 ≤ b.vars ∧ b.vars ≤ env.EXTERNAL_MAX_VAR ∧ st.max_var = some b.vars) ∧
      0 ≤ idx ∧ idx ≤ env.EXTERNAL_MAX_VAR
  | .L358 b _ idx, st =>
    (0 ≤ b.vars ∧ b.vars ≤ env.EXTERNAL_MAX_VAR ∧ st.max_var = some b.vars) ∧
      0 ≤ idx ∧ idx ≤ env.EXTERNAL_MAX_VAR
  | _, st => st.max_var = none

/-- After the header numeral with value `V`, by program point: `variables`
    is `V`. -/
def declared_inv (V : Int) : Mode → State → Prop
  | .L228 v, _ => v = V
  | .L237 v, _ => v = V
  | .L241 v, _ => v = V
  | .L246 v _, _ => v = V
  | .L261 v _, _ => v = V
  | .L265 v _, _ => v = V
  | .L281 b, _ => b.vars = V
  | .L290 b, _ => b.vars = V
  | .L297 b, _ => b.vars = V
  | .L313 b, _ => b.vars = V
  | .L330 b _ _, _ => b.vars = V
  | .L352 b _ _, _ => b.vars = V
  | .L358 b _ _, _ => b.vars = V
  | _, _ => False

/-- By program point: before the clause loop no header has been announced;
    in it the headers announced declare the `clauses` of the loop. -/
def message_inv : Mode → State → Prop
  | .L281 b, st => ∀ V C, Call.kissat_message V C ∈ st.calls → C = b.clauses
  | .L290 b, st => ∀ V C, Call.kissat_message V C ∈ st.calls → C = b.clauses
  | .L297 b, st => ∀ V C, Call.kissat_message V C ∈ st.calls → C = b.clauses
  | .L313 b, st => ∀ V C, Call.kissat_message V C ∈ st.calls → C = b.clauses
  | .L330 b _ _, st => ∀ V C, Call.kissat_message V C ∈ st.calls → C = b.clauses
  | .L352 b _ _, st => ∀ V C, Call.kissat_message V C ∈ st.calls → C = b.clauses
  | .L358 b _ _, st => ∀ V C, Call.kissat_message V C ∈ st.calls → C = b.clauses
  | _, st => ∀ V C, Call.kissat_message V C ∉ st.calls

/-- After the clause count numeral with value `C`, by program point:
    `clauses` is `C`. -/
def clauses_inv (C : Nat) : Mode → State → Prop
  | .L261 _ c, _ => c = C
  | .L265 _ c, _ => c = C
  | .L281 b, _ => b.clauses = C
  | .L290 b, _ => b.clauses = C
  | .L297 b, _ => b.clauses = C
  | .L313 b, _ => b.clauses = C
  | .L330 b _ _, _ => b.clauses = C
  | .L352 b _ _, _ => b.clauses = C
  | .L358 b _ _, _ => b.clauses = C
  | _, _ => False

/-- The call sites of lines 185–268: control is inside the header line,
    after its `p`. -/
def header_mode : Mode → Bool
  | .L185 | .L188 | .L192 | .L196 | .L199 | .L202 | .L205 | .L209 => true
  | .L214 _ | .L228 _ | .L237 _ | .L241 _ => true
  | .L246 _ _ | .L261 _ _ | .L265 _ _ => true
  | _ => false

/-- Every character is one of `a` … `z`. -/
def lower_name (name : List Char) : Prop :=
  ∀ c ∈ name, is_lower (some c) = true

/-- The header comment line `c --name=v` with its new-line, `v` written as a
    canonical decimal numeral. -/
def option_line (name : List Char) (v : Int) : List Char :=
  'c' :: ' ' :: '-' :: '-' :: (name ++ '=' :: (literal_text v ++ ['\n']))

/-- State after the line `c --name=v` has been read in state `st`: one more
    line, and the option set and reported if the registry has the name, a
    warning otherwise. -/
def option_state (env : Env) (name : List Char) (v : Int) (st : State) : State :=
  { st with
    lineno := (st.lineno + 1) % 2 ^ 64
    calls := st.calls ++
      (if env.kissat_options_has name then
        [.kissat_options_set_opt name v, .kissat_verbose name v]
      else [.kissat_warning name v]) }

/-- A solver build as used in the examples: `EXTERNAL_MAX_VAR` is
    `(1 << 30) - 1`, embedded options are compiled in and switched on, and
    the registry knows the options `opt` and `embedded`. -/
def env0 : Env :=
  { EXTERNAL_MAX_VAR := 2 ^ 30 - 1
    EMBEDDED := true
    GET_OPTION_embedded := fun _ => true
    kissat_options_has := fun name => decide (name = "opt".toList ∨ name = "embedded".toList) }

/-- The build of `env0` without `EMBEDDED`: comments are never looked into. -/
def env_plain : Env :=
  { env0 with EMBEDDED := false }

/-! ## The reader of the unsat order (lines 501–513) -/

/-- `isspace` of `<ctype.h>` in the "C" locale: space, `\t`, `\n`, `\v`, `\f`
    and `\r`. -/
def isspace (c : Char) : Bool :=
  decide (c = ' ' ∨ (9 ≤ c.toNat ∧ c.toNat ≤ 13))

/-- What one call `fscanf (file, "%u", &eidx)` does with the unread input:
    it returns `EOF` (input failure before a conversion), or returns 0 and
    stores nothing (matching failure), or returns 1 and stores a value; `rest`
    is the input left unread. -/
inductive Scan
  | eof
  | failure (rest : List Char)
  | assigned (value : Nat) (rest : List Char)
  deriving DecidableEq

/-- The call `fscanf (file, "%u", &eidx)` of the C library, on the unread input
    of the file: white space is skipped; at the end of the file the call
    returns `EOF`; otherwise an optional sign and the longest run of decimal
    digits are read; without a digit the call returns 0 and the character that
    is not a digit stays unread. The digits are converted as by `strtoul` with
    a 64 bit `unsigned long` (a value above `ULONG_MAX` gives `ULONG_MAX`,
    otherwise a `-` negates the value modulo `2 ^ 64`) and stored into the
    32 bit `unsigned`. -/
def fscanf_u (input : List Char) : Scan :=
  match input.dropWhile isspace with
  | [] => .eof
  | c :: cs =>
    let signed := decide (c = '-' ∨ c = '+')
    let t := if signed then cs else c :: cs
    let ds := t.takeWhile (fun d => isdigit (some d))
    let rest := t.dropWhile (fun d => isdigit (some d))
    if ds = [] then .failure rest
    else
      let v := decimal_value 0 ds
      let ul := if 2 ^ 64 - 1 < v then 2 ^ 64 - 1
        else if c = '-' then (2 ^ 64 - v) % 2 ^ 64 else v
      .assigned (ul % 2 ^ 32) rest

/-- Calls that `kissat_parse_unsatord` makes on the solver. -/
inductive Sink
  | kissat_add_unsatord (eidx : Nat)
  deriving DecidableEq

/-- A run of the loop of `kissat_parse_unsatord` that is cut off after a
    number of iterations: the function has returned, or it is still in the
    loop; `calls` are the calls made so far, oldest first. -/
inductive Loop
  | returned (calls : List Sink)
  | running (calls : List Sink)
  deriving DecidableEq

/-- Lines 506–510, at most `fuel` iterations of the loop: `eidx` is the value
    of the local variable (not initialised when the loop is entered), `calls`
    are the calls made before. The body runs whenever `fscanf` has not
    returned `EOF`, also when it has stored nothing. -/
def unsatord_loop : Nat → Nat → List Char → List Sink → Loop
  | 0, _, _, calls => .running calls
  | fuel + 1, eidx, input, calls =>
    match fscanf_u input with
    | .eof => .returned calls
    | .failure rest => unsatord_loop fuel eidx rest (calls ++ [.kissat_add_unsatord eidx])
    | .assigned v rest => unsatord_loop fuel v rest (calls ++ [.kissat_add_unsatord v])

/-- Lines 501–513 on the contents `file` of the input, cut off after `fuel`
    iterations; `eidx` is the indeterminate first value of the local variable. -/
def kissat_parse_unsatord (fuel : Nat) (eidx : Nat) (file : List Char) : Loop :=
  unsatord_loop fuel eidx file []

/-- Every character is white space. -/
def all_space (ws : List Char) : Prop :=
  ∀ c ∈ ws, isspace c = true

/-- `token_text vs text`: the text is the unsigned decimal numerals of the
    values `vs`, each below `2 ^ 32`, separated by white space, with white
    space allowed before the first and after the last. -/
inductive token_text : List Nat → List Char → Prop
  | done (ws : List Char) : all_space ws → token_text [] ws
  | last (ws ds : List Char) : all_space ws → all_digits ds → ds ≠ [] →
      decimal_value 0 ds < 2 ^ 32 → token_text [decimal_value 0 ds] (ws ++ ds)
  | more (ws ds : List Char) (w : Char) (rest : List Char) (vs : List Nat) :
      all_space ws → all_digits ds → ds ≠ [] → decimal_value 0 ds < 2 ^ 32 →
      isspace w = true → token_text vs (w :: rest) →
      token_text (decimal_value 0 ds :: vs) (ws ++ ds ++ w :: rest)

/-- The calls of lines 151–158: an option is set and reported, or a warning
    is made. -/
def is_option_call : Call → Bool
  | .kissat_options_set_opt _ _ => true
  | .kissat_verbose _ _ => true
  | .kissat_warning _ _ => true
  | _ => false

/-- Before line 273: only embedded options have been applied and
    `*max_var_ptr` has not been assigned. -/
def before_header (st : State) : Prop :=
  (∀ c ∈ st.calls, is_option_call c = true) ∧ st.max_var = none

/-- From line 276 on: after the embedded options the header with `V` has
    been announced, `kissat_reserve` has been called with `V`, and all calls
    since then are `kissat_add` calls; `*max_var_ptr` holds `V`. -/
def after_header (V : Int) (st : State) : Prop :=
  ∃ (C : Nat) (opts : List Call) (lits : List Int), (∀ c ∈ opts, is_option_call c = true) ∧
    st.calls = opts ++ (.kissat_message V C :: .kissat_reserve V :: lits.map .kissat_add) ∧
    st.max_var = some V

/-- The order of the calls, by program point. -/
def order_inv : Mode → State → Prop
  | .L281 b, st => after_header b.vars st
  | .L290 b, st => after_header b.vars st
  | .L297 b, st => after_header b.vars st
  | .L313 b, st => after_header b.vars st
  | .L330 b _ _, st => after_header b.vars st
  | .L352 b _ _, st => after_header b.vars st
  | .L358 b _ _, st => after_header b.vars st
  | _, st => before_header st

/-- The order of the calls when `parse_dimacs` returns. -/
def order_post (res : Option String) (st : State) : Prop :=
  (res ≠ none ∧ before_header st) ∨ ∃ V, after_header V st

/-- The header has been accepted: line 273 has announced it. -/
def header_accepted (calls : List Call) : Prop :=
  ∃ V C, Call.kissat_message V C ∈ calls

/-- The values that `NEXT ()` delivers at the end of the file before
    `parse_dimacs` returns from mode `m`: `EOF` once, or twice when control
    goes back to the top of the clause loop first. -/
def reads_eof (env : Env) (strict : strictness) (m : Mode) (st : State) : List (Option Char) :=
  match step env strict m EOF st with
  | .ret _ _ => [none]
  | .goto _ _ => [none, none]

/-- The values that the calls `NEXT ()` deliver, in order, from mode `m` until
    `parse_dimacs` returns: the characters of the input that are read (a
    prefix of it) and, if the end is reached, `EOF`. -/
def reads (env : Env) (strict : strictness) : Mode → State → List Char → List (Option Char)
  | m, st, [] => reads_eof env strict m st
  | m, st, c :: cs =>
    match step env strict m (some c) (next (some c) st) with
    | .ret _ _ => [some c]
    | .goto m' st' => some c :: reads env strict m' st' cs

/-- The messages that are returned through `nonl` (lines 62, 67, 187, 195, 198,
    201, 204, 213, 234, 319 and 369). -/
def via_nonl (res : Option String) : Bool :=
  decide (res ∈ [some "unexpected empty line", some "expected space after 'p'",
    some "expected 'c' after 'p '", some "expected 'n' after 'p c'",
    some "expected 'n' after 'p cn'", some "expected space after 'p cnf'",
    some "expected digit after 'p cnf '", some "unexpected new-line after maximum variable",
    some "unexpected new-line after '-'",
    some ("maximum variable index exceeded " ++ TRY_RELAXED_PARSING)])

/-- The decrement of `nonl`: 1 if the result was returned through `nonl` and
    the value that `NEXT ()` delivered last is a new-line, 0 otherwise. -/
def nonl_decrement (res : Option String) (rs : List (Option Char)) : Nat :=
  if via_nonl res = true ∧ rs.getLast? = some (some '\n') then 1 else 0

/-- `stricter a b`: `b` is the strictness one step below `a`. -/
def stricter (a b : strictness) : Prop :=
  (a = .PEDANTIC_PARSING ∧ b = .NORMAL_PARSING) ∨ (a = .NORMAL_PARSING ∧ b = .RELAXED_PARSING)

/-- The outcome `o'` follows the outcome `o`: the same program point and
    state if `o` goes on, the same state if `o` returns no error. -/
def follows (o' : Outcome) : Outcome → Prop
  | .goto m s => o' = .goto m s
  | .ret res s => res = none → o' = .ret none s

/-- `inserted pre d s s'`: the states `s` and `s'` are the same but for the
    calls `d`, which `s` has after the first calls `pre` and `s'` has not. -/
def inserted (pre d : List Call) (s s' : State) : Prop :=
  s.lineno = s'.lineno ∧ s.max_var = s'.max_var ∧
  s.nonl_assert_failed = s'.nonl_assert_failed ∧
  ∃ l, s'.calls = pre ++ l ∧ s.calls = pre ++ (d ++ l)

/-- Two outcomes are the same but for the calls `d` after `pre`. -/
def inserted_rel (pre d : List Call) : Outcome → Outcome → Prop
  | .ret r s, .ret r' s' => r = r' ∧ inserted pre d s s'
  | .goto m s, .goto m' s' => m = m' ∧ inserted pre d s s'
  | _, _ => False

/-- The run time value of the option `embedded` after the given calls, for an
    option table in which it starts switched on: the argument of the last
    `kissat_options_set_opt` for the name `embedded` decides. -/
def embedded_after (calls : List Call) : Bool :=
  calls.foldl
    (fun cur c =>
      match c with
      | .kissat_options_set_opt name arg =>
        if name = "embedded".toList then decide (arg ≠ 0) else cur
      | _ => cur)
    true

/-- The build of `env0` in which `GET_OPTION (embedded)` follows the option
    table: an embedded option `embedded` switches the feature itself. -/
def env1 : Env :=
  { env0 with GET_OPTION_embedded := embedded_after }

/-! ## Characters -/

theorem char_eq_iff (c d : Char) : c = d ↔ c.toNat = d.toNat := by
  constructor
  · rintro rfl; rfl
  · intro h
    apply Char.ext
    apply UInt32.ext
    exact h

theorem isdigit_iff (c : Char) : isdigit (some c) = true ↔ 48 ≤ c.toNat ∧ c.toNat ≤ 57 := by
  simp [isdigit]

theorem char_ne_of_toNat (c d : Char) (h : c.toNat ≠ d.toNat) : c ≠ d := by
  intro e; exact h (by rw [e])

/-- A digit is none of the characters the parser treats specially. -/
theorem digit_not_special (c : Char) (h : isdigit (some c) = true) :
    c ≠ ' ' ∧ c ≠ '\t' ∧ c ≠ '\n' ∧ c ≠ '\r' ∧ c ≠ 'c' ∧ c ≠ '-' ∧ c ≠ 'p' := by
  rw [isdigit_iff] at h
  refine ⟨?_, ?_, ?_, ?_, ?_, ?_, ?_⟩ <;> apply char_ne_of_toNat <;> simp <;> omega

theorem next_none (st : State) : next none st = st := by
  simp [next]

theorem next_of_ne (c : Char) (st : State) (h : c ≠ '\n') : next (some c) st = st := by
  simp [next, h]

theorem next_digit (c : Char) (st : State) (h : isdigit (some c) = true) :
    next (some c) st = st :=
  next_of_ne c st (digit_not_special c h).2.2.1

/-! ## Decimal numerals -/

theorem decimal_value_nil (acc : Nat) : decimal_value acc [] = acc := rfl

theorem decimal_value_cons (acc : Nat) (c : Char) (cs : List Char) :
    decimal_value acc (c :: cs) = decimal_value (acc * 10 + (c.toNat - 48)) cs := rfl

theorem decimal_value_ge (ds : List Char) : ∀ acc, acc ≤ decimal_value acc ds := by
  induction ds with
  | nil => intro acc; simp [decimal_value_nil]
  | cons c cs ih =>
    intro acc
    rw [decimal_value_cons]
    exact le_trans (by omega) (ih _)

theorem decimal_value_append (a b : List Char) :
    ∀ acc, decimal_value acc (a ++ b) = decimal_value (decimal_value acc a) b := by
  induction a with
  | nil => intro acc; simp [decimal_value_nil]
  | cons c cs ih => intro acc; simp [decimal_value_cons, ih]

theorem digitChar_spec : ∀ d < 10, isdigit (some (Nat.digitChar d)) = true ∧
    (Nat.digitChar d).toNat - 48 = d ∧ (0 < d → Nat.digitChar d ≠ '0') := by
  decide

theorem toDigitsCore_spec (fuel : Nat) : ∀ (n : Nat) (ds : List Char), n < fuel →
    ∃ pre, Nat.toDigitsCore 10 fuel n ds = pre ++ ds ∧ pre ≠ [] ∧ all_digits pre ∧
      (∀ acc, decimal_value acc pre = acc * 10 ^ pre.length + n) ∧
      (0 < n → pre.head? ≠ some '0') := by
  induction fuel with
  | zero => intro n ds h; omega
  | succ fuel ih =>
    intro n ds h
    have hd := digitChar_spec (n % 10) (Nat.mod_lt _ (by norm_num))
    simp only [Nat.toDigitsCore]
    by_cases h0 : n / 10 = 0
    · have hn : n % 10 = n := by omega
      rw [hn] at hd
      refine ⟨[Nat.digitChar (n % 10)], by simp [h0], by simp, ?_, ?_, ?_⟩
      · intro c hc; simp at hc; subst hc; rw [hn]; exact hd.1
      · intro acc; simp [decimal_value_cons, decimal_value_nil, hn, hd.2.1]
      · intro hpos; simp [hn]; exact hd.2.2 hpos
    · obtain ⟨pre, e, hne, hall, hval, hhead⟩ := ih (n / 10) (Nat.digitChar (n % 10) :: ds) (by omega)
      refine ⟨pre ++ [Nat.digitChar (n % 10)], by simp [h0, e], by simp, ?_, ?_, ?_⟩
      · intro c hc
        rcases List.mem_append.1 hc with hc | hc
        · exact hall c hc
        · simp at hc; subst hc; exact hd.1
      · intro acc
        rw [decimal_value_append, hval]
        simp only [decimal_value_cons, decimal_value_nil, List.length_append,
          List.length_singleton, hd.2.1, pow_succ]
        nlinarith [Nat.div_add_mod n 10]
      · intro _
        cases pre with
        | nil => exact absurd rfl hne
        | cons p ps => simpa using hhead (by omega)

theorem numeral_spec (n : Nat) : ∃ c cs, numeral n = c :: cs ∧ all_digits (c :: cs) ∧
    decimal_value 0 (c :: cs) = n ∧ (0 < n → c ≠ '0') := by
  obtain ⟨pre, e, hne, hall, hval, hhead⟩ := toDigitsCore_spec (n + 1) n [] (by omega)
  cases pre with
  | nil => exact absurd rfl hne
  | cons c cs =>
    refine ⟨c, cs, by simpa [numeral, Nat.toDigits] using e, hall, by simpa using hval 0, ?_⟩
    intro h; simpa using hhead h

/-! ## Running the program -/

theorem exec_append (env : Env) (strict : strictness) (a b : List Char) :
    ∀ (m : Mode) (st : State), exec env strict m st (a ++ b) =
      match exec env strict m st a with
      | .ret res st' => .ret res st'
      | .goto m' st' => exec env strict m' st' b := by
  induction a with
  | nil => intro m st; simp [exec]
  | cons c cs ih =>
    intro m st
    simp only [List.cons_append, exec]
    cases h : step env strict m (some c) (next (some c) st) with
    | ret res st' => simp
    | goto m' st' => simp [ih]

theorem exec_goto_append (env : Env) (strict : strictness) (a b : List Char) (m m' : Mode)
    (st st' : State) (h : exec env strict m st a = .goto m' st') :
    exec env strict m st (a ++ b) = exec env strict m' st' b := by
  rw [exec_append, h]

theorem exec_ret_append (env : Env) (strict : strictness) (a b : List Char) (m : Mode)
    (st st' : State) (res : Option String) (h : exec env strict m st a = .ret res st') :
    exec env strict m st (a ++ b) = .ret res st' := by
  rw [exec_append, h]

theorem exec_cons_goto (env : Env) (strict : strictness) (c : Char) (cs : List Char)
    (m m' : Mode) (st st' : State)
    (h : step env strict m (some c) (next (some c) st) = .goto m' st') :
    exec env strict m st (c :: cs) = exec env strict m' st' cs := by
  simp only [exec, h]

theorem exec_cons_ret (env : Env) (strict : strictness) (c : Char) (cs : List Char)
    (m : Mode) (st st' : State) (res : Option String)
    (h : step env strict m (some c) (next (some c) st) = .ret res st') :
    exec env strict m st (c :: cs) = .ret res st' := by
  simp only [exec, h]

theorem run_goto (env : Env) (strict : strictness) (a b : List Char) (m m' : Mode)
    (st st' : State) (h : exec env strict m st a = .goto m' st') :
    run env strict m st (a ++ b) = run env strict m' st' b := by
  simp only [run, exec_goto_append env strict a b m m' st st' h]

theorem run_ret (env : Env) (strict : strictness) (a b : List Char) (m : Mode)
    (st st' : State) (res : Option String) (h : exec env strict m st a = .ret res st') :
    run env strict m st (a ++ b) = ⟨res, st'⟩ := by
  simp only [run, exec_ret_append env strict a b m st st' res h]

theorem run_nil (env : Env) (strict : strictness) (m : Mode) (st : State) :
    run env strict m st [] = at_eof env strict m st := by
  simp [run, exec]

/-! ## End of file -/

theorem step_eof_goto (env : Env) (strict : strictness) (m m' : Mode) (st st' : State)
    (h : step env strict m EOF st = .goto m' st') : ∃ b, m' = .L281 b := by
  cases m <;> simp only [step, EOF, COMPLETE, option_value, option_end, header_c,
    header_variables, header_clauses, header_cr, header_end, isdigit, is_lower, is_blank,
    after_literal, finish] at h <;> simp at h <;> split_ifs at h <;> simp_all <;>
    exact ⟨_, h.1.symm⟩

theorem finish_ret (strict : strictness) (b : Body) (st : State) :
    ∃ res, finish strict b st = .ret res st := by
  unfold finish; split_ifs <;> simp

theorem step_L281_eof (env : Env) (strict : strictness) (b : Body) (st : State) :
    step env strict (.L281 b) EOF st = finish strict b st := by
  simp [step, EOF]

/-- At the end of the file `parse_dimacs` returns at the first `EOF`, or goes
    once more to the top of the clause loop and returns from `finish` at the
    second. -/
theorem at_eof_returns (env : Env) (strict : strictness) (m : Mode) (st : State) :
    (∃ res st', step env strict m EOF st = .ret res st' ∧ at_eof env strict m st = ⟨res, st'⟩) ∨
    (∃ b st' res, step env strict m EOF st = .goto (.L281 b) st' ∧
      finish strict b st' = .ret res st' ∧ at_eof env strict m st = ⟨res, st'⟩) := by
  cases h : step env strict m EOF st with
  | ret res st' => left; exact ⟨res, st', rfl, by simp [at_eof, h]⟩
  | goto m' st' =>
    right
    obtain ⟨b, rfl⟩ := step_eof_goto env strict m m' st st' h
    obtain ⟨res, hres⟩ := finish_ret strict b st'
    exact ⟨b, st', res, rfl, hres, by simp [at_eof, h, at_eof_again, step_L281_eof, hres]⟩

/-! ## Invariants -/

theorem exec_sat (env : Env) (strict : strictness) (P : Mode → State → Prop)
    (Q : Option String → State → Prop)
    (hstep : ∀ m ch st, P m st → (step env strict m ch (next ch st)).sat P Q)
    (input : List Char) : ∀ m st, P m st → (exec env strict m st input).sat P Q := by
  induction input with
  | nil => intro m st h; simpa [exec, Outcome.sat] using h
  | cons c cs ih =>
    intro m st h
    have hs := hstep m (some c) st h
    simp only [exec]
    cases e : step env strict m (some c) (next (some c) st) with
    | ret res st' => rw [e] at hs; simpa [Outcome.sat] using hs
    | goto m' st' => rw [e] at hs; exact ih m' st' (by simpa [Outcome.sat] using hs)

theorem at_eof_sat (env : Env) (strict : strictness) (P : Mode → State → Prop)
    (Q : Option String → State → Prop)
    (hstep : ∀ m ch st, P m st → (step env strict m ch (next ch st)).sat P Q)
    (m : Mode) (st : State) (h : P m st) :
    Q (at_eof env strict m st).error (at_eof env strict m st).state := by
  have h1 := hstep m EOF st h
  rw [show next EOF st = st from next_none st] at h1
  rcases at_eof_returns env strict m st with ⟨res, st', e, e'⟩ | ⟨b, st', res, e, ef, e'⟩
  · rw [e] at h1; rw [e']; exact h1
  · rw [e] at h1
    have h2 := hstep (.L281 b) EOF st' h1
    rw [show next EOF st' = st' from next_none st', step_L281_eof, ef] at h2
    rw [e']; exact h2

theorem run_sat (env : Env) (strict : strictness) (P : Mode → State → Prop)
    (Q : Option String → State → Prop)
    (hstep : ∀ m ch st, P m st → (step env strict m ch (next ch st)).sat P Q)
    (input : List Char) (m : Mode) (st : State) (h : P m st) :
    Q (run env strict m st input).error (run env strict m st input).state := by
  have h1 := exec_sat env strict P Q hstep input m st h
  unfold run
  cases e : exec env strict m st input with
  | ret res st' => rw [e] at h1; exact h1
  | goto m' st' => rw [e] at h1; exact at_eof_sat env strict P Q hstep m' st' h1


/-! ## The numeral loops -/

theorem digit_of_digit (c : Char) (h : isdigit (some c) = true) :
    digit_of (some c) = ((c.toNat - 48 : Nat) : Int) := by
  rw [isdigit_iff] at h
  simp only [digit_of, Char.reduceToNat]
  omega

theorem accumulate_digit (bound n : Nat) (c : Char) (h : isdigit (some c) = true) :
    accumulate bound n (some c) =
      if n * 10 + (c.toNat - 48) ≤ bound then some ((n * 10 + (c.toNat - 48) : Nat) : Int)
      else none := by
  rw [isdigit_iff] at h
  simp only [accumulate, digit_of, Char.reduceToNat, Nat.cast_ofNat]
  split_ifs <;> first | omega | (simp <;> omega)

theorem accumulate_clauses_digit (n : Nat) (c : Char) (h : isdigit (some c) = true)
    (hn : n < 2 ^ 64) :
    accumulate_clauses n (some c) =
      if n * 10 + (c.toNat - 48) < 2 ^ 64 then some (n * 10 + (c.toNat - 48)) else none := by
  rw [isdigit_iff] at h
  simp only [accumulate_clauses, digit_of, Char.reduceToNat, UINT64_MAX, Nat.cast_ofNat]
  have e : ((c.toNat : Int) - 48).toNat = c.toNat - 48 := by omega
  rw [e]
  norm_num at hn ⊢
  generalize c.toNat - 48 = d at *
  have hd : d ≤ 9 := by omega
  by_cases h1 : 1844674407370955161 < n
  · rw [if_pos h1, if_neg (by omega)]
  · rw [if_neg h1]
    have e1 : (18446744073709551615 - d) % 18446744073709551616 = 18446744073709551615 - d :=
      Nat.mod_eq_of_lt (by omega)
    have e2 : n * 10 % 18446744073709551616 = n * 10 := Nat.mod_eq_of_lt (by omega)
    rw [e1, e2]
    by_cases h2 : 18446744073709551615 - d < n * 10
    · rw [if_pos h2, if_neg (by omega)]
    · rw [if_neg h2, if_pos (by omega), Nat.mod_eq_of_lt (by omega)]

theorem exec_L214_digits (env : Env) (strict : strictness) (ds : List Char)
    (hd : all_digits ds) : ∀ (n : Nat) (st : State), n ≤ env.EXTERNAL_MAX_VAR →
    exec env strict (.L214 n) st ds =
      if decimal_value n ds ≤ env.EXTERNAL_MAX_VAR then
        .goto (.L214 (decimal_value n ds : Nat)) st
      else .ret (some "maximum variable too large") st := by
  induction ds with
  | nil => intro n st hn; simp [exec, decimal_value_nil, hn]
  | cons c cs ih =>
    intro n st hn
    have hc : isdigit (some c) = true := hd c (by simp)
    have hcs : all_digits cs := fun x hx => hd x (by simp [hx])
    rw [decimal_value_cons]
    by_cases hle : n * 10 + (c.toNat - 48) ≤ env.EXTERNAL_MAX_VAR
    · rw [exec_cons_goto env strict c cs _ (.L214 ((n * 10 + (c.toNat - 48) : Nat) : Int)) st st
        (by simp [step, hc, next_digit, accumulate_digit, hle])]
      exact ih hcs _ st hle
    · have := decimal_value_ge cs (n * 10 + (c.toNat - 48))
      rw [exec_cons_ret env strict c cs _ st st (some "maximum variable too large")
        (by simp [step, hc, next_digit, accumulate_digit, hle])]
      rw [if_neg (by omega)]

theorem exec_L246_digits (env : Env) (strict : strictness) (V : Int) (ds : List Char)
    (hd : all_digits ds) : ∀ (n : Nat) (st : State), n < 2 ^ 64 →
    exec env strict (.L246 V n) st ds =
      if decimal_value n ds < 2 ^ 64 then .goto (.L246 V (decimal_value n ds)) st
      else .ret (some "number of clauses too large") st := by
  induction ds with
  | nil => intro n st hn; simp only [exec, decimal_value_nil]; rw [if_pos hn]
  | cons c cs ih =>
    intro n st hn
    have hc : isdigit (some c) = true := hd c (by simp)
    have hcs : all_digits cs := fun x hx => hd x (by simp [hx])
    rw [decimal_value_cons]
    have e := accumulate_clauses_digit n c hc hn
    by_cases hle : n * 10 + (c.toNat - 48) < 2 ^ 64
    · rw [if_pos hle] at e
      rw [exec_cons_goto env strict c cs _ (.L246 V (n * 10 + (c.toNat - 48))) st st
        (by simp [step, hc, next_digit, e])]
      exact ih hcs _ st hle
    · have := decimal_value_ge cs (n * 10 + (c.toNat - 48))
      rw [if_neg hle] at e
      rw [exec_cons_ret env strict c cs _ st st (some "number of clauses too large")
        (by simp [step, hc, next_digit, e])]
      rw [if_neg (by omega)]

theorem exec_L330_digits (env : Env) (strict : strictness) (b : Body) (sign : Int)
    (ds : List Char) (hd : all_digits ds) : ∀ (n : Nat) (st : State),
    n ≤ env.EXTERNAL_MAX_VAR →
    exec env strict (.L330 b sign n) st ds =
      if decimal_value n ds ≤ env.EXTERNAL_MAX_VAR then
        .goto (.L330 b sign (decimal_value n ds : Nat)) st
      else .ret (some "variable index too large") st := by
  induction ds with
  | nil => intro n st hn; simp [exec, decimal_value_nil, hn]
  | cons c cs ih =>
    intro n st hn
    have hc : isdigit (some c) = true := hd c (by simp)
    have hcs : all_digits cs := fun x hx => hd x (by simp [hx])
    rw [decimal_value_cons]
    by_cases hle : n * 10 + (c.toNat - 48) ≤ env.EXTERNAL_MAX_VAR
    · rw [exec_cons_goto env strict c cs _ (.L330 b sign ((n * 10 + (c.toNat - 48) : Nat) : Int))
        st st (by simp [step, hc, next_digit, accumulate_digit, hle])]
      exact ih hcs _ st hle
    · have := decimal_value_ge cs (n * 10 + (c.toNat - 48))
      rw [exec_cons_ret env strict c cs _ st st (some "variable index too large")
        (by simp [step, hc, next_digit, accumulate_digit, hle])]
      rw [if_neg (by omega)]


/-! ## The header line -/

theorem blank_not_special (c : Char) (h : c = ' ' ∨ c = '\t') :
    c ≠ '\n' ∧ c ≠ '\r' ∧ c ≠ 'c' ∧ isdigit (some c) = false ∧ is_blank (some c) = true := by
  rcases h with rfl | rfl <;> decide

theorem digit_not_blank (c : Char) (h : isdigit (some c) = true) : is_blank (some c) = false := by
  have := digit_not_special c h
  simp [is_blank, this]

theorem exec_p_cnf (env : Env) (strict : strictness) (first : Bool) (st : State)
    (ws : List Char) (hws : blanks ws) (hp : strict = .PEDANTIC_PARSING → ws = [])
    (rest : List Char) :
    exec env strict (.L45 first) st ('p' :: ' ' :: (ws ++ 'c' :: 'n' :: 'f' :: ' ' :: rest)) =
      exec env strict .L205 st rest := by
  have h192 : ∀ ws, blanks ws →
      exec env strict .L192 st (ws ++ 'c' :: 'n' :: 'f' :: ' ' :: rest) =
        exec env strict .L205 st rest := by
    intro ws
    induction ws with
    | nil => intro _; simp [exec, step, next, header_c, is_blank]
    | cons w ws ih =>
      intro h
      have hw := blank_not_special w (h w (by simp))
      rw [List.cons_append, exec_cons_goto env strict w _ _ .L192 st st
        (by simp [step, next_of_ne, hw])]
      exact ih (fun x hx => h x (by simp [hx]))
  cases ws with
  | nil => simp [exec, step, next, header_c, is_blank]
  | cons w ws =>
    have hs : strict ≠ .PEDANTIC_PARSING := fun e => by simpa using hp e
    have hw := blank_not_special w (hws w (by simp))
    rw [exec_cons_goto env strict 'p' _ _ .L185 st st (by simp [step, next]),
      exec_cons_goto env strict ' ' _ _ .L188 st st (by simp [step, next]),
      List.cons_append, exec_cons_goto env strict w _ _ .L192 st st
        (by simp [step, next_of_ne, hw, hs])]
    exact h192 ws (fun x hx => hws x (by simp [hx]))

theorem exec_L205_first (env : Env) (strict : strictness) (st : State)
    (ws : List Char) (hws : blanks ws) (hp : strict = .PEDANTIC_PARSING → ws = [])
    (c : Char) (hc : isdigit (some c) = true) (rest : List Char) :
    exec env strict .L205 st (ws ++ c :: rest) =
      exec env strict (.L214 ((c.toNat - 48 : Nat) : Int)) st rest := by
  have hnb := digit_not_blank c hc
  have h209 : ∀ ws, blanks ws → exec env strict .L209 st (ws ++ c :: rest) =
      exec env strict (.L214 ((c.toNat - 48 : Nat) : Int)) st rest := by
    intro ws
    induction ws with
    | nil =>
      intro _
      rw [List.nil_append, exec_cons_goto env strict c _ _
        (.L214 ((c.toNat - 48 : Nat) : Int)) st st
        (by simp [step, next_digit, header_variables, hc, hnb, digit_of_digit])]
    | cons w ws ih =>
      intro h
      have hw := blank_not_special w (h w (by simp))
      rw [List.cons_append, exec_cons_goto env strict w _ _ .L209 st st
        (by simp [step, next_of_ne, hw])]
      exact ih (fun x hx => h x (by simp [hx]))
  cases ws with
  | nil =>
    rw [List.nil_append, exec_cons_goto env strict c _ _
      (.L214 ((c.toNat - 48 : Nat) : Int)) st st
      (by simp [step, next_digit, header_variables, hc, hnb, digit_of_digit])]
  | cons w ws =>
    have hs : strict ≠ .PEDANTIC_PARSING := fun e => by simpa using hp e
    have hw := blank_not_special w (hws w (by simp))
    rw [List.cons_append, exec_cons_goto env strict w _ _ .L209 st st
        (by simp [step, next_of_ne, hw, hs])]
    exact h209 ws (fun x hx => hws x (by simp [hx]))

theorem exec_L237_first (env : Env) (strict : strictness) (V : Int) (st : State)
    (ws : List Char) (hws : blanks ws) (hp : strict = .PEDANTIC_PARSING → ws = [])
    (c : Char) (hc : isdigit (some c) = true) (rest : List Char) :
    exec env strict (.L237 V) st (ws ++ c :: rest) =
      exec env strict (.L246 V (c.toNat - 48)) st rest := by
  have hnb := digit_not_blank c hc
  have hd : (digit_of (some c)).toNat = c.toNat - 48 := by
    rw [digit_of_digit c hc]; simp
  have h241 : ∀ ws, blanks ws → exec env strict (.L241 V) st (ws ++ c :: rest) =
      exec env strict (.L246 V (c.toNat - 48)) st rest := by
    intro ws
    induction ws with
    | nil =>
      intro _
      rw [List.nil_append, exec_cons_goto env strict c _ _
        (.L246 V (c.toNat - 48)) st st
        (by simp [step, next_digit, header_clauses, hc, hnb, hd])]
    | cons w ws ih =>
      intro h
      have hw := blank_not_special w (h w (by simp))
      rw [List.cons_append, exec_cons_goto env strict w _ _ (.L241 V) st st
        (by simp [step, next_of_ne, hw])]
      exact ih (fun x hx => h x (by simp [hx]))
  cases ws with
  | nil =>
    rw [List.nil_append, exec_cons_goto env strict c _ _
      (.L246 V (c.toNat - 48)) st st
      (by simp [step, next_digit, header_clauses, hc, hnb, hd])]
  | cons w ws =>
    have hs : strict ≠ .PEDANTIC_PARSING := fun e => by simpa using hp e
    have hw := blank_not_special w (hws w (by simp))
    rw [List.cons_append, exec_cons_goto env strict w _ _ (.L241 V) st st
        (by simp [step, next_of_ne, hw, hs])]
    exact h241 ws (fun x hx => hws x (by simp [hx]))

theorem exec_L246_end (env : Env) (strict : strictness) (V : Int) (C : Nat) (st : State)
    (ws : List Char) (hws : blanks ws) (hp : strict = .PEDANTIC_PARSING → ws = [])
    (eol : List Char) (heol : is_eol eol) :
    exec env strict (.L246 V C) st (ws ++ eol) =
      .goto (.L281 { vars := V, clauses := C, parsed := 0, lit := 0 }) (header_state V C st) := by
  have hend : ∀ m, (m = .L246 V C ∨ m = .L261 V C) → exec env strict m st eol =
      .goto (.L281 { vars := V, clauses := C, parsed := 0, lit := 0 })
        (header_state V C st) := by
    intro m hm
    rcases hm with rfl | rfl <;> rcases heol with rfl | rfl <;>
      simp [exec, step, next, isdigit, is_blank, header_cr, header_end, EOF, header_state]
  have h261 : ∀ ws, blanks ws → exec env strict (.L261 V C) st (ws ++ eol) =
      .goto (.L281 { vars := V, clauses := C, parsed := 0, lit := 0 })
        (header_state V C st) := by
    intro ws
    induction ws with
    | nil => intro _; exact hend _ (Or.inr rfl)
    | cons w ws ih =>
      intro h
      have hw := blank_not_special w (h w (by simp))
      rw [List.cons_append, exec_cons_goto env strict w _ _ (.L261 V C) st st
        (by simp [step, next_of_ne, hw])]
      exact ih (fun x hx => h x (by simp [hx]))
  cases ws with
  | nil => exact hend _ (Or.inl rfl)
  | cons w ws =>
    have hs : strict ≠ .PEDANTIC_PARSING := fun e => by simpa using hp e
    have hw := blank_not_special w (hws w (by simp))
    rw [List.cons_append, exec_cons_goto env strict w _ _ (.L261 V C) st st
        (by simp [step, next_of_ne, hw, hs, EOF])]
    exact h261 ws (fun x hx => hws x (by simp [hx]))


theorem exec_L214_space (env : Env) (strict : strictness) (V : Int) (st : State)
    (rest : List Char) :
    exec env strict (.L214 V) st (' ' :: rest) = exec env strict (.L237 V) st rest := by
  rw [exec_cons_goto env strict ' ' _ _ (.L237 V) st st (by simp [step, next, isdigit, EOF])]

/-- A well-formed header line is accepted: control reaches the clause loop
    with the declared counts. -/
theorem exec_header_line (env : Env) (strict : strictness) (first : Bool) (st : State)
    (ws1 ws2 ws3 ws4 dV dC eol : List Char)
    (h1 : blanks ws1) (h2 : blanks ws2) (h3 : blanks ws3) (h4 : blanks ws4)
    (hp : strict = .PEDANTIC_PARSING → ws1 = [] ∧ ws2 = [] ∧ ws3 = [] ∧ ws4 = [])
    (hdV : all_digits dV) (hV0 : dV ≠ []) (hdC : all_digits dC) (hC0 : dC ≠ [])
    (hV : decimal_value 0 dV ≤ env.EXTERNAL_MAX_VAR) (hC : decimal_value 0 dC < 2 ^ 64)
    (heol : is_eol eol) :
    exec env strict (.L45 first) st (header_line ws1 ws2 ws3 ws4 dV dC eol) =
      .goto (.L281 { vars := (decimal_value 0 dV : Nat), clauses := decimal_value 0 dC,
                     parsed := 0, lit := 0 })
        (header_state (decimal_value 0 dV : Nat) (decimal_value 0 dC) st) := by
  cases dV with
  | nil => exact absurd rfl hV0
  | cons v vs =>
  cases dC with
  | nil => exact absurd rfl hC0
  | cons c cs =>
  have hv : isdigit (some v) = true := hdV v (by simp)
  have hvs : all_digits vs := fun x hx => hdV x (by simp [hx])
  have hc : isdigit (some c) = true := hdC c (by simp)
  have hcs : all_digits cs := fun x hx => hdC x (by simp [hx])
  have eV : decimal_value 0 (v :: vs) = decimal_value (v.toNat - 48) vs := by
    simp [decimal_value_cons]
  have eC : decimal_value 0 (c :: cs) = decimal_value (c.toNat - 48) cs := by
    simp [decimal_value_cons]
  have hv9 : v.toNat - 48 ≤ env.EXTERNAL_MAX_VAR :=
    le_trans (decimal_value_ge vs _) (eV ▸ hV)
  have hc9 : c.toNat - 48 < 2 ^ 64 :=
    lt_of_le_of_lt (decimal_value_ge cs _) (eC ▸ hC)
  unfold header_line
  rw [exec_p_cnf env strict first st ws1 h1 (fun e => (hp e).1),
    List.cons_append, exec_L205_first env strict st ws2 h2 (fun e => (hp e).2.1) v hv,
    exec_goto_append env strict vs _ _ _ st st
      ((exec_L214_digits env strict vs hvs _ st hv9).trans (if_pos (eV ▸ hV))),
    exec_L214_space, List.cons_append,
    exec_L237_first env strict _ st ws3 h3 (fun e => (hp e).2.2.1) c hc,
    exec_goto_append env strict cs _ _ _ st st
      ((exec_L246_digits env strict _ cs hcs _ st hc9).trans (if_pos (eC ▸ hC))),
    exec_L246_end env strict _ _ st ws4 h4 (fun e => (hp e).2.2.2) eol heol, eV, eC]

theorem header_text_eq (V C : Nat) :
    header_text V C = header_line [] [] [] [] (numeral V) (numeral C) ['\n'] := by
  simp [header_text, header_line]

theorem blanks_nil : blanks [] := by
  intro c hc; simp at hc

/-- The canonical header `p cnf V C` is accepted in every mode. -/
theorem exec_header_text (env : Env) (strict : strictness) (first : Bool) (st : State)
    (V C : Nat) (hV : V ≤ env.EXTERNAL_MAX_VAR) (hC : C < 2 ^ 64) :
    exec env strict (.L45 first) st (header_text V C) =
      .goto (.L281 { vars := V, clauses := C, parsed := 0, lit := 0 })
        (header_state V C st) := by
  obtain ⟨v, vs, eV, hdV, hvV, -⟩ := numeral_spec V
  obtain ⟨c, cs, eC, hdC, hvC, -⟩ := numeral_spec C
  have := exec_header_line env strict first st [] [] [] [] (numeral V) (numeral C) ['\n']
    blanks_nil blanks_nil blanks_nil blanks_nil (fun _ => ⟨rfl, rfl, rfl, rfl⟩)
    (eV ▸ hdV) (by simp [eV]) (eC ▸ hdC) (by simp [eC]) (by rw [eV, hvV]; exact hV)
    (by rw [eC, hvC]; exact hC) (Or.inl rfl)
  rw [eV, hvV, eC, hvC] at this
  rw [header_text_eq, eV, eC]
  exact this


/-! ## Numerals and clauses in the clause loop -/

theorem adds_append (a b : List Call) : adds (a ++ b) = adds a ++ adds b := by
  induction a with
  | nil => simp [adds]
  | cons c cs ih => cases c <;> simp [adds, ih]

theorem adds_map_add (lits : List Int) : adds (lits.map Call.kissat_add) = lits := by
  induction lits with
  | nil => simp [adds]
  | cons l ls ih => simp [adds, ih]

/-- An unsigned numeral at the start of a token: the digit loop of line 330
    is reached with its value. -/
theorem exec_L281_numeral (env : Env) (strict : strictness) (b : Body) (st : State)
    (c : Char) (cs : List Char) (hd : all_digits (c :: cs))
    (hm : decimal_value 0 (c :: cs) ≤ env.EXTERNAL_MAX_VAR) :
    exec env strict (.L281 b) st (c :: cs) =
      .goto (.L330 b 1 (decimal_value 0 (c :: cs) : Nat)) st := by
  have hc : isdigit (some c) = true := hd c (by simp)
  have hcs : all_digits cs := fun x hx => hd x (by simp [hx])
  have e : decimal_value 0 (c :: cs) = decimal_value (c.toNat - 48) cs := by
    simp [decimal_value_cons]
  have hsp := digit_not_special c hc
  rw [exec_cons_goto env strict c cs _ (.L330 b 1 ((c.toNat - 48 : Nat) : Int)) st st
      (by simp [step, next_digit, hc, hsp, EOF, digit_of_digit]),
    exec_L330_digits env strict b 1 cs hcs _ st (le_trans (decimal_value_ge cs _) (e ▸ hm)),
    if_pos (e ▸ hm), e]

/-- A numeral after `-`, not starting with `0`. -/
theorem exec_L281_minus_numeral (env : Env) (strict : strictness) (b : Body) (st : State)
    (c : Char) (cs : List Char) (hd : all_digits (c :: cs)) (h0 : c ≠ '0')
    (hm : decimal_value 0 (c :: cs) ≤ env.EXTERNAL_MAX_VAR) :
    exec env strict (.L281 b) st ('-' :: c :: cs) =
      .goto (.L330 b (-1) (decimal_value 0 (c :: cs) : Nat)) st := by
  have hc : isdigit (some c) = true := hd c (by simp)
  have hcs : all_digits cs := fun x hx => hd x (by simp [hx])
  have e : decimal_value 0 (c :: cs) = decimal_value (c.toNat - 48) cs := by
    simp [decimal_value_cons]
  have hsp := digit_not_special c hc
  rw [exec_cons_goto env strict '-' _ _ (.L313 b) st st (by simp [step, next, EOF]),
    exec_cons_goto env strict c cs _ (.L330 b (-1) ((c.toNat - 48 : Nat) : Int)) st st
      (by simp [step, next_digit, hc, hsp, h0, EOF, digit_of_digit]),
    exec_L330_digits env strict b (-1) cs hcs _ st (le_trans (decimal_value_ge cs _) (e ▸ hm)),
    if_pos (e ▸ hm), e]

/-- The canonical text of a non-zero literal `l` brings the parser to the
    end of the digit loop with sign and magnitude of `l`. -/
theorem exec_literal_text (env : Env) (strict : strictness) (b : Body) (st : State)
    (l : Int) (h0 : l ≠ 0) (hm : l.natAbs ≤ env.EXTERNAL_MAX_VAR) :
    ∃ sign : Int, sign * (l.natAbs : Int) = l ∧
      exec env strict (.L281 b) st (literal_text l) = .goto (.L330 b sign (l.natAbs : Nat)) st := by
  obtain ⟨c, cs, e, hd, hv, hnz⟩ := numeral_spec l.natAbs
  have hpos : 0 < l.natAbs := Int.natAbs_pos.2 h0
  by_cases hneg : l < 0
  · refine ⟨-1, by omega, ?_⟩
    have := exec_L281_minus_numeral env strict b st c cs hd (hnz hpos) (by rw [hv]; exact hm)
    rw [hv] at this
    simp only [literal_text, if_pos hneg, e]
    exact this
  · refine ⟨1, by omega, ?_⟩
    have := exec_L281_numeral env strict b st c cs hd (by rw [hv]; exact hm)
    rw [hv] at this
    simp only [literal_text, if_neg hneg, e]
    exact this

/-- Lines 368–376 and 384: a non-zero index within the declared range (or any
    index under `RELAXED_PARSING`) is handed to `kissat_add` with its sign. -/
theorem after_literal_add (strict : strictness) (b : Body) (sign idx : Int)
    (ch : Option Char) (st : State) (h0 : idx ≠ 0)
    (hV : strict ≠ .RELAXED_PARSING → idx ≤ b.vars) :
    after_literal strict b sign idx ch st =
      .goto (.L281 { b with lit := sign * idx })
        { st with calls := st.calls ++ [.kissat_add (sign * idx)] } := by
  unfold after_literal
  rw [if_neg (fun h => absurd h.2 (not_lt.2 (hV h.1))), if_pos h0]

/-- Lines 368–384 for the terminator `0`. -/
theorem after_literal_zero (strict : strictness) (b : Body) (sign : Int)
    (ch : Option Char) (st : State) (hV : strict ≠ .RELAXED_PARSING → 0 ≤ b.vars)
    (hC : strict ≠ .RELAXED_PARSING → b.parsed ≠ b.clauses) :
    after_literal strict b sign 0 ch st =
      .goto (.L281 { b with parsed := (b.parsed + 1) % 2 ^ 64, lit := 0 })
        { st with calls := st.calls ++ [.kissat_add 0] } := by
  unfold after_literal
  rw [if_neg (fun h => absurd h.2 (not_lt.2 (hV h.1))), if_neg (by simp),
    if_neg (fun h => hC h.1 h.2)]

/-- Lines 368–370: an index above the declared count outside
    `RELAXED_PARSING`. -/
theorem after_literal_exceeds (strict : strictness) (b : Body) (sign idx : Int)
    (ch : Option Char) (st : State) (hs : strict ≠ .RELAXED_PARSING) (hV : b.vars < idx) :
    after_literal strict b sign idx ch st =
      .ret (some ("maximum variable index exceeded " ++ TRY_RELAXED_PARSING)) (nonl ch st) := by
  unfold after_literal
  rw [if_pos ⟨hs, hV⟩]

/-- A canonical literal followed by a space is handed to `kissat_add`. -/
theorem exec_literal (env : Env) (strict : strictness) (b : Body) (st : State)
    (l : Int) (h0 : l ≠ 0) (hm : l.natAbs ≤ env.EXTERNAL_MAX_VAR)
    (hV : strict ≠ .RELAXED_PARSING → (l.natAbs : Int) ≤ b.vars) (rest : List Char) :
    exec env strict (.L281 b) st (literal_text l ++ ' ' :: rest) =
      exec env strict (.L281 { b with lit := l })
        { st with calls := st.calls ++ [.kissat_add l] } rest := by
  obtain ⟨sign, hs, e⟩ := exec_literal_text env strict b st l h0 hm
  have hne : (l.natAbs : Int) ≠ 0 := by omega
  have hstep : step env strict (.L330 b sign (l.natAbs : Nat)) (some ' ') (next (some ' ') st) =
      after_literal strict b sign (l.natAbs : Nat) (some ' ') st := by
    simp [step, next, isdigit, EOF]
  rw [exec_goto_append env strict _ _ _ _ st st e,
    exec_cons_goto env strict ' ' rest _ (.L281 { b with lit := l }) st
      { st with calls := st.calls ++ [.kissat_add l] }
      (by rw [hstep, after_literal_add strict b sign _ _ st hne hV, hs])]

/-- The terminator `0` and the new-line after it. -/
theorem exec_zero (env : Env) (strict : strictness) (b : Body) (st : State)
    (hV : strict ≠ .RELAXED_PARSING → 0 ≤ b.vars)
    (hC : strict ≠ .RELAXED_PARSING → b.parsed ≠ b.clauses) (rest : List Char) :
    exec env strict (.L281 b) st ('0' :: '\n' :: rest) =
      exec env strict (.L281 { b with parsed := (b.parsed + 1) % 2 ^ 64, lit := 0 })
        (body_state 1 [0] st) rest := by
  have hstep : step env strict (.L330 b 1 0) (some '\n') (next (some '\n') st) =
      after_literal strict b 1 0 (some '\n') (next (some '\n') st) := by
    simp [step, isdigit, EOF]
  rw [exec_cons_goto env strict '0' _ _ (.L330 b 1 0) st st
      (by simp [step, next, isdigit, EOF, digit_of]),
    exec_cons_goto env strict '\n' rest _
      (.L281 { b with parsed := (b.parsed + 1) % 2 ^ 64, lit := 0 })
      st (body_state 1 [0] st)
      (by rw [hstep, after_literal_zero strict b 1 _ _ hV hC]; simp [next, body_state])]

/-- A canonical clause is handed to `kissat_add` literal by literal and
    closed by `0`. -/
theorem exec_clause (env : Env) (strict : strictness) (c : List Int) :
    ∀ (b : Body) (st : State) (rest : List Char),
    (∀ l ∈ c, l ≠ 0 ∧ l.natAbs ≤ env.EXTERNAL_MAX_VAR ∧
      (strict ≠ .RELAXED_PARSING → (l.natAbs : Int) ≤ b.vars)) →
    (strict ≠ .RELAXED_PARSING → 0 ≤ b.vars) →
    (strict ≠ .RELAXED_PARSING → b.parsed ≠ b.clauses) →
    exec env strict (.L281 b) st (clause_text c ++ rest) =
      exec env strict (.L281 { b with parsed := (b.parsed + 1) % 2 ^ 64, lit := 0 })
        (body_state 1 (c ++ [0]) st) rest := by
  induction c with
  | nil =>
    intro b st rest _ hV hC
    simpa [clause_text] using exec_zero env strict b st hV hC rest
  | cons l ls ih =>
    intro b st rest hl hV hC
    have h := hl l (by simp)
    simp only [clause_text, List.append_assoc, List.cons_append]
    rw [exec_literal env strict b st l h.1 h.2.1 h.2.2,
      ih { b with lit := l } { st with calls := st.calls ++ [.kissat_add l] } rest
        (fun x hx => hl x (by simp [hx])) hV hC]
    simp [body_state]

/-- A canonical list of clauses: every clause is handed over and counted. -/
theorem exec_body (env : Env) (strict : strictness) (cs : List (List Int)) :
    ∀ (b : Body) (st : State) (rest : List Char),
    (∀ c ∈ cs, ∀ l ∈ c, l ≠ 0 ∧ l.natAbs ≤ env.EXTERNAL_MAX_VAR ∧
      (strict ≠ .RELAXED_PARSING → (l.natAbs : Int) ≤ b.vars)) →
    (strict ≠ .RELAXED_PARSING → 0 ≤ b.vars) →
    (strict ≠ .RELAXED_PARSING → b.parsed + cs.length ≤ b.clauses ∧ b.clauses < 2 ^ 64) →
    b.parsed < 2 ^ 64 → st.lineno < 2 ^ 64 → b.lit = 0 →
    exec env strict (.L281 b) st (body_text cs ++ rest) =
      exec env strict (.L281 { b with parsed := (b.parsed + cs.length) % 2 ^ 64, lit := 0 })
        (body_state cs.length (body_adds cs) st) rest := by
  induction cs with
  | nil =>
    intro b st rest _ _ _ hp hl h0
    have e1 : b.parsed % 2 ^ 64 = b.parsed := Nat.mod_eq_of_lt hp
    have e2 : st.lineno % 2 ^ 64 = st.lineno := Nat.mod_eq_of_lt hl
    simp only [body_text, List.nil_append, List.length_nil, Nat.add_zero, body_state, body_adds,
      List.map_nil, List.append_nil, e1, e2, ← h0]
  | cons c cs ih =>
    intro b st rest hcl hV hC hp hl h0
    have hM : (0 : Nat) < 2 ^ 64 := by norm_num
    have h1 := exec_clause env strict c b st (body_text cs ++ rest)
      (fun l hl' => hcl c (by simp) l hl') hV
      (fun hr => by have := hC hr; simp only [List.length_cons] at this; omega)
    have h2 := ih { b with parsed := (b.parsed + 1) % 2 ^ 64, lit := 0 }
      (body_state 1 (c ++ [0]) st) rest
      (fun c' hc' l hl' => hcl c' (by simp [hc']) l hl') hV
      (fun hr => by
        have := hC hr
        simp only [List.length_cons] at this
        have hm : (b.parsed + 1) % 2 ^ 64 = b.parsed + 1 := Nat.mod_eq_of_lt (by omega)
        simp only [hm]; omega)
      (Nat.mod_lt _ hM) (Nat.mod_lt _ hM) rfl
    simp only [body_text, List.append_assoc]
    rw [h1, h2]
    simp only [body_state, List.length_cons, body_adds, List.map_append, List.map_cons,
      List.append_assoc, Nat.mod_add_mod, List.singleton_append, List.map_nil, List.cons_append,
      List.nil_append]
    have e1 : b.parsed + 1 + cs.length = b.parsed + (cs.length + 1) := by omega
    have e2 : st.lineno + 1 + cs.length = st.lineno + (cs.length + 1) := by omega
    rw [e1, e2]


/-! ## Canonical files -/

/-- A canonical header followed by canonical clauses: the parser is back at
    the top of the clause loop, all clauses handed over. -/
theorem exec_canonical (env : Env) (strict : strictness) (V C : Nat) (cs : List (List Int))
    (hV : V ≤ env.EXTERNAL_MAX_VAR) (hC : C < 2 ^ 64) (hcs : clauses_within V cs)
    (hk : strict ≠ .RELAXED_PARSING → cs.length ≤ C) :
    exec env strict (.L45 true) init (header_text V C ++ body_text cs) =
      .goto (.L281 { vars := V, clauses := C, parsed := cs.length % 2 ^ 64, lit := 0 })
        (body_state cs.length (body_adds cs) (header_state V C init)) := by
  have h := exec_body env strict cs { vars := V, clauses := C, parsed := 0, lit := 0 }
    (header_state V C init) []
    (fun c hc l hl => ⟨(hcs c hc l hl).1, le_trans (hcs c hc l hl).2 hV,
      fun _ => Int.ofNat_le.2 (hcs c hc l hl).2⟩)
    (fun _ => by simp) (fun hr => ⟨by simpa using hk hr, hC⟩) (by norm_num)
    (Nat.mod_lt _ (by norm_num)) rfl
  rw [exec_goto_append env strict _ _ _ _ _ _ (exec_header_text env strict true init V C hV hC)]
  simpa [exec] using h

theorem at_eof_L281 (env : Env) (strict : strictness) (b : Body) (st : State) :
    at_eof env strict (.L281 b) st =
      match finish strict b st with
      | .ret res st' => ⟨res, st'⟩
      | .goto _ st' => ⟨some "end-of-file read more than twice", st'⟩ := by
  obtain ⟨res, h⟩ := finish_ret strict b st
  simp [at_eof, step_L281_eof, h]

theorem body_state_calls (k : Nat) (lits : List Int) (st : State) :
    adds (body_state k lits st).calls = adds st.calls ++ lits := by
  simp [body_state, adds_append, adds_map_add]

theorem body_adds_getLast (cs : List (List Int)) :
    ∀ x, (body_adds cs).getLast? = some x → x = 0 := by
  induction cs with
  | nil => intro x h; simp [body_adds] at h
  | cons c cs ih =>
    intro x h
    cases cs with
    | nil => simpa [body_adds, List.getLast?_append] using h.symm
    | cons c' cs' =>
      apply ih x
      have hne : body_adds (c' :: cs') ≠ [] := by simp [body_adds]
      rw [body_adds, show c ++ 0 :: body_adds (c' :: cs') = (c ++ [0]) ++ body_adds (c' :: cs') by simp,
        List.getLast?_append_of_ne_nil _ hne] at h
      exact h

/-- C1. Round trip on canonical files: in every strictness mode, for `V` at
    most `EXTERNAL_MAX_VAR` and clauses (fewer than `2 ^ 64`, the range of the
    header's clause count) whose literals are non-zero with magnitude at most
    `V`, parsing the canonical text returns no error, stores `V` in
    `*max_var_ptr` and hands to `kissat_add` exactly the literals of each
    clause followed by `0`, in file order; the last value handed over, if
    any, is `0`. -/
theorem C1_round_trip (env : Env) (strict : strictness) (V : Nat) (cs : List (List Int))
    (hV : V ≤ env.EXTERNAL_MAX_VAR) (hC : cs.length < 2 ^ 64) (hcs : clauses_within V cs) :
    (parse_dimacs env strict (header_text V cs.length ++ body_text cs)).error = none ∧
    (parse_dimacs env strict (header_text V cs.length ++ body_text cs)).state.max_var
      = some (V : Int) ∧
    adds (parse_dimacs env strict (header_text V cs.length ++ body_text cs)).state.calls
      = body_adds cs ∧
    ∀ x, (adds (parse_dimacs env strict
      (header_text V cs.length ++ body_text cs)).state.calls).getLast? = some x → x = 0 := by
  have h := exec_canonical env strict V cs.length cs hV hC hcs (fun _ => le_refl _)
  have hm : cs.length % 2 ^ 64 = cs.length := Nat.mod_eq_of_lt hC
  have e : parse_dimacs env strict (header_text V cs.length ++ body_text cs) =
      ⟨none, body_state cs.length (body_adds cs) (header_state V cs.length init)⟩ := by
    simp only [parse_dimacs, run, h, at_eof_L281, finish, hm]
    simp
  rw [e]
  refine ⟨rfl, by simp [body_state, header_state], ?_, ?_⟩
  · simp [body_state_calls, header_state, init, adds, adds_map_add]
  · intro x hx
    apply body_adds_getLast cs x
    simpa [body_state_calls, header_state, init, adds, adds_map_add] using hx

/-- Witness of C1: the file `p cnf 1 1`, `1 0`. -/
theorem C1_round_trip_witness :
    (1 ≤ env0.EXTERNAL_MAX_VAR ∧ [[(1 : Int)]].length < 2 ^ 64 ∧ clauses_within 1 [[1]]) ∧
    header_text 1 [[(1 : Int)]].length ++ body_text [[1]] = "p cnf 1 1\n1 0\n".toList ∧
    (parse_dimacs env0 .NORMAL_PARSING "p cnf 1 1\n1 0\n".toList).error = none ∧
    adds (parse_dimacs env0 .NORMAL_PARSING "p cnf 1 1\n1 0\n".toList).state.calls = [1, 0] := by
  have h1 : 1 ≤ env0.EXTERNAL_MAX_VAR := by decide
  have h2 : [[(1 : Int)]].length < 2 ^ 64 := by decide
  have h3 : clauses_within 1 [[1]] := by
    intro c hc l hl
    simp at hc; subst hc; simp at hl; subst hl; decide
  have ht : header_text 1 [[(1 : Int)]].length ++ body_text [[1]] = "p cnf 1 1\n1 0\n".toList := by
    decide
  have h := C1_round_trip env0 .NORMAL_PARSING 1 [[1]] h1 h2 h3
  rw [ht] at h
  exact ⟨⟨h1, h2, h3⟩, ht, h.1, by simpa [body_adds] using h.2.2.1⟩


/-! ## The invariant outside `RELAXED_PARSING` -/

theorem next_calls (ch : Option Char) (st : State) : (next ch st).calls = st.calls := by
  unfold next; split_ifs <;> rfl

theorem nonl_calls (ch : Option Char) (st : State) : (nonl ch st).calls = st.calls := by
  unfold nonl; split_ifs <;> rfl

theorem no_header_apply_option (env : Env) (name : List Char) (sign arg : Int) (st : State)
    (h : no_header st.calls) : no_header (apply_option env name sign arg st).calls := by
  unfold apply_option
  obtain ⟨h1, h2⟩ := h
  split_ifs <;> refine ⟨by simp [adds_append, adds, h1], fun V C hm => ?_⟩ <;>
    simp at hm <;> exact h2 V C hm

theorem in_body_header (V : Int) (C : Nat) (calls : List Call) (h : no_header calls)
    (hC : C < 2 ^ 64) :
    in_body { vars := V, clauses := C, parsed := 0, lit := 0 }
      (calls ++ [.kissat_message V C, .kissat_reserve V]) := by
  obtain ⟨h1, h2⟩ := h
  refine ⟨fun V' C' => ?_, hC, by simp [terminators, adds_append, adds, h1], Nat.zero_le _,
    by simp [adds_append, adds, h1], by simp [adds_append, adds, h1]⟩
  constructor
  · intro hm
    simp at hm
    rcases hm with hm | hm
    · exact absurd hm (h2 V' C')
    · exact hm
  · rintro ⟨rfl, rfl⟩; simp

theorem in_body_add_lit (b : Body) (sign idx : Int) (calls : List Call) (h : in_body b calls)
    (h0 : 0 ≤ idx) (hs : sign = 1 ∨ sign = -1) (hne : idx ≠ 0) (hV : idx ≤ b.vars) :
    in_body { b with lit := sign * idx } (calls ++ [.kissat_add (sign * idx)]) := by
  obtain ⟨h1, h2, h3, h4, h5, h6⟩ := h
  have hl : sign * idx ≠ 0 := by rcases hs with rfl | rfl <;> omega
  have ha : (sign * idx).natAbs = idx.natAbs := by rcases hs with rfl | rfl <;> simp
  refine ⟨fun V C => by simpa using h1 V C, h2, ?_, h4, ?_, by simp [adds_append, adds]⟩
  · simp only [terminators, adds_append, adds, List.count_append, List.count_cons,
      List.count_nil] at h3 ⊢
    simp [h3, hl]
  · intro l hl'
    simp only [adds_append, adds, List.mem_append, List.mem_singleton] at hl'
    rcases hl' with hl' | rfl
    · exact h5 l hl'
    · intro _
      rw [ha]
      show 1 ≤ idx.natAbs ∧ (idx.natAbs : Int) ≤ b.vars
      omega

theorem in_body_add_zero (b : Body) (calls : List Call) (h : in_body b calls)
    (hC : b.parsed ≠ b.clauses) :
    in_body { b with parsed := (b.parsed + 1) % 2 ^ 64, lit := 0 }
      (calls ++ [.kissat_add 0]) := by
  obtain ⟨h1, h2, h3, h4, h5, h6⟩ := h
  have hm : (b.parsed + 1) % 2 ^ 64 = b.parsed + 1 := Nat.mod_eq_of_lt (by omega)
  refine ⟨fun V C => by simpa using h1 V C, h2, ?_, ?_, ?_, by simp [adds_append, adds]⟩
  · simp only [terminators, adds_append, adds, List.count_append, List.count_cons,
      List.count_nil] at h3 ⊢
    rw [hm]; simp [h3]
  · simp only [hm]; omega
  · intro l hl'
    simp only [adds_append, adds, List.mem_append, List.mem_singleton] at hl'
    rcases hl' with hl' | rfl
    · exact h5 l hl'
    · intro h; exact absurd rfl h

theorem after_literal_strict (strict : strictness) (hs : strict ≠ .RELAXED_PARSING)
    (b : Body) (sign idx : Int) (ch : Option Char) (st : State)
    (h : in_body b st.calls) (h0 : 0 ≤ idx) (hsg : sign = 1 ∨ sign = -1) :
    (after_literal strict b sign idx ch st).sat (fun m s => strict_inv m s.calls)
      (fun res s => strict_post res s.calls) := by
  unfold after_literal
  split_ifs with c1 c2 c3
  · exact Or.inr ⟨b, by simpa [nonl_calls] using h, by simp⟩
  · exact in_body_add_lit b sign idx st.calls h h0 hsg c2 (by
      by_contra hlt; exact c1 ⟨hs, not_le.1 hlt⟩)
  · exact Or.inr ⟨b, h, by simp⟩
  · exact in_body_add_zero b st.calls h (fun e => c3 ⟨hs, e⟩)

theorem finish_strict (strict : strictness) (hs : strict ≠ .RELAXED_PARSING)
    (b : Body) (st : State) (h : in_body b st.calls) :
    (finish strict b st).sat (fun m s => strict_inv m s.calls)
      (fun res s => strict_post res s.calls) := by
  unfold finish
  split_ifs with c1 c2 c3
  · exact Or.inr ⟨b, h, by simp⟩
  · exact Or.inr ⟨b, h, by simp⟩
  · exact Or.inr ⟨b, h, by simp⟩
  · refine Or.inr ⟨b, h, fun _ => ⟨?_, by simpa using c1⟩⟩
    have := h.2.2.2.1
    have : ¬ b.parsed < b.clauses := fun hlt => c2 ⟨hs, hlt⟩
    omega


theorem digit_of_nonneg (ch : Option Char) (h : isdigit ch = true) :
    0 ≤ digit_of ch ∧ digit_of ch ≤ 9 := by
  cases ch with
  | none => simp [isdigit] at h
  | some c => rw [isdigit_iff] at h; simp only [digit_of, Char.reduceToNat]; omega

theorem accumulate_nonneg (bound acc : Int) (ch : Option Char) (x : Int)
    (hd : isdigit ch = true) (h0 : 0 ≤ acc) (h : accumulate bound acc ch = some x) :
    0 ≤ x ∧ x ≤ bound ∧ acc * 10 ≤ x := by
  have := digit_of_nonneg ch hd
  simp only [accumulate] at h
  split_ifs at h
  simp only [Option.some.injEq] at h
  omega

theorem accumulate_clauses_lt (n : Nat) (ch : Option Char) (x : Nat)
    (h : accumulate_clauses n ch = some x) : x < 2 ^ 64 := by
  simp only [accumulate_clauses] at h
  split_ifs at h
  simp only [Option.some.injEq] at h
  rw [← h]
  exact Nat.mod_lt _ (by norm_num)

theorem step_strict (env : Env) (strict : strictness) (hs : strict ≠ .RELAXED_PARSING)
    (m : Mode) (ch : Option Char) (st : State) (h : strict_inv m st.calls) :
    (step env strict m ch (next ch st)).sat (fun m s => strict_inv m s.calls)
      (fun res s => strict_post res s.calls) := by
  have hc := next_calls ch st
  have h9 : ∀ c : Option Char, isdigit c = true → (digit_of c).toNat < 2 ^ 64 := by
    intro c hd; have := digit_of_nonneg c hd; omega
  cases m <;> simp only [strict_inv] at h <;>
    simp only [step, COMPLETE, option_value, option_end, header_c, header_variables,
      header_clauses, header_cr, header_end] <;>
    repeat' split
  all_goals simp only [Outcome.sat, strict_inv, strict_post, hc, nonl_calls]
  all_goals first
    | exact h
    | exact h.1
    | exact Or.inl ⟨by simp, h⟩
    | exact Or.inl ⟨by simp, h.1⟩
    | exact no_header_apply_option env _ _ _ _ (by rw [hc]; exact h)
    | exact after_literal_strict strict hs _ _ _ _ _ (by rw [hc]; exact h.1) h.2.1 h.2.2
    | exact finish_strict strict hs _ _ (by rw [hc]; exact h)
    | exact Or.inr ⟨_, h, by simp⟩
    | exact Or.inr ⟨_, h.1, by simp⟩
    | exact in_body_header _ _ _ h.1 h.2
    | exact ⟨h.1, accumulate_clauses_lt _ _ _ (by assumption)⟩
    | exact ⟨h, h9 ch (by simpa using (by assumption : ¬(!isdigit ch) = true))⟩
    | exact ⟨h, (digit_of_nonneg ch
        (by simpa using (by assumption : ¬(!isdigit ch) = true))).1, by simp⟩
    | exact ⟨h.1, (accumulate_nonneg _ _ _ _ (by assumption) h.2.1 (by assumption)).1, h.2.2⟩

/-- C2. Outside `RELAXED_PARSING`, for every input: when `parse_dimacs`
    returns, with or without an error, the number of terminators `0` handed
    to `kissat_add` is at most the clause count announced by the header and
    every non-zero literal handed over has magnitude between 1 and the
    announced variable count; if no error is returned the number of
    terminators equals the announced clause count and the last value handed
    over (if any) is `0`. If no header was announced nothing was handed to
    `kissat_add` and an error is returned. -/
theorem C2_declared_counts_bound (env : Env) (strict : strictness) (input : List Char)
    (hs : strict ≠ .RELAXED_PARSING) :
    (∀ V C, Call.kissat_message V C ∈ (parse_dimacs env strict input).state.calls →
      terminators (parse_dimacs env strict input).state.calls ≤ C ∧
      (∀ l ∈ adds (parse_dimacs env strict input).state.calls, l ≠ 0 →
        1 ≤ l.natAbs ∧ (l.natAbs : Int) ≤ V) ∧
      ((parse_dimacs env strict input).error = none →
        terminators (parse_dimacs env strict input).state.calls = C ∧
        ∀ x, (adds (parse_dimacs env strict input).state.calls).getLast? = some x → x = 0)) ∧
    ((∀ V C, Call.kissat_message V C ∉ (parse_dimacs env strict input).state.calls) →
      adds (parse_dimacs env strict input).state.calls = [] ∧
      (parse_dimacs env strict input).error ≠ none) := by
  have h := run_sat env strict (fun m s => strict_inv m s.calls)
    (fun res s => strict_post res s.calls) (step_strict env strict hs) input (.L45 true) init
    (by simp [strict_inv, no_header, init, adds])
  unfold parse_dimacs
  rcases h with ⟨hne, h1, h2⟩ | ⟨b, ⟨h1, h2, h3, h4, h5, h6⟩, hfin⟩
  · exact ⟨fun V C hm => absurd hm (h2 V C), fun _ => ⟨h1, hne⟩⟩
  · refine ⟨fun V C hm => ?_, fun hno => absurd ((h1 b.vars b.clauses).2 ⟨rfl, rfl⟩) (hno _ _)⟩
    obtain ⟨rfl, rfl⟩ := (h1 V C).1 hm
    refine ⟨by rw [h3]; exact h4, h5, fun hn => ⟨by rw [h3]; exact (hfin hn).1, fun x hx => ?_⟩⟩
    have := (hfin hn).2
    rw [hx] at h6
    simpa [this] using h6

/-- Witness of C2: under `NORMAL_PARSING` the file `p cnf 2 2`, `1 -2 0`,
    `3 0` is stopped at the literal `3` after one terminator. -/
theorem C2_declared_counts_bound_witness :
    strictness.NORMAL_PARSING ≠ .RELAXED_PARSING ∧
    Call.kissat_message 2 2 ∈
      (parse_dimacs env0 .NORMAL_PARSING "p cnf 2 2\n1 -2 0\n3 0\n".toList).state.calls ∧
    adds (parse_dimacs env0 .NORMAL_PARSING "p cnf 2 2\n1 -2 0\n3 0\n".toList).state.calls
      = [1, -2, 0] ∧
    terminators (parse_dimacs env0 .NORMAL_PARSING "p cnf 2 2\n1 -2 0\n3 0\n".toList).state.calls
      ≤ 2 := by
  have hm : Call.kissat_message 2 2 ∈
      (parse_dimacs env0 .NORMAL_PARSING "p cnf 2 2\n1 -2 0\n3 0\n".toList).state.calls := by
    decide
  exact ⟨by decide, hm, by decide,
    ((C2_declared_counts_bound env0 .NORMAL_PARSING "p cnf 2 2\n1 -2 0\n3 0\n".toList
      (by decide)).1 2 2 hm).1⟩


/-! ## Numeral tokens and their delimiters -/

theorem exec_numeral_token (env : Env) (strict : strictness) (b : Body) (st : State)
    (neg : Bool) (c : Char) (cs : List Char) (hd : all_digits (c :: cs))
    (h0 : neg = true → c ≠ '0')
    (hm : decimal_value 0 (c :: cs) ≤ env.EXTERNAL_MAX_VAR) :
    exec env strict (.L281 b) st (numeral_token neg (c :: cs)) =
      .goto (.L330 b (sign_of neg) (decimal_value 0 (c :: cs) : Nat)) st := by
  cases neg with
  | false => simpa [numeral_token, sign_of] using exec_L281_numeral env strict b st c cs hd hm
  | true =>
    simpa [numeral_token, sign_of] using
      exec_L281_minus_numeral env strict b st c cs hd (h0 rfl) hm

theorem exec_L358_comment (env : Env) (strict : strictness) (b : Body) (sign idx : Int)
    (st : State) (cm : List Char) (h : '\n' ∉ cm) :
    exec env strict (.L358 b sign idx) st cm = .goto (.L358 b sign idx) st := by
  induction cm with
  | nil => simp [exec]
  | cons x xs ih =>
    have hx : x ≠ '\n' := fun e => h (by simp [e])
    rw [exec_cons_goto env strict x xs _ (.L358 b sign idx) st st
      (by simp [step, next_of_ne, hx, EOF])]
    exact ih (fun hm => h (by simp [hm]))

/-- After a closed delimiter lines 368–384 run with the state changed in the
    line counter only. -/
theorem exec_closed_delimiter (env : Env) (strict : strictness) (b : Body) (sign idx : Int)
    (st : State) (d : List Char) (hd : closed_delimiter d) :
    ∃ ch st1, st1.calls = st.calls ∧ st1.max_var = st.max_var ∧
      ∀ rest, exec env strict (.L330 b sign idx) st (d ++ rest) =
        continue_exec env strict (after_literal strict b sign idx ch st1) rest := by
  rcases hd with ⟨w, hw, rfl⟩ | rfl | ⟨cm, hcm, rfl⟩
  · refine ⟨some w, next (some w) st, next_calls _ _, by unfold next; split_ifs <;> rfl,
      fun rest => ?_⟩
    have hs : step env strict (.L330 b sign idx) (some w) (next (some w) st) =
        after_literal strict b sign idx (some w) (next (some w) st) := by
      rcases hw with rfl | rfl | rfl <;> simp [step, isdigit, EOF]
    simp only [List.singleton_append, List.cons_append, List.nil_append, exec, hs,
      continue_exec]
    cases after_literal strict b sign idx _ _ <;> rfl
  · refine ⟨some '\n', next (some '\n') st, next_calls _ _, by unfold next; split_ifs <;> rfl,
      fun rest => ?_⟩
    have hs : step env strict (.L352 b sign idx) (some '\n') (next (some '\n') st) =
        after_literal strict b sign idx (some '\n') (next (some '\n') st) := by
      simp [step]
    rw [List.cons_append, exec_cons_goto env strict '\r' _ _ (.L352 b sign idx) st st
      (by simp [step, next, isdigit, EOF])]
    simp only [List.singleton_append, List.cons_append, List.nil_append, exec, hs,
      continue_exec]
    cases after_literal strict b sign idx _ _ <;> rfl
  · refine ⟨some '\n', next (some '\n') st, next_calls _ _, by unfold next; split_ifs <;> rfl,
      fun rest => ?_⟩
    have hs : step env strict (.L358 b sign idx) (some '\n') (next (some '\n') st) =
        after_literal strict b sign idx (some '\n') (next (some '\n') st) := by
      simp [step]
    rw [List.cons_append, exec_cons_goto env strict 'c' _ _ (.L358 b sign idx) st st
      (by simp [step, next, isdigit, EOF]), List.append_assoc,
      exec_goto_append env strict cm _ _ _ st st (exec_L358_comment env strict b sign idx st cm hcm)]
    simp only [List.singleton_append, List.cons_append, List.nil_append, exec, hs,
      continue_exec]
    cases after_literal strict b sign idx _ _ <;> rfl

/-- At the end of the file after an open delimiter, outside
    `PEDANTIC_PARSING`, lines 368–384 run with `ch == EOF`. -/
theorem run_open_delimiter (env : Env) (strict : strictness) (b : Body) (sign idx : Int)
    (st : State) (d : List Char) (hd : open_delimiter d) (hp : strict ≠ .PEDANTIC_PARSING) :
    run env strict (.L330 b sign idx) st d =
      match after_literal strict b sign idx EOF st with
      | .ret res st' => ⟨res, st'⟩
      | .goto m st' => at_eof_again env strict m st' := by
  rcases hd with rfl | ⟨cm, hcm, rfl⟩
  · simp [run, exec, at_eof, step, isdigit, EOF, hp]
  · have e : exec env strict (.L330 b sign idx) st ('c' :: cm) = .goto (.L358 b sign idx) st := by
      rw [exec_cons_goto env strict 'c' _ _ (.L358 b sign idx) st st
        (by simp [step, next, isdigit, EOF])]
      exact exec_L358_comment env strict b sign idx st cm hcm
    simp [run, e, at_eof, step, EOF, hp]

theorem at_eof_again_L281 (env : Env) (strict : strictness) (b : Body) (st : State) :
    at_eof_again env strict (.L281 b) st = run env strict (.L281 b) st [] := by
  obtain ⟨res, h⟩ := finish_ret strict b st
  simp [run, exec, at_eof, at_eof_again, step_L281_eof, h]


theorem run_of_exec_continue (env : Env) (strict : strictness) (m : Mode) (st : State)
    (d rest : List Char) (o : Outcome)
    (h : exec env strict m st (d ++ rest) = continue_exec env strict o rest) :
    run env strict m st (d ++ rest) = continue_run env strict o rest := by
  unfold run
  rw [h]
  cases o <;> rfl

/-- C3. Let `pre` be a text (header and clauses) after which the parser is at
    the start of a token of the clause loop, with `V = b.vars` declared, and
    let a literal follow whose magnitude `m` satisfies `V < m` and
    `m ≤ EXTERNAL_MAX_VAR`, correctly delimited (`closed_delimiter`, or the end
    of the file outside `PEDANTIC_PARSING`). Under `PEDANTIC_PARSING` and
    `NORMAL_PARSING` the result is "maximum variable index exceeded (try
    '--relaxed' parsing)" and the literal is not handed to `kissat_add`;
    under `RELAXED_PARSING` it is handed to `kissat_add` with its sign and
    parsing goes on with the rest of the file from the top of the clause
    loop. (Parsing the same text twice gives the same result: `parse_dimacs`
    is a function of the build `env`, the mode and the text.) -/
theorem C3_literal_above_declared (env : Env) (strict : strictness) (pre : List Char)
    (b : Body) (st : State) (neg : Bool) (c : Char) (cs d rest : List Char)
    (hpre : exec env strict (.L45 true) init pre = .goto (.L281 b) st)
    (hd : all_digits (c :: cs)) (h0 : neg = true → c ≠ '0')
    (hpos : 0 < decimal_value 0 (c :: cs))
    (hlo : b.vars < (decimal_value 0 (c :: cs) : Nat))
    (hhi : decimal_value 0 (c :: cs) ≤ env.EXTERNAL_MAX_VAR)
    (hdel : closed_delimiter d ∨
      (open_delimiter d ∧ rest = [] ∧ strict ≠ .PEDANTIC_PARSING)) :
    (strict ≠ .RELAXED_PARSING →
      (parse_dimacs env strict (pre ++ (numeral_token neg (c :: cs) ++ (d ++ rest)))).error =
        some "maximum variable index exceeded (try '--relaxed' parsing)" ∧
      (parse_dimacs env strict
        (pre ++ (numeral_token neg (c :: cs) ++ (d ++ rest)))).state.calls = st.calls) ∧
    (strict = .RELAXED_PARSING →
      ∃ st', st'.calls =
          st.calls ++ [.kissat_add (sign_of neg * (decimal_value 0 (c :: cs) : Nat))] ∧
        parse_dimacs env strict (pre ++ (numeral_token neg (c :: cs) ++ (d ++ rest))) =
          run env strict
            (.L281 { b with lit := sign_of neg * (decimal_value 0 (c :: cs) : Nat) }) st' rest) := by
  have hne : ((decimal_value 0 (c :: cs) : Nat) : Int) ≠ 0 := by omega
  have hmsg : ("maximum variable index exceeded " ++ TRY_RELAXED_PARSING) =
      "maximum variable index exceeded (try '--relaxed' parsing)" := by decide
  have e : parse_dimacs env strict (pre ++ (numeral_token neg (c :: cs) ++ (d ++ rest))) =
      run env strict (.L330 b (sign_of neg) (decimal_value 0 (c :: cs) : Nat)) st (d ++ rest) := by
    unfold parse_dimacs
    rw [run_goto env strict pre _ _ _ _ _ hpre,
      run_goto env strict _ _ _ _ _ _ (exec_numeral_token env strict b st neg c cs hd h0 hhi)]
  rw [e]
  rcases hdel with hcl | ⟨hop, rfl, hp⟩
  · obtain ⟨ch, st1, hc1, -, hex⟩ := exec_closed_delimiter env strict b (sign_of neg)
      (decimal_value 0 (c :: cs) : Nat) st d hcl
    rw [run_of_exec_continue env strict _ st d rest _ (hex rest)]
    constructor
    · intro hs
      rw [after_literal_exceeds strict b _ _ ch st1 hs hlo, hmsg]
      exact ⟨rfl, (nonl_calls ch st1).trans hc1⟩
    · intro hs
      rw [after_literal_add strict b _ _ ch st1 hne (fun h => absurd hs h)]
      exact ⟨_, by rw [hc1], rfl⟩
  · rw [List.append_nil, run_open_delimiter env strict b _ _ st d hop hp]
    constructor
    · intro hs
      rw [after_literal_exceeds strict b _ _ EOF st hs hlo, hmsg]
      exact ⟨rfl, nonl_calls EOF st⟩
    · intro hs
      rw [after_literal_add strict b _ _ EOF st hne (fun h => absurd hs h)]
      exact ⟨_, rfl, at_eof_again_L281 env strict _ _⟩

/-- Witness of C3: after `p cnf 1 1` the literal `-2` followed by a space,
    under `NORMAL_PARSING`. -/
theorem C3_literal_above_declared_witness :
    exec env0 .NORMAL_PARSING (.L45 true) init "p cnf 1 1\n".toList =
      .goto (.L281 { vars := 1, clauses := 1, parsed := 0, lit := 0 })
        (header_state 1 1 init) ∧
    (parse_dimacs env0 .NORMAL_PARSING "p cnf 1 1\n-2 0\n".toList).error =
      some "maximum variable index exceeded (try '--relaxed' parsing)" ∧
    adds (parse_dimacs env0 .NORMAL_PARSING "p cnf 1 1\n-2 0\n".toList).state.calls = [] := by
  have hpre : exec env0 .NORMAL_PARSING (.L45 true) init "p cnf 1 1\n".toList =
      .goto (.L281 { vars := 1, clauses := 1, parsed := 0, lit := 0 })
        (header_state 1 1 init) := by decide
  have h := (C3_literal_above_declared env0 .NORMAL_PARSING "p cnf 1 1\n".toList
    { vars := 1, clauses := 1, parsed := 0, lit := 0 } (header_state 1 1 init) true '2' []
    [' '] "0\n".toList hpre (by intro x hx; simp at hx; subst hx; decide) (by decide)
    (by decide) (by decide) (by decide) (Or.inl (Or.inl ⟨' ', Or.inl rfl, rfl⟩))).1 (by decide)
  have ht : "p cnf 1 1\n".toList ++ (numeral_token true ['2'] ++ ([' '] ++ "0\n".toList)) =
      "p cnf 1 1\n-2 0\n".toList := by decide
  rw [ht] at h
  exact ⟨hpre, h.1, by rw [h.2]; decide⟩


/-! ## Missing clauses and missing terminator -/

theorem exec_canonical_rest (env : Env) (strict : strictness) (V C : Nat)
    (cs : List (List Int)) (rest : List Char)
    (hV : V ≤ env.EXTERNAL_MAX_VAR) (hC : C < 2 ^ 64) (hcs : clauses_within V cs)
    (hk : strict ≠ .RELAXED_PARSING → cs.length ≤ C) :
    exec env strict (.L45 true) init (header_text V C ++ (body_text cs ++ rest)) =
      exec env strict (.L281 { vars := V, clauses := C, parsed := cs.length % 2 ^ 64, lit := 0 })
        (body_state cs.length (body_adds cs) (header_state V C init)) rest := by
  rw [← List.append_assoc, exec_goto_append env strict _ rest _ _ _ _
    (exec_canonical env strict V C cs hV hC hcs hk)]

/-- While characters are delivered, `parse_dimacs` returns only with an
    error: "no error" is returned at the end of the file only. -/
theorem step_char_error (env : Env) (strict : strictness) (m : Mode) (c : Char) (st : State) :
    (step env strict m (some c) st).sat (fun _ _ => True) (fun res _ => res ≠ none) := by
  cases m <;>
    simp only [step, COMPLETE, option_value, option_end, header_c, header_variables,
      header_clauses, header_cr, header_end, after_literal, EOF] <;>
    repeat' split
  all_goals simp only [Outcome.sat]
  all_goals first
    | trivial
    | exact Option.some_ne_none _
    | simp_all

theorem exec_ret_error (env : Env) (strict : strictness) (input : List Char) :
    ∀ (m : Mode) (st st' : State) (res : Option String),
    exec env strict m st input = .ret res st' → res ≠ none := by
  induction input with
  | nil => intro m st st' res h; simp [exec] at h
  | cons c cs ih =>
    intro m st st' res h
    have hs := step_char_error env strict m c (next (some c) st)
    simp only [exec] at h
    cases e : step env strict m (some c) (next (some c) st) with
    | ret r s =>
      rw [e] at h hs
      simp only [Outcome.ret.injEq] at h
      rw [← h.1]; exact hs
    | goto m' s => rw [e] at h; exact ih m' s st' res h

/-- C6. In every mode: if `-0` stands in the clauses outside a comment (when
    the parser gets as far as the `-` it is in the clause loop and not in a
    comment), `parse_dimacs` returns an error; when the `-` is read at the
    start of a token the error is "expected non-zero digit after '-'" and
    nothing is handed to `kissat_add` for it. -/
theorem C6_minus_zero_rejected (env : Env) (strict : strictness) (pre rest : List Char)
    (hpre : ∀ m st, exec env strict (.L45 true) init pre = .goto m st → outside_comment m) :
    (parse_dimacs env strict (pre ++ '-' :: '0' :: rest)).error ≠ none ∧
    (∀ b st, exec env strict (.L45 true) init pre = .goto (.L281 b) st →
      (parse_dimacs env strict (pre ++ '-' :: '0' :: rest)).error =
        some "expected non-zero digit after '-'" ∧
      (parse_dimacs env strict (pre ++ '-' :: '0' :: rest)).state.calls = st.calls) := by
  unfold parse_dimacs
  cases e : exec env strict (.L45 true) init pre with
  | ret res st' =>
    rw [run_ret env strict _ _ _ _ _ _ e]
    exact ⟨exec_ret_error env strict pre _ _ _ _ e, fun b st h => by cases h⟩
  | goto m st =>
    have hm := hpre m st e
    rw [run_goto env strict _ _ _ _ _ _ e]
    cases m <;> simp only [outside_comment] at hm
    case L281 b =>
      have e : run env strict (.L281 b) st ('-' :: '0' :: rest) =
          ⟨some "expected non-zero digit after '-'", st⟩ := by
        simp [run, exec, step, next, EOF, isdigit]
      rw [e]
      refine ⟨by simp, fun b' st' h => ?_⟩
      simp only [Outcome.goto.injEq] at h
      exact ⟨rfl, by rw [h.2]⟩
    all_goals
      refine ⟨?_, fun b st' hb => by simp at hb⟩
      simp [run, exec, step, next, EOF, isdigit]

/-- Witness of C6: `p cnf 1 1` followed by `-0`. -/
theorem C6_minus_zero_rejected_witness :
    exec env0 .RELAXED_PARSING (.L45 true) init "p cnf 1 1\n".toList =
      .goto (.L281 { vars := 1, clauses := 1, parsed := 0, lit := 0 })
        (header_state 1 1 init) ∧
    (parse_dimacs env0 .RELAXED_PARSING "p cnf 1 1\n-0\n".toList).error =
      some "expected non-zero digit after '-'" ∧
    adds (parse_dimacs env0 .RELAXED_PARSING "p cnf 1 1\n-0\n".toList).state.calls = [] := by
  have hpre : exec env0 .RELAXED_PARSING (.L45 true) init "p cnf 1 1\n".toList =
      .goto (.L281 { vars := 1, clauses := 1, parsed := 0, lit := 0 })
        (header_state 1 1 init) := by decide
  have h := (C6_minus_zero_rejected env0 .RELAXED_PARSING "p cnf 1 1\n".toList ['\n']
    (fun m st e => by
      rw [hpre] at e
      simp only [Outcome.goto.injEq] at e
      rw [← e.1]; trivial)).2 _ _ hpre
  have ht : "p cnf 1 1\n".toList ++ ['-', '0', '\n'] = "p cnf 1 1\n-0\n".toList := by decide
  rw [ht] at h
  exact ⟨hpre, h.1, by rw [h.2]; decide⟩


/-! ## Blank lines before the header -/

theorem same_solver_nonl (ch : Option Char) (t t' : State) (h : same_solver t t') :
    same_solver (nonl ch t) (nonl ch t') := by
  unfold nonl; split_ifs <;> exact ⟨h.1, h.2⟩

theorem same_solver_next (ch : Option Char) (t t' : State) (h : same_solver t t') :
    same_solver (next ch t) (next ch t') := by
  unfold next; split_ifs <;> exact ⟨h.1, h.2⟩

theorem same_solver_apply_option (env : Env) (name : List Char) (sign arg : Int)
    (t t' : State) (h : same_solver t t') :
    same_solver (apply_option env name sign arg t) (apply_option env name sign arg t') := by
  unfold apply_option; split_ifs <;> exact ⟨congrArg (· ++ _) h.1, h.2⟩

theorem rel_goto (m : Mode) (t t' : State) (h : same_solver t t') :
    outcome_rel (.goto m t) (.goto m t') :=
  ⟨Or.inl rfl, h⟩

theorem rel_ret (r : Option String) (t t' : State) (h : same_solver t t') :
    outcome_rel (.ret r t) (.ret r t') :=
  ⟨Or.inl rfl, h⟩

theorem after_literal_same (strict : strictness) (b : Body) (sign idx : Int)
    (ch : Option Char) (t t' : State) (h : same_solver t t') :
    outcome_rel (after_literal strict b sign idx ch t) (after_literal strict b sign idx ch t') := by
  unfold after_literal
  split_ifs
  · exact rel_ret _ _ _ (same_solver_nonl ch t t' h)
  · exact rel_goto _ _ _ ⟨congrArg (· ++ _) h.1, h.2⟩
  · exact rel_ret _ _ _ h
  · exact rel_goto _ _ _ ⟨congrArg (· ++ _) h.1, h.2⟩

theorem finish_same (strict : strictness) (b : Body) (t t' : State) (h : same_solver t t') :
    outcome_rel (finish strict b t) (finish strict b t') := by
  unfold finish
  split_ifs <;> exact rel_ret _ _ _ h

set_option maxHeartbeats 4000000 in
theorem step_same_solver (env : Env) (strict : strictness) (m : Mode) (ch : Option Char)
    (t t' : State) (h : same_solver t t') :
    outcome_rel (step env strict m ch t) (step env strict m ch t') := by
  have hn := same_solver_nonl ch t t' h
  have hc := h.1
  cases m <;>
    simp only [step, COMPLETE, option_value, option_end, header_c, header_variables,
      header_clauses, header_cr, header_end, ← hc] <;>
    (try split_ifs) <;>
    first
    | with_reducible exact rel_goto _ _ _ h
    | with_reducible exact rel_ret _ _ _ h
    | with_reducible exact rel_ret _ _ _ hn
    | with_reducible exact after_literal_same strict _ _ _ _ t t' h
    | with_reducible exact finish_same strict _ t t' h
    | with_reducible exact rel_goto _ _ _ (same_solver_apply_option env _ _ _ t t' h)
    | exact rel_goto _ _ _ ⟨rfl, rfl⟩
    | (split <;> (try split_ifs) <;>
        first | with_reducible exact rel_goto _ _ _ h | with_reducible exact rel_ret _ _ _ h)

theorem step_same_point (env : Env) (strict : strictness) (m m' : Mode) (ch : Option Char)
    (t t' : State) (hm : same_point m m') (h : same_solver t t') :
    outcome_rel (step env strict m ch t) (step env strict m' ch t') := by
  rcases hm with rfl | ⟨f, rfl, rfl⟩
  · exact step_same_solver env strict m ch t t' h
  · have hn := same_solver_nonl ch t t' h
    cases f
    · exact step_same_solver env strict _ ch t t' h
    · simp only [step, reduceIte, Bool.false_eq_true]
      split_ifs <;>
        first
        | with_reducible exact rel_goto _ _ _ h
        | with_reducible exact rel_ret _ _ _ h
        | with_reducible exact rel_ret _ _ _ hn
        | exact ⟨Or.inr ⟨rfl, rfl⟩, h⟩
        | exact ⟨Or.inr ⟨_, rfl, rfl⟩, h⟩

theorem exec_same_point (env : Env) (strict : strictness) (input : List Char) :
    ∀ (m m' : Mode) (t t' : State), same_point m m' → same_solver t t' →
    outcome_rel (exec env strict m t input) (exec env strict m' t' input) := by
  induction input with
  | nil => intro m m' t t' hm h; exact ⟨hm, h⟩
  | cons c cs ih =>
    intro m m' t t' hm h
    have hs := step_same_point env strict m m' (some c) _ _ hm (same_solver_next (some c) t t' h)
    simp only [exec]
    cases e : step env strict m (some c) (next (some c) t) with
    | ret r s =>
      cases e' : step env strict m' (some c) (next (some c) t') with
      | ret r' s' => rw [e, e'] at hs; exact hs
      | goto m1' s' => rw [e, e'] at hs; exact absurd hs id
    | goto m1 s =>
      cases e' : step env strict m' (some c) (next (some c) t') with
      | ret r' s' => rw [e, e'] at hs; exact absurd hs id
      | goto m1' s' => rw [e, e'] at hs; exact ih m1 m1' s s' hs.1 hs.2

theorem at_eof_same_point (env : Env) (strict : strictness) (m m' : Mode) (t t' : State)
    (hm : same_point m m') (h : same_solver t t') :
    same_error (at_eof env strict m t).error (at_eof env strict m' t').error ∧
    same_solver (at_eof env strict m t).state (at_eof env strict m' t').state := by
  have hs := step_same_point env strict m m' EOF t t' hm h
  unfold at_eof
  cases e : step env strict m EOF t with
  | ret r s =>
    cases e' : step env strict m' EOF t' with
    | ret r' s' => rw [e, e'] at hs; exact hs
    | goto m1' s' => rw [e, e'] at hs; exact absurd hs id
  | goto m1 s =>
    cases e' : step env strict m' EOF t' with
    | ret r' s' => rw [e, e'] at hs; exact absurd hs id
    | goto m1' s' =>
      rw [e, e'] at hs
      have hs2 := step_same_point env strict m1 m1' EOF s s' hs.1 hs.2
      simp only [at_eof_again]
      cases e2 : step env strict m1 EOF s with
      | ret r2 s2 =>
        cases e2' : step env strict m1' EOF s' with
        | ret r2' s2' => rw [e2, e2'] at hs2; exact hs2
        | goto m2' s2' => rw [e2, e2'] at hs2; exact absurd hs2 id
      | goto m2 s2 =>
        cases e2' : step env strict m1' EOF s' with
        | ret r2' s2' => rw [e2, e2'] at hs2; exact absurd hs2 id
        | goto m2' s2' => rw [e2, e2'] at hs2; exact ⟨Or.inl rfl, hs2.2⟩

/-- The result does not depend on the line counter at the start, nor (but
    for the message of a file without header) on the flag `first`. -/
theorem run_same_point (env : Env) (strict : strictness) (input : List Char)
    (m m' : Mode) (t t' : State) (hm : same_point m m') (h : same_solver t t') :
    same_error (run env strict m t input).error (run env strict m' t' input).error ∧
    same_solver (run env strict m t input).state (run env strict m' t' input).state := by
  have hs := exec_same_point env strict input m m' t t' hm h
  unfold run
  cases e : exec env strict m t input with
  | ret r s =>
    cases e' : exec env strict m' t' input with
    | ret r' s' => rw [e, e'] at hs; exact hs
    | goto m1' s' => rw [e, e'] at hs; exact absurd hs id
  | goto m1 s =>
    cases e' : exec env strict m' t' input with
    | ret r' s' => rw [e, e'] at hs; exact absurd hs id
    | goto m1' s' =>
      rw [e, e'] at hs
      exact at_eof_same_point env strict m1 m1' s s' hs.1 hs.2

/-- Outside `PEDANTIC_PARSING` blank lines at a line start before the header
    are skipped. -/
theorem exec_blank_lines (env : Env) (strict : strictness) (hs : strict ≠ .PEDANTIC_PARSING)
    (bl : List Char) (hbl : blank_lines bl) :
    ∀ (first : Bool) (st : State), ∃ first' st', same_solver st st' ∧
      same_point (.L45 first) (.L45 first') ∧
      exec env strict (.L45 first) st bl = .goto (.L45 first') st' := by
  induction hbl with
  | nil => intro first st; exact ⟨first, st, ⟨rfl, rfl⟩, Or.inl rfl, by simp [exec]⟩
  | lf bl _ ih =>
    intro first st
    obtain ⟨f', st', h, hp, e⟩ := ih false (next (some '\n') st)
    have hf : f' = false := by
      rcases hp with hp | ⟨f, hp, hp'⟩
      · simp only [Mode.L45.injEq] at hp; exact hp.symm
      · simp only [Mode.L45.injEq] at hp'; exact hp'
    refine ⟨f', st', ⟨(next_calls _ _).symm.trans h.1, ?_⟩, Or.inr ⟨first, rfl, by rw [hf]⟩, ?_⟩
    · rw [← h.2]; unfold next; split_ifs <;> rfl
    · rw [exec_cons_goto env strict '\n' bl _ (.L45 false) st (next (some '\n') st)
        (by simp [step, hs, EOF]), e]
  | crlf bl _ ih =>
    intro first st
    obtain ⟨f', st', h, hp, e⟩ := ih false (next (some '\n') st)
    have hf : f' = false := by
      rcases hp with hp | ⟨f, hp, hp'⟩
      · simp only [Mode.L45.injEq] at hp; exact hp.symm
      · simp only [Mode.L45.injEq] at hp'; exact hp'
    refine ⟨f', st', ⟨(next_calls _ _).symm.trans h.1, ?_⟩, Or.inr ⟨first, rfl, by rw [hf]⟩, ?_⟩
    · rw [← h.2]; unfold next; split_ifs <;> rfl
    · rw [exec_cons_goto env strict '\r' _ _ .L58 st st (by simp [step, next, EOF]),
        exec_cons_goto env strict '\n' bl _ (.L45 false) st (next (some '\n') st)
        (by simp [step, hs]), e]


theorem apply_option_lineno (env : Env) (name : List Char) (sign arg : Int) (st : State) :
    (apply_option env name sign arg st).lineno = st.lineno := by
  unfold apply_option; split_ifs <;> rfl

theorem after_literal_lineno (strict : strictness) (b : Body) (sign idx : Int)
    (ch : Option Char) (s : State) :
    (after_literal strict b sign idx ch s).sat (fun _ s' => s'.lineno = s.lineno)
      (fun _ _ => True) := by
  unfold after_literal; split_ifs <;> simp [Outcome.sat]

theorem finish_lineno (strict : strictness) (b : Body) (s : State) :
    (finish strict b s).sat (fun _ s' => s'.lineno = s.lineno) (fun _ _ => True) := by
  unfold finish; split_ifs <;> simp [Outcome.sat]

/-- Between two `NEXT ()` the line counter is not touched (`nonl` is only
    called on the way to a `return`). -/
theorem step_goto_lineno (env : Env) (strict : strictness) (m : Mode) (ch : Option Char)
    (s : State) :
    (step env strict m ch s).sat (fun _ s' => s'.lineno = s.lineno) (fun _ _ => True) := by
  cases m <;>
    simp only [step, COMPLETE, option_value, option_end, header_c, header_variables,
      header_clauses, header_cr, header_end] <;>
    (try split_ifs) <;>
    first
    | exact after_literal_lineno strict _ _ _ ch s
    | exact finish_lineno strict _ s
    | (simp only [Outcome.sat, apply_option_lineno]; done)
    | (split <;> (try split_ifs) <;> simp only [Outcome.sat])

theorem exec_lineno (env : Env) (strict : strictness) (input : List Char) :
    ∀ (m m' : Mode) (st st' : State), st.lineno < 2 ^ 64 →
    exec env strict m st input = .goto m' st' →
    st'.lineno = (st.lineno + input.count '\n') % 2 ^ 64 := by
  induction input with
  | nil =>
    intro m m' st st' hl h
    simp only [exec, Outcome.goto.injEq] at h
    rw [← h.2, List.count_nil, Nat.add_zero, Nat.mod_eq_of_lt hl]
  | cons c cs ih =>
    intro m m' st st' hl h
    have hs := step_goto_lineno env strict m (some c) (next (some c) st)
    simp only [exec] at h
    cases e : step env strict m (some c) (next (some c) st) with
    | ret r s => rw [e] at h; cases h
    | goto m1 s =>
      rw [e] at h hs
      simp only [Outcome.sat] at hs
      by_cases hc : c = '\n'
      · subst hc
        have hn : (next (some '\n') st).lineno = (st.lineno + 1) % 2 ^ 64 := by simp [next]
        have := ih m1 m' s st' (by rw [hs, hn]; exact Nat.mod_lt _ (by norm_num)) h
        rw [this, hs, hn, List.count_cons_self, Nat.mod_add_mod]
        congr 1; omega
      · have hn : (next (some c) st).lineno = st.lineno := by rw [next_of_ne c st hc]
        have := ih m1 m' s st' (by rw [hs, hn]; exact hl) h
        rw [this, hs, hn, List.count_cons_of_ne (Ne.symm hc)]

theorem nonl_next_lineno (st : State) (h : st.lineno < 2 ^ 64) :
    (nonl (some '\n') (next (some '\n') st)).lineno = st.lineno := by
  simp only [nonl, next, if_true]
  show ((st.lineno + 1) % 2 ^ 64 + 2 ^ 64 - 1) % 2 ^ 64 = st.lineno
  omega

/-- Blank lines that are read at the start of a line. Let the parser be at
    the start of a line before the header after the text `pre`. Under `PEDANTIC_PARSING` a blank line (`\n` or `\r\n`) there
    makes `parse_dimacs` return "unexpected empty line" with the line counter
    at the number of the blank line, one more than the number of new-lines
    before it. Under `NORMAL_PARSING` and `RELAXED_PARSING` a run of blank
    lines inserted there leaves the result as it is (but for the message of
    a file that has no header at all): the same calls, so the same header
    values and `kissat_add` sequence, the same `*max_var_ptr`, and no error
    if there was none. -/
theorem blank_lines_at_line_start (env : Env) (strict : strictness)
    (pre rest : List Char) (first : Bool) (st : State)
    (hpre : exec env strict (.L45 true) init pre = .goto (.L45 first) st) :
    (strict = .PEDANTIC_PARSING → ∀ eol, is_eol eol →
      (parse_dimacs env strict (pre ++ (eol ++ rest))).error = some "unexpected empty line" ∧
      (parse_dimacs env strict (pre ++ (eol ++ rest))).state.lineno =
        (1 + pre.count '\n') % 2 ^ 64) ∧
    (strict ≠ .PEDANTIC_PARSING → ∀ bl, blank_lines bl →
      same_error (parse_dimacs env strict (pre ++ rest)).error
        (parse_dimacs env strict (pre ++ (bl ++ rest))).error ∧
      ((parse_dimacs env strict (pre ++ rest)).error = none →
        (parse_dimacs env strict (pre ++ (bl ++ rest))).error = none) ∧
      (parse_dimacs env strict (pre ++ (bl ++ rest))).state.calls =
        (parse_dimacs env strict (pre ++ rest)).state.calls ∧
      (parse_dimacs env strict (pre ++ (bl ++ rest))).state.max_var =
        (parse_dimacs env strict (pre ++ rest)).state.max_var) := by
  have hl1 : init.lineno < 2 ^ 64 := by simp [init]
  have hl := exec_lineno env strict pre _ _ _ _ hl1 hpre
  have hlt : st.lineno < 2 ^ 64 := by rw [hl]; exact Nat.mod_lt _ (by norm_num)
  have hinit : init.lineno = 1 := rfl
  rw [hinit] at hl
  unfold parse_dimacs
  constructor
  · intro hs eol heol
    rw [run_goto env strict _ _ _ _ _ _ hpre]
    have e : run env strict (.L45 first) st (eol ++ rest) =
        ⟨some "unexpected empty line", nonl (some '\n') (next (some '\n') st)⟩ := by
      rcases heol with rfl | rfl
      · simp [run, exec, step, hs, EOF]
      · simp [run, exec, step, hs, EOF, next]
    rw [e]
    exact ⟨rfl, by rw [nonl_next_lineno st hlt, hl]⟩
  · intro hs bl hbl
    obtain ⟨f', st', hss, hsp, e⟩ := exec_blank_lines env strict hs bl hbl first st
    rw [run_goto env strict _ _ _ _ _ _ hpre, run_goto env strict _ _ _ _ _ _ hpre,
      run_goto env strict _ _ _ _ _ _ e]
    have h := run_same_point env strict rest _ _ st st' hsp hss
    refine ⟨h.1, fun hn => ?_, h.2.1.symm, h.2.2.symm⟩
    rcases h.1 with h1 | ⟨h1, -⟩
    · rw [← h1]; exact hn
    · rw [h1] at hn; cases hn

/-- An instance: the comment line `c hello` and then a blank line, before
    `p cnf 1 1`, `1 0`. -/
theorem blank_lines_at_line_start_example :
    exec env0 .PEDANTIC_PARSING (.L45 true) init "c hello\n".toList =
      .goto (.L45 false) { init with lineno := 2 } ∧
    (parse_dimacs env0 .PEDANTIC_PARSING "c hello\n\np cnf 1 1\n1 0\n".toList).error =
      some "unexpected empty line" ∧
    (parse_dimacs env0 .PEDANTIC_PARSING "c hello\n\np cnf 1 1\n1 0\n".toList).state.lineno = 2 ∧
    (parse_dimacs env0 .NORMAL_PARSING "c hello\n\n\r\np cnf 1 1\n1 0\n".toList).error = none ∧
    adds (parse_dimacs env0 .NORMAL_PARSING "c hello\n\n\r\np cnf 1 1\n1 0\n".toList).state.calls
      = [1, 0] := by
  have hp : exec env0 .PEDANTIC_PARSING (.L45 true) init "c hello\n".toList =
      .goto (.L45 false) { init with lineno := 2 } := by decide
  have hn : exec env0 .NORMAL_PARSING (.L45 true) init "c hello\n".toList =
      .goto (.L45 false) { init with lineno := 2 } := by decide
  have h1 := (blank_lines_at_line_start env0 .PEDANTIC_PARSING "c hello\n".toList
    "p cnf 1 1\n1 0\n".toList false _ hp).1 rfl ['\n'] (Or.inl rfl)
  have h2 := (blank_lines_at_line_start env0 .NORMAL_PARSING "c hello\n".toList
    "p cnf 1 1\n1 0\n".toList false _ hn).2 (by decide) ['\n', '\r', '\n']
    (.lf _ (.crlf _ .nil))
  have t1 : "c hello\n".toList ++ (['\n'] ++ "p cnf 1 1\n1 0\n".toList) =
      "c hello\n\np cnf 1 1\n1 0\n".toList := by decide
  have t2 : "c hello\n".toList ++ (['\n', '\r', '\n'] ++ "p cnf 1 1\n1 0\n".toList) =
      "c hello\n\n\r\np cnf 1 1\n1 0\n".toList := by decide
  have t3 : "c hello\n".toList ++ "p cnf 1 1\n1 0\n".toList =
      "c hello\np cnf 1 1\n1 0\n".toList := by decide
  rw [t1] at h1
  rw [t2, t3] at h2
  refine ⟨hp, h1.1, by rw [h1.2]; decide, h2.2.1 (by decide), ?_⟩
  rw [h2.2.2.1]; decide


/-- C7. With embedded options switched on, a blank line right after the
    comment line `c -` is not read at the start of a line: the jump to
    `COMPLETE` of line 91 is taken with the new-line of the comment in `ch`,
    and the loop of line 166 reads the blank line's new-line as the end of
    the comment. Under `PEDANTIC_PARSING` the file `c -`, blank line,
    `p cnf 1 1`, `1 0` is accepted with no error (additions 1, 0) instead of
    "unexpected empty line"; under `NORMAL_PARSING` the file `c -`, `foo`,
    `p cnf 1 1`, `1 0` parses without error, and with a blank line inserted
    after its first line it returns "expected 'c' or 'p' at start of line".
    The build without `EMBEDDED` returns "unexpected empty line" at line 2 for
    the first file. -/
theorem C7_blank_line_after_option_comment :
    parse_dimacs env0 .PEDANTIC_PARSING "c -\n\np cnf 1 1\n1 0\n".toList =
      ⟨none, { lineno := 5, max_var := some 1,
               calls := [.kissat_message 1 1, .kissat_reserve 1, .kissat_add 1, .kissat_add 0],
               nonl_assert_failed := false }⟩ ∧
    (parse_dimacs env0 .NORMAL_PARSING "c -\nfoo\np cnf 1 1\n1 0\n".toList).error = none ∧
    adds (parse_dimacs env0 .NORMAL_PARSING "c -\nfoo\np cnf 1 1\n1 0\n".toList).state.calls =
      [1, 0] ∧
    (parse_dimacs env0 .NORMAL_PARSING "c -\n\nfoo\np cnf 1 1\n1 0\n".toList).error =
      some "expected 'c' or 'p' at start of line" ∧
    adds (parse_dimacs env0 .NORMAL_PARSING "c -\n\nfoo\np cnf 1 1\n1 0\n".toList).state.calls =
      [] ∧
    (parse_dimacs env_plain .PEDANTIC_PARSING "c -\n\np cnf 1 1\n1 0\n".toList).error =
      some "unexpected empty line" ∧
    (parse_dimacs env_plain .PEDANTIC_PARSING "c -\n\np cnf 1 1\n1 0\n".toList).state.lineno = 2 := by
  refine ⟨by decide, by decide, by decide, by decide, by decide, by decide, by decide⟩

/-! ## The `int` accumulators -/

theorem next_max_var (ch : Option Char) (st : State) : (next ch st).max_var = st.max_var := by
  unfold next; split_ifs <;> rfl

theorem nonl_max_var (ch : Option Char) (st : State) : (nonl ch st).max_var = st.max_var := by
  unfold nonl; split_ifs <;> rfl

theorem apply_option_max_var (env : Env) (name : List Char) (sign arg : Int) (st : State) :
    (apply_option env name sign arg st).max_var = st.max_var := by
  unfold apply_option; split_ifs <;> rfl

theorem after_literal_bound (env : Env) (strict : strictness) (b : Body) (sign idx : Int)
    (ch : Option Char) (st : State)
    (h : 0 ≤ b.vars ∧ b.vars ≤ env.EXTERNAL_MAX_VAR ∧ st.max_var = some b.vars) :
    (after_literal strict b sign idx ch st).sat (bound_inv env)
      (fun _ s => ∀ v, s.max_var = some v → 0 ≤ v ∧ v ≤ env.EXTERNAL_MAX_VAR) := by
  unfold after_literal
  split_ifs <;> simp only [Outcome.sat, bound_inv, nonl_max_var]
  · intro v hv; rw [h.2.2] at hv; cases hv; exact ⟨h.1, h.2.1⟩
  · exact h
  · intro v hv; rw [h.2.2] at hv; cases hv; exact ⟨h.1, h.2.1⟩
  · exact h

theorem finish_bound (env : Env) (strict : strictness) (b : Body) (st : State)
    (h : 0 ≤ b.vars ∧ b.vars ≤ env.EXTERNAL_MAX_VAR ∧ st.max_var = some b.vars) :
    (finish strict b st).sat (bound_inv env)
      (fun _ s => ∀ v, s.max_var = some v → 0 ≤ v ∧ v ≤ env.EXTERNAL_MAX_VAR) := by
  unfold finish
  split_ifs <;> simp only [Outcome.sat] <;>
    (intro v hv; rw [h.2.2] at hv; cases hv; exact ⟨h.1, h.2.1⟩)

theorem step_bound (env : Env) (strict : strictness) (h9 : 9 ≤ env.EXTERNAL_MAX_VAR)
    (m : Mode) (ch : Option Char) (st : State) (h : bound_inv env m st) :
    (step env strict m ch (next ch st)).sat (bound_inv env)
      (fun _ s => ∀ v, s.max_var = some v → 0 ≤ v ∧ v ≤ env.EXTERNAL_MAX_VAR) := by
  have hc := next_max_var ch st
  have hd : ∀ c : Option Char, isdigit c = true →
      0 ≤ digit_of c ∧ digit_of c ≤ env.EXTERNAL_MAX_VAR := by
    intro c hd; have := digit_of_nonneg c hd; omega
  have hnone : st.max_var = none → ∀ v, st.max_var = some v →
      0 ≤ v ∧ v ≤ (env.EXTERNAL_MAX_VAR : Int) := by
    intro h0 v hv; rw [h0] at hv; cases hv
  have hsome : ∀ b : Body, 0 ≤ b.vars ∧ b.vars ≤ env.EXTERNAL_MAX_VAR ∧
      st.max_var = some b.vars → ∀ v, st.max_var = some v →
      0 ≤ v ∧ v ≤ (env.EXTERNAL_MAX_VAR : Int) := by
    intro b hb v hv; rw [hb.2.2] at hv; cases hv; exact ⟨hb.1, hb.2.1⟩
  cases m <;> simp only [bound_inv] at h <;>
    simp only [step, COMPLETE, option_value, option_end, header_c, header_variables,
      header_clauses, header_cr, header_end] <;>
    repeat' split
  all_goals simp only [Outcome.sat, bound_inv, hc, nonl_max_var, apply_option_max_var]
  all_goals first
    | exact h
    | exact hnone h
    | exact hnone h.2.2
    | exact hsome _ h
    | exact hsome _ h.1
    | exact after_literal_bound env strict _ _ _ _ _ (by rw [hc]; exact h.1)
    | exact finish_bound env strict _ _ (by rw [hc]; exact h)
    | exact ⟨h.1, h.2.1, rfl⟩
    | exact ⟨h.1, h.2.1, trivial⟩
    | exact h.1
    | exact ⟨(hd ch (by simpa using (by assumption : ¬(!isdigit ch) = true))).1,
        (hd ch (by simpa using (by assumption : ¬(!isdigit ch) = true))).2, h⟩
    | exact ⟨h, (hd ch (by simpa using (by assumption : ¬(!isdigit ch) = true))).1,
        (hd ch (by simpa using (by assumption : ¬(!isdigit ch) = true))).2⟩
    | exact ⟨(accumulate_nonneg _ _ _ _ (by assumption) h.1 (by assumption)).1,
        (accumulate_nonneg _ _ _ _ (by assumption) h.1 (by assumption)).2.1, h.2.2⟩
    | exact ⟨h.1, (accumulate_nonneg _ _ _ _ (by assumption) h.2.1 (by assumption)).1,
        (accumulate_nonneg _ _ _ _ (by assumption) h.2.1 (by assumption)).2.1⟩
    | skip


theorem sat_and (o : Outcome) (P1 P2 : Mode → State → Prop)
    (Q1 Q2 : Option String → State → Prop) (h1 : o.sat P1 Q1) (h2 : o.sat P2 Q2) :
    o.sat (fun m s => P1 m s ∧ P2 m s) (fun r s => Q1 r s ∧ Q2 r s) := by
  cases o <;> exact ⟨h1, h2⟩

theorem after_literal_declared (strict : strictness) (V : Int) (b : Body) (sign idx : Int)
    (ch : Option Char) (st : State) (hV : b.vars = V) (hm : st.max_var = some V) :
    (after_literal strict b sign idx ch st).sat (declared_inv V)
      (fun r s => r ≠ some "maximum variable too large" ∧
        ∀ v, s.max_var = some v → v = V) := by
  have hq : ∀ v, st.max_var = some v → v = V := by
    intro v hv; rw [hm] at hv; cases hv; rfl
  unfold after_literal
  split_ifs <;> simp only [Outcome.sat, declared_inv, nonl_max_var]
  · exact ⟨by decide, hq⟩
  · exact hV
  · exact ⟨by decide, hq⟩
  · exact hV

theorem finish_declared (strict : strictness) (V : Int) (b : Body) (st : State)
    (hm : st.max_var = some V) :
    (finish strict b st).sat (declared_inv V)
      (fun r s => r ≠ some "maximum variable too large" ∧
        ∀ v, s.max_var = some v → v = V) := by
  have hq : ∀ v, st.max_var = some v → v = V := by
    intro v hv; rw [hm] at hv; cases hv; rfl
  unfold finish
  split_ifs <;> simp only [Outcome.sat] <;> exact ⟨by decide, hq⟩

theorem step_declared (env : Env) (strict : strictness) (V : Int)
    (m : Mode) (ch : Option Char) (st : State) (h : declared_inv V m st)
    (hb : bound_inv env m st) :
    (step env strict m ch (next ch st)).sat (declared_inv V)
      (fun r s => r ≠ some "maximum variable too large" ∧
        ∀ v, s.max_var = some v → v = V) := by
  have hc := next_max_var ch st
  have hnone : st.max_var = none → ∀ v, st.max_var = some v → v = V := by
    intro h0 v hv; rw [h0] at hv; cases hv
  have hsome : st.max_var = some V → ∀ v, st.max_var = some v → v = V := by
    intro h0 v hv; rw [h0] at hv; cases hv; rfl
  cases m <;> simp only [declared_inv] at h <;> simp only [bound_inv] at hb <;>
    simp only [step, header_clauses, header_cr, header_end] <;>
    repeat' split
  all_goals simp only [Outcome.sat, declared_inv, hc, nonl_max_var]
  all_goals first
    | exact h
    | exact ⟨by decide, hnone hb.2.2⟩
    | exact ⟨by decide, hsome (h ▸ hb.2.2)⟩
    | exact ⟨by decide, hsome (h ▸ hb.1.2.2)⟩
    | exact after_literal_declared strict V _ _ _ _ _ h (by rw [hc]; exact h ▸ hb.1.2.2)
    | exact finish_declared strict V _ _ (by rw [hc]; exact h ▸ hb.2.2)
    | skip

theorem exec_bound (env : Env) (strict : strictness) (h9 : 9 ≤ env.EXTERNAL_MAX_VAR)
    (input : List Char) (m : Mode) (st : State)
    (h : exec env strict (.L45 true) init input = .goto m st) : bound_inv env m st := by
  have := exec_sat env strict (bound_inv env)
    (fun _ s => ∀ v, s.max_var = some v → 0 ≤ v ∧ v ≤ env.EXTERNAL_MAX_VAR)
    (step_bound env strict h9) input (.L45 true) init (by simp [bound_inv, init])
  rw [h] at this
  exact this


theorem run_cons (env : Env) (strict : strictness) (m : Mode) (st : State) (c : Char)
    (cs : List Char) :
    run env strict m st (c :: cs) =
      continue_run env strict (step env strict m (some c) (next (some c) st)) cs := by
  simp only [run, exec, continue_run]
  cases step env strict m (some c) (next (some c) st) <;> rfl

theorem continue_run_sat (env : Env) (strict : strictness) (P : Mode → State → Prop)
    (Q : Option String → State → Prop)
    (hstep : ∀ m ch st, P m st → (step env strict m ch (next ch st)).sat P Q)
    (o : Outcome) (rest : List Char) (h : o.sat P Q) :
    Q (continue_run env strict o rest).error (continue_run env strict o rest).state := by
  cases o with
  | ret r s => exact h
  | goto m s => exact run_sat env strict P Q hstep rest m s h

/-- After the header numeral, the message "maximum variable too large" is
    never returned and `*max_var_ptr`, if assigned, holds the value of the
    numeral. -/
theorem run_after_variables (env : Env) (strict : strictness) (h9 : 9 ≤ env.EXTERNAL_MAX_VAR)
    (V : Int) (st : State) (hb : bound_inv env (.L214 V) st) (rest : List Char)
    (hr : ∀ x, rest.head? = some x → isdigit (some x) = false) :
    (run env strict (.L214 V) st rest).error ≠ some "maximum variable too large" ∧
    ∀ v, (run env strict (.L214 V) st rest).state.max_var = some v → v = V := by
  have hnone : st.max_var = none := hb.2.2
  cases rest with
  | nil =>
    simp [run, exec, at_eof, step, isdigit, EOF, hnone]
  | cons x xs =>
    have hx : isdigit (some x) = false := hr x rfl
    rw [run_cons]
    have hcomb := continue_run_sat env strict
      (fun m s => declared_inv V m s ∧ bound_inv env m s)
      (fun r s => (r ≠ some "maximum variable too large" ∧ ∀ v, s.max_var = some v → v = V) ∧
        ∀ v, s.max_var = some v → 0 ≤ v ∧ v ≤ (env.EXTERNAL_MAX_VAR : Int))
      (fun m ch s hp => sat_and _ _ _ _ _ (step_declared env strict V m ch s hp.1 hp.2)
        (step_bound env strict h9 m ch s hp.2))
      (step env strict (.L214 V) (some x) (next (some x) st)) xs
      (by
        have hm := next_max_var (some x) st
        simp only [step, hx, EOF, Bool.false_eq_true, if_false]
        split_ifs <;> simp only [Outcome.sat, declared_inv, bound_inv, nonl_max_var, hm, hnone]
          <;> simp [hb.1, hb.2.1])
    exact hcomb.1


/-- The header numeral from its first digit: the digit loop of line 214 ends
    with the exact value or returns "maximum variable too large". -/
theorem exec_header_numeral (env : Env) (strict : strictness) (h9 : 9 ≤ env.EXTERNAL_MAX_VAR)
    (m : Mode) (hm : m = .L205 ∨ m = .L209) (st : State) (c : Char) (cs : List Char)
    (hd : all_digits (c :: cs)) :
    exec env strict m st (c :: cs) =
      if decimal_value 0 (c :: cs) ≤ env.EXTERNAL_MAX_VAR then
        .goto (.L214 (decimal_value 0 (c :: cs) : Nat)) st
      else .ret (some "maximum variable too large") st := by
  have hc : isdigit (some c) = true := hd c (by simp)
  have hcs : all_digits cs := fun x hx => hd x (by simp [hx])
  have hnb := digit_not_blank c hc
  have e : decimal_value 0 (c :: cs) = decimal_value (c.toNat - 48) cs := by
    simp [decimal_value_cons]
  have h48 : c.toNat - 48 ≤ env.EXTERNAL_MAX_VAR := by
    have := (isdigit_iff c).1 hc; omega
  have hs : step env strict m (some c) (next (some c) st) =
      .goto (.L214 ((c.toNat - 48 : Nat) : Int)) st := by
    rcases hm with rfl | rfl <;>
      simp [step, next_digit, header_variables, hc, hnb, digit_of_digit]
  rw [exec_cons_goto env strict c cs m _ st st hs, exec_L214_digits env strict cs hcs _ st h48, e]

/-- C8. With `EXTERNAL_MAX_VAR` at least 9 (the first digit of a numeral is
    taken unchecked), in every mode:
    (1) for a non-empty digit string `d` (leading zeros allowed) at the
    variable count of the header, followed by a non-digit or the end of the
    file, `parse_dimacs` returns "maximum variable too large" if and only if
    the decimal value of `d` exceeds `EXTERNAL_MAX_VAR`; otherwise the digit
    loop ends with `variables` equal to that value, and this is what
    `*max_var_ptr` holds if it is assigned;
    (2) for a numeral of the clauses, the digit loop returns "variable index
    too large" if its value exceeds `EXTERNAL_MAX_VAR` and otherwise ends with
    `idx` equal to the value;
    (3) wherever the parser stands, the accumulators `variables` and `idx`
    are between `0` and `EXTERNAL_MAX_VAR`, and after the first guard of the
    loop has passed ten times the accumulator is at most
    `EXTERNAL_MAX_VAR`. -/
theorem C8_decimal_accumulation (env : Env) (strict : strictness)
    (h9 : 9 ≤ env.EXTERNAL_MAX_VAR) :
    (∀ (pre : List Char) (m : Mode) (st : State) (c : Char) (cs rest : List Char),
      exec env strict (.L45 true) init pre = .goto m st → (m = .L205 ∨ m = .L209) →
      all_digits (c :: cs) → (∀ x, rest.head? = some x → isdigit (some x) = false) →
      ((parse_dimacs env strict (pre ++ ((c :: cs) ++ rest))).error =
          some "maximum variable too large" ↔
        env.EXTERNAL_MAX_VAR < decimal_value 0 (c :: cs)) ∧
      (decimal_value 0 (c :: cs) ≤ env.EXTERNAL_MAX_VAR →
        exec env strict (.L45 true) init (pre ++ (c :: cs)) =
          .goto (.L214 (decimal_value 0 (c :: cs) : Nat)) st ∧
        ∀ v, (parse_dimacs env strict (pre ++ ((c :: cs) ++ rest))).state.max_var = some v →
          v = (decimal_value 0 (c :: cs) : Nat))) ∧
    (∀ (pre : List Char) (b : Body) (st : State) (neg : Bool) (c : Char) (cs : List Char),
      exec env strict (.L45 true) init pre = .goto (.L281 b) st →
      all_digits (c :: cs) → (neg = true → c ≠ '0') →
      exec env strict (.L45 true) init (pre ++ numeral_token neg (c :: cs)) =
        if decimal_value 0 (c :: cs) ≤ env.EXTERNAL_MAX_VAR then
          .goto (.L330 b (sign_of neg) (decimal_value 0 (c :: cs) : Nat)) st
        else .ret (some "variable index too large") st) ∧
    (∀ (input : List Char) (m : Mode) (st : State),
      exec env strict (.L45 true) init input = .goto m st →
      (∀ v, m = .L214 v → 0 ≤ v ∧ v ≤ env.EXTERNAL_MAX_VAR ∧
        (¬ ((env.EXTERNAL_MAX_VAR : Int) / 10 < v) → v * 10 ≤ env.EXTERNAL_MAX_VAR)) ∧
      (∀ b sign idx, m = .L330 b sign idx → 0 ≤ idx ∧ idx ≤ env.EXTERNAL_MAX_VAR ∧
        (¬ ((env.EXTERNAL_MAX_VAR : Int) / 10 < idx) → idx * 10 ≤ env.EXTERNAL_MAX_VAR))) := by
  refine ⟨?_, ?_, ?_⟩
  · intro pre m st c cs rest hpre hm hd hr
    have hnum := exec_header_numeral env strict h9 m hm st c cs hd
    have hnone : st.max_var = none := by
      have := exec_bound env strict h9 pre m st hpre
      rcases hm with rfl | rfl <;> exact this
    unfold parse_dimacs
    rw [run_goto env strict _ _ _ _ _ _ hpre]
    by_cases hle : decimal_value 0 (c :: cs) ≤ env.EXTERNAL_MAX_VAR
    · rw [if_pos hle] at hnum
      have hb : bound_inv env (.L214 (decimal_value 0 (c :: cs) : Nat)) st :=
        ⟨by omega, by exact_mod_cast hle, hnone⟩
      have hrun := run_after_variables env strict h9 _ st hb rest hr
      rw [run_goto env strict _ _ _ _ _ _ hnum]
      refine ⟨⟨fun h => absurd h hrun.1, fun h => absurd hle (not_le.2 h)⟩, fun _ => ⟨?_, hrun.2⟩⟩
      rw [exec_goto_append env strict _ _ _ _ _ _ hpre, hnum]
    · rw [if_neg hle] at hnum
      rw [run_ret env strict _ _ _ _ _ _ hnum]
      exact ⟨⟨fun _ => not_le.1 hle, fun _ => rfl⟩, fun h => absurd h hle⟩
  · intro pre b st neg c cs hpre hd h0
    rw [exec_goto_append env strict _ _ _ _ _ _ hpre]
    have hc : isdigit (some c) = true := hd c (by simp)
    have hcs : all_digits cs := fun x hx => hd x (by simp [hx])
    have e : decimal_value 0 (c :: cs) = decimal_value (c.toNat - 48) cs := by
      simp [decimal_value_cons]
    have h48 : c.toNat - 48 ≤ env.EXTERNAL_MAX_VAR := by
      have := (isdigit_iff c).1 hc; omega
    have hsp := digit_not_special c hc
    cases neg with
    | false =>
      simp only [numeral_token, sign_of, Bool.false_eq_true, if_false]
      rw [exec_cons_goto env strict c cs _ (.L330 b 1 ((c.toNat - 48 : Nat) : Int)) st st
          (by simp [step, next_digit, hc, hsp, EOF, digit_of_digit]),
        exec_L330_digits env strict b 1 cs hcs _ st h48, e]
    | true =>
      simp only [numeral_token, sign_of, if_true]
      rw [exec_cons_goto env strict '-' _ _ (.L313 b) st st (by simp [step, next, EOF]),
        exec_cons_goto env strict c cs _ (.L330 b (-1) ((c.toNat - 48 : Nat) : Int)) st st
          (by simp [step, next_digit, hc, hsp, h0 rfl, EOF, digit_of_digit]),
        exec_L330_digits env strict b (-1) cs hcs _ st h48, e]
  · intro input m st h
    have hb := exec_bound env strict h9 input m st h
    constructor
    · intro v hv
      subst hv
      exact ⟨hb.1, hb.2.1, fun hg => by omega⟩
    · intro b sign idx hv
      subst hv
      exact ⟨hb.2.1, hb.2.2, fun hg => by omega⟩

/-- Witness of C8: `EXTERNAL_MAX_VAR` is `2 ^ 30 - 1 = 1073741823`; the header
    numeral `1073741824` is too large, `0001073741823` is not. -/
theorem C8_decimal_accumulation_witness :
    9 ≤ env0.EXTERNAL_MAX_VAR ∧
    (parse_dimacs env0 .RELAXED_PARSING "p cnf 1073741824 0\n".toList).error =
      some "maximum variable too large" ∧
    (parse_dimacs env0 .RELAXED_PARSING "p cnf 0001073741823 0\n".toList).error ≠
      some "maximum variable too large" ∧
    (parse_dimacs env0 .RELAXED_PARSING "p cnf 0001073741823 0\n".toList).state.max_var =
      some 1073741823 := by
  have h9 : 9 ≤ env0.EXTERNAL_MAX_VAR := by decide
  have hpre : exec env0 .RELAXED_PARSING (.L45 true) init "p cnf ".toList = .goto .L205 init := by
    decide
  have hr : ∀ x, " 0\n".toList.head? = some x → isdigit (some x) = false := by
    intro x hx; simp at hx; subst hx; decide
  have h1 := (C8_decimal_accumulation env0 .RELAXED_PARSING h9).1 "p cnf ".toList .L205 init
    '1' "073741824".toList " 0\n".toList hpre (Or.inl rfl)
    (by unfold all_digits; decide)
    hr
  have h2 := (C8_decimal_accumulation env0 .RELAXED_PARSING h9).1 "p cnf ".toList .L205 init
    '0' "001073741823".toList " 0\n".toList hpre (Or.inl rfl)
    (by unfold all_digits; decide)
    hr
  have t1 : "p cnf ".toList ++ (('1' :: "073741824".toList) ++ " 0\n".toList) =
      "p cnf 1073741824 0\n".toList := by decide
  have t2 : "p cnf ".toList ++ (('0' :: "001073741823".toList) ++ " 0\n".toList) =
      "p cnf 0001073741823 0\n".toList := by decide
  rw [t1] at h1
  rw [t2] at h2
  refine ⟨h9, h1.1.2 (by decide), fun h => absurd (h2.1.1 h) (by decide), by decide⟩


/-! ## The clause count -/

theorem message_apply_option (env : Env) (name : List Char) (sign arg : Int) (st : State)
    (h : ∀ V C, Call.kissat_message V C ∉ st.calls) :
    ∀ V C, Call.kissat_message V C ∉ (apply_option env name sign arg st).calls := by
  intro V C
  unfold apply_option
  split_ifs <;> simpa using h V C

theorem after_literal_message (strict : strictness) (b : Body) (sign idx : Int)
    (ch : Option Char) (st : State)
    (h : ∀ V C, Call.kissat_message V C ∈ st.calls → C = b.clauses) :
    (after_literal strict b sign idx ch st).sat message_inv (fun _ _ => True) := by
  unfold after_literal
  split_ifs <;> simp only [Outcome.sat, message_inv]
  · intro V C hm; simp at hm; exact h V C hm
  · intro V C hm; simp at hm; exact h V C hm

theorem finish_message (strict : strictness) (b : Body) (st : State) :
    (finish strict b st).sat message_inv (fun _ _ => True) := by
  unfold finish
  split_ifs <;> simp only [Outcome.sat]

theorem message_header_end (V : Int) (C : Nat) (st : State)
    (h : ∀ V' C', Call.kissat_message V' C' ∉ st.calls) :
    ∀ V' C', Call.kissat_message V' C' ∈
      st.calls ++ [Call.kissat_message V C, Call.kissat_reserve V] → C' = C := by
  intro V' C' hm
  simp at hm
  rcases hm with hm | hm
  · exact absurd hm (h V' C')
  · exact hm.2

theorem step_message (env : Env) (strict : strictness)
    (m : Mode) (ch : Option Char) (st : State) (h : message_inv m st) :
    (step env strict m ch (next ch st)).sat message_inv (fun _ _ => True) := by
  have hc := next_calls ch st
  cases m <;> simp only [message_inv] at h <;>
    simp only [step, COMPLETE, option_value, option_end, header_c, header_variables,
      header_clauses, header_cr, header_end] <;>
    repeat' split
  all_goals simp only [Outcome.sat, message_inv, hc, nonl_calls]
  all_goals first
    | exact h
    | exact message_apply_option env _ _ _ _ (by rw [hc]; exact h)
    | exact after_literal_message strict _ _ _ _ _ (by rw [hc]; exact h)
    | exact finish_message strict _ _
    | exact message_header_end _ _ _ h
    | skip

theorem after_literal_clauses (strict : strictness) (C : Nat) (b : Body) (sign idx : Int)
    (ch : Option Char) (st : State) (hC : b.clauses = C)
    (h : ∀ V' C', Call.kissat_message V' C' ∈ st.calls → C' = b.clauses) :
    (after_literal strict b sign idx ch st).sat (clauses_inv C)
      (fun r s => r ≠ some "number of clauses too large" ∧
        ∀ V' C', Call.kissat_message V' C' ∈ s.calls → C' = C) := by
  unfold after_literal
  split_ifs <;> simp only [Outcome.sat, clauses_inv, nonl_calls]
  · exact ⟨by decide, fun V' C' hm => (h V' C' hm).trans hC⟩
  · exact hC
  · exact ⟨by decide, fun V' C' hm => (h V' C' hm).trans hC⟩
  · exact hC

theorem finish_clauses (strict : strictness) (C : Nat) (b : Body) (st : State)
    (hC : b.clauses = C)
    (h : ∀ V' C', Call.kissat_message V' C' ∈ st.calls → C' = b.clauses) :
    (finish strict b st).sat (clauses_inv C)
      (fun r s => r ≠ some "number of clauses too large" ∧
        ∀ V' C', Call.kissat_message V' C' ∈ s.calls → C' = C) := by
  unfold finish
  split_ifs <;> simp only [Outcome.sat] <;>
    exact ⟨by decide, fun V' C' hm => (h V' C' hm).trans hC⟩

theorem step_clauses (env : Env) (strict : strictness) (C : Nat)
    (m : Mode) (ch : Option Char) (st : State) (h : clauses_inv C m st)
    (hm : message_inv m st) :
    (step env strict m ch (next ch st)).sat (clauses_inv C)
      (fun r s => r ≠ some "number of clauses too large" ∧
        ∀ V' C', Call.kissat_message V' C' ∈ s.calls → C' = C) := by
  have hc := next_calls ch st
  have hno : (∀ V' C', Call.kissat_message V' C' ∉ st.calls) →
      ∀ V' C', Call.kissat_message V' C' ∈ st.calls → C' = C :=
    fun h0 V' C' hx => absurd hx (h0 V' C')
  cases m <;> simp only [clauses_inv] at h <;> simp only [message_inv] at hm <;>
    simp only [step, header_cr, header_end] <;>
    repeat' split
  all_goals simp only [Outcome.sat, clauses_inv, hc, nonl_calls]
  all_goals first
    | exact h
    | exact ⟨by decide, hno hm⟩
    | exact ⟨by decide, fun V' C' hx => (hm V' C' hx).trans h⟩
    | exact after_literal_clauses strict C _ _ _ _ _ h (by rw [hc]; exact hm)
    | exact finish_clauses strict C _ _ h (by rw [hc]; exact hm)
    | skip

theorem exec_message (env : Env) (strict : strictness)
    (input : List Char) (m : Mode) (st : State)
    (h : exec env strict (.L45 true) init input = .goto m st) : message_inv m st := by
  have := exec_sat env strict message_inv (fun _ _ => True)
    (step_message env strict) input (.L45 true) init (by simp [message_inv, init])
  rw [h] at this
  exact this


/-- The clause count numeral from its first digit: the digit loop of line 246
    ends with the exact value or returns "number of clauses too large". -/
theorem exec_clauses_numeral (env : Env) (strict : strictness) (V : Int)
    (m : Mode) (hm : m = .L237 V ∨ m = .L241 V) (st : State) (c : Char) (cs : List Char)
    (hd : all_digits (c :: cs)) :
    exec env strict m st (c :: cs) =
      if decimal_value 0 (c :: cs) < 2 ^ 64 then
        .goto (.L246 V (decimal_value 0 (c :: cs))) st
      else .ret (some "number of clauses too large") st := by
  have hc : isdigit (some c) = true := hd c (by simp)
  have hcs : all_digits cs := fun x hx => hd x (by simp [hx])
  have hnb := digit_not_blank c hc
  have e : decimal_value 0 (c :: cs) = decimal_value (c.toNat - 48) cs := by
    simp [decimal_value_cons]
  have h48 : c.toNat - 48 < 2 ^ 64 := by
    have := (isdigit_iff c).1 hc; omega
  have hdn : (digit_of (some c)).toNat = c.toNat - 48 := by
    rw [digit_of_digit c hc]; simp
  have hs : step env strict m (some c) (next (some c) st) =
      .goto (.L246 V (c.toNat - 48)) st := by
    rcases hm with rfl | rfl <;>
      simp [step, next_digit, header_clauses, hc, hnb, hdn]
  rw [exec_cons_goto env strict c cs m _ st st hs, exec_L246_digits env strict V cs hcs _ st h48, e]

/-- After the clause count numeral, "number of clauses too large" is never
    returned and the header, if announced, declares the value of the
    numeral. -/
theorem run_after_clauses (env : Env) (strict : strictness) (V : Int) (C : Nat) (st : State)
    (hno : ∀ V' C', Call.kissat_message V' C' ∉ st.calls) (rest : List Char)
    (hr : ∀ x, rest.head? = some x → isdigit (some x) = false) :
    (run env strict (.L246 V C) st rest).error ≠ some "number of clauses too large" ∧
    ∀ V' C', Call.kissat_message V' C' ∈ (run env strict (.L246 V C) st rest).state.calls →
      C' = C := by
  cases rest with
  | nil =>
    simp only [run, exec, at_eof, step, isdigit, EOF, Bool.false_eq_true, if_false, if_true]
    exact ⟨by decide, fun V' C' hx => absurd hx (hno V' C')⟩
  | cons x xs =>
    have hx : isdigit (some x) = false := hr x rfl
    rw [run_cons]
    have hcomb := continue_run_sat env strict
      (fun m s => clauses_inv C m s ∧ message_inv m s)
      (fun r s => (r ≠ some "number of clauses too large" ∧
        ∀ V' C', Call.kissat_message V' C' ∈ s.calls → C' = C) ∧ True)
      (fun m ch s hp => sat_and _ _ _ _ _ (step_clauses env strict C m ch s hp.1 hp.2)
        (step_message env strict m ch s hp.2))
      (step env strict (.L246 V C) (some x) (next (some x) st)) xs
      (by
        have hm := next_calls (some x) st
        have hno' : ∀ V' C', Call.kissat_message V' C' ∈ st.calls → C' = C :=
          fun V' C' hx => absurd hx (hno V' C')
        simp only [step, hx, EOF, Bool.false_eq_true, if_false, header_cr, header_end]
        split_ifs <;> simp only [Outcome.sat, clauses_inv, message_inv, hm, and_true] <;>
          first
          | contradiction
          | exact ⟨trivial, hno⟩
          | exact hno
          | exact ⟨by decide, hno'⟩
          | exact ⟨trivial, message_header_end V C _ hno⟩
          | exact message_header_end V C _ hno)
    exact hcomb.1

/-- C9. In every mode, for a non-empty digit string `d` at the clause count of
    the header, followed by a non-digit or the end of the file: the digit loop
    of lines 246–255 ends with `clauses` equal to the decimal value of `d`
    when that is below `2 ^ 64` (no step wraps modulo `2 ^ 64`), and returns
    "number of clauses too large" otherwise; `parse_dimacs` returns that
    message if and only if the value is at least `2 ^ 64`, and a header that
    is announced declares exactly the value. -/
theorem C9_clause_count (env : Env) (strict : strictness) (pre : List Char) (m : Mode)
    (st : State) (V : Int) (c : Char) (cs rest : List Char)
    (hpre : exec env strict (.L45 true) init pre = .goto m st)
    (hm : m = .L237 V ∨ m = .L241 V) (hd : all_digits (c :: cs))
    (hr : ∀ x, rest.head? = some x → isdigit (some x) = false) :
    ((parse_dimacs env strict (pre ++ ((c :: cs) ++ rest))).error =
        some "number of clauses too large" ↔ 2 ^ 64 ≤ decimal_value 0 (c :: cs)) ∧
    exec env strict (.L45 true) init (pre ++ (c :: cs)) =
      (if decimal_value 0 (c :: cs) < 2 ^ 64 then
        .goto (.L246 V (decimal_value 0 (c :: cs))) st
      else .ret (some "number of clauses too large") st) ∧
    (decimal_value 0 (c :: cs) < 2 ^ 64 → ∀ V' C', Call.kissat_message V' C' ∈
      (parse_dimacs env strict (pre ++ ((c :: cs) ++ rest))).state.calls →
        C' = decimal_value 0 (c :: cs)) := by
  have hnum := exec_clauses_numeral env strict V m hm st c cs hd
  have hno : ∀ V' C', Call.kissat_message V' C' ∉ st.calls := by
    have := exec_message env strict pre m st hpre
    rcases hm with rfl | rfl <;> exact this
  have hex : exec env strict (.L45 true) init (pre ++ (c :: cs)) =
      (if decimal_value 0 (c :: cs) < 2 ^ 64 then
        .goto (.L246 V (decimal_value 0 (c :: cs))) st
      else .ret (some "number of clauses too large") st) := by
    rw [exec_goto_append env strict _ _ _ _ _ _ hpre, hnum]
  unfold parse_dimacs
  rw [run_goto env strict _ _ _ _ _ _ hpre]
  by_cases hlt : decimal_value 0 (c :: cs) < 2 ^ 64
  · rw [if_pos hlt] at hnum
    have hrun := run_after_clauses env strict V (decimal_value 0 (c :: cs)) st hno rest hr
    rw [run_goto env strict _ _ _ _ _ _ hnum]
    exact ⟨⟨fun h => absurd h hrun.1, fun h => absurd hlt (not_lt.2 h)⟩, hex, fun _ => hrun.2⟩
  · rw [if_neg hlt] at hnum
    rw [run_ret env strict _ _ _ _ _ _ hnum]
    exact ⟨⟨fun _ => not_lt.1 hlt, fun _ => rfl⟩, hex, fun h => absurd h hlt⟩

/-- Witness of C9: the clause counts `18446744073709551616 = 2 ^ 64` and
    `18446744073709551615`. -/
theorem C9_clause_count_witness :
    exec env0 .NORMAL_PARSING (.L45 true) init "p cnf 1 ".toList = .goto (.L237 1) init ∧
    (parse_dimacs env0 .NORMAL_PARSING "p cnf 1 18446744073709551616\n".toList).error =
      some "number of clauses too large" ∧
    (parse_dimacs env0 .NORMAL_PARSING "p cnf 1 18446744073709551615\n".toList).error ≠
      some "number of clauses too large" ∧
    Call.kissat_message 1 18446744073709551615 ∈
      (parse_dimacs env0 .NORMAL_PARSING "p cnf 1 18446744073709551615\n".toList).state.calls := by
  have hpre : exec env0 .NORMAL_PARSING (.L45 true) init "p cnf 1 ".toList =
      .goto (.L237 1) init := by decide
  have hr : ∀ x, "\n".toList.head? = some x → isdigit (some x) = false := by
    intro x hx; simp at hx; subst hx; decide
  have h1 := C9_clause_count env0 .NORMAL_PARSING "p cnf 1 ".toList _ init 1
    '1' "8446744073709551616".toList "\n".toList hpre (Or.inl rfl)
    (by unfold all_digits; decide) hr
  have h2 := C9_clause_count env0 .NORMAL_PARSING "p cnf 1 ".toList _ init 1
    '1' "8446744073709551615".toList "\n".toList hpre (Or.inl rfl)
    (by unfold all_digits; decide) hr
  have t1 : "p cnf 1 ".toList ++ (('1' :: "8446744073709551616".toList) ++ "\n".toList) =
      "p cnf 1 18446744073709551616\n".toList := by decide
  have t2 : "p cnf 1 ".toList ++ (('1' :: "8446744073709551615".toList) ++ "\n".toList) =
      "p cnf 1 18446744073709551615\n".toList := by decide
  rw [t1] at h1
  rw [t2] at h2
  exact ⟨hpre, h1.1.2 (by decide), fun h => absurd (h2.1.1 h) (by decide), by decide⟩

/-! ## The shape of the header line -/

theorem exec_cons_inv (env : Env) (strict : strictness) (m m' : Mode) (st st' : State)
    (x : Char) (xs : List Char) (h : exec env strict m st (x :: xs) = .goto m' st') :
    ∃ m1 s1, step env strict m (some x) (next (some x) st) = .goto m1 s1 ∧
      exec env strict m1 s1 xs = .goto m' st' := by
  simp only [exec] at h
  cases e : step env strict m (some x) (next (some x) st) with
  | ret r s => rw [e] at h; cases h
  | goto m1 s1 => rw [e] at h; exact ⟨m1, s1, rfl, h⟩

/-- A fixed character of the header: the step goes on only for that
    character. -/
theorem step_fixed_goto (env : Env) (m : Mode) (x : Char) (s : State) (m1 : Mode) (s1 : State)
    (h : step env .PEDANTIC_PARSING m (some x) s = .goto m1 s1) :
    (m = .L185 → x = ' ' ∧ m1 = .L188 ∧ s1 = s) ∧
    (m = .L188 → x = 'c' ∧ m1 = .L196 ∧ s1 = s) ∧
    (m = .L196 → x = 'n' ∧ m1 = .L199 ∧ s1 = s) ∧
    (m = .L199 → x = 'f' ∧ m1 = .L202 ∧ s1 = s) ∧
    (m = .L202 → x = ' ' ∧ m1 = .L205 ∧ s1 = s) ∧
    (m = .L205 → isdigit (some x) = true ∧ m1 = .L214 (digit_of (some x)) ∧ s1 = s) ∧
    (∀ v, m = .L237 v → isdigit (some x) = true ∧
      m1 = .L246 v (digit_of (some x)).toNat ∧ s1 = s) := by
  refine ⟨?_, ?_, ?_, ?_, ?_, ?_, ?_⟩
  all_goals
    intros
    subst_vars
    simp only [step, header_c, header_variables, header_clauses] at h
    split_ifs at h <;> simp_all

theorem exec_expect (env : Env) (m m1 : Mode) (ch : Char) (hch : ch ≠ '\n')
    (hstep : ∀ x s m' s', step env .PEDANTIC_PARSING m (some x) s = .goto m' s' →
      x = ch ∧ m' = m1 ∧ s' = s)
    (t : List Char) (hne : '\n' ∉ t) (st : State) (b : Body) (st' : State)
    (h : exec env .PEDANTIC_PARSING m st (t ++ ['\n']) = .goto (.L281 b) st') :
    ∃ t', t = ch :: t' ∧
      exec env .PEDANTIC_PARSING m1 st (t' ++ ['\n']) = .goto (.L281 b) st' := by
  cases t with
  | nil =>
    obtain ⟨m', s', hs, -⟩ := exec_cons_inv env _ _ _ _ _ _ _ h
    exact absurd (hstep _ _ _ _ hs).1.symm hch
  | cons x t' =>
    have hx : x ≠ '\n' := fun e => hne (by simp [e])
    obtain ⟨m', s', hs, hr⟩ := exec_cons_inv env _ _ _ _ _ _ _ h
    obtain ⟨rfl, rfl, rfl⟩ := hstep _ _ _ _ hs
    rw [next_of_ne x st hx] at hr
    exact ⟨t', rfl, hr⟩

theorem step_L214_other (env : Env) (strict : strictness) (v : Int) (x : Char) (st : State)
    (hd : ¬ isdigit (some x) = true) (hx : x ≠ '\n') :
    step env strict (.L214 v) (some x) st =
      if x = '\r' then .goto (.L228 v) st
      else if x = ' ' then .goto (.L237 v) st
      else .ret (some "expected space after maximum variable") st := by
  simp only [step, hd, EOF, Bool.false_eq_true, if_false]
  split_ifs <;> simp_all

theorem step_L246_other (env : Env) (v : Int) (n : Nat) (x : Char) (st : State)
    (hd : ¬ isdigit (some x) = true) (hx : x ≠ '\n') :
    step env .PEDANTIC_PARSING (.L246 v n) (some x) st =
      if x = '\r' then .goto (.L265 v n) st
      else .ret (some "expected new-line after parsing number of clauses") st := by
  simp only [step, hd, EOF, Bool.false_eq_true, if_false, header_cr, header_end]
  split_ifs <;> simp_all

theorem step_cr_goto (env : Env) (strict : strictness) (m : Mode) (y : Char) (s : State)
    (m2 : Mode) (s2 : State) (hy : y ≠ '\n')
    (hm : (∃ v, m = .L228 v) ∨ ∃ v n, m = .L265 v n)
    (h : step env strict m (some y) s = .goto m2 s2) : False := by
  rcases hm with ⟨v, rfl⟩ | ⟨v, n, rfl⟩ <;> simp only [step] at h <;> split_ifs at h <;> simp_all

theorem step_L228_goto (env : Env) (strict : strictness) (v : Int) (ch : Option Char)
    (s : State) (m2 : Mode) (s2 : State)
    (h : step env strict (.L228 v) ch s = .goto m2 s2) : False := by
  simp only [step] at h; split_ifs at h

theorem exec_L214_shape (env : Env) (t : List Char) :
    ∀ (v : Int) (st : State) (b : Body) (st' : State), '\n' ∉ t →
    exec env .PEDANTIC_PARSING (.L214 v) st (t ++ ['\n']) = .goto (.L281 b) st' →
    ∃ ds t' v', all_digits ds ∧ t = ds ++ ' ' :: t' ∧
      exec env .PEDANTIC_PARSING (.L237 v') st (t' ++ ['\n']) = .goto (.L281 b) st' := by
  induction t with
  | nil =>
    intro v st b st' _ h
    simp [exec, step, isdigit, EOF] at h
  | cons x xs ih =>
    intro v st b st' hne h
    have hx : x ≠ '\n' := fun e => hne (by simp [e])
    have hxs : '\n' ∉ xs := fun e => hne (by simp [e])
    rw [List.cons_append] at h
    obtain ⟨m1, s1, hs, hr⟩ := exec_cons_inv env _ _ _ _ _ _ _ h
    rw [next_of_ne x st hx] at hs
    by_cases hd : isdigit (some x) = true
    · simp only [step, hd, if_true] at hs
      cases ha : accumulate (↑env.EXTERNAL_MAX_VAR) v (some x) with
      | none => rw [ha] at hs; cases hs
      | some v1 =>
        rw [ha] at hs
        simp only [Outcome.goto.injEq] at hs
        obtain ⟨rfl, rfl⟩ := hs
        obtain ⟨ds, t', v', hds, e, hr'⟩ := ih v1 st b st' hxs hr
        refine ⟨x :: ds, t', v', ?_, by rw [e]; rfl, hr'⟩
        intro c hc
        rcases List.mem_cons.1 hc with rfl | hc
        · exact hd
        · exact hds c hc
    · rw [step_L214_other env _ v x st hd hx] at hs
      by_cases h1 : x = '\r'
      · rw [if_pos h1] at hs
        simp only [Outcome.goto.injEq] at hs
        obtain ⟨rfl, rfl⟩ := hs
        cases hxs' : xs ++ ['\n'] with
        | nil => simp at hxs'
        | cons y ys =>
          rw [hxs'] at hr
          obtain ⟨m2, s2, hs2, -⟩ := exec_cons_inv env _ _ _ _ _ _ _ hr
          exact (step_L228_goto env _ v _ _ _ _ hs2).elim
      · rw [if_neg h1] at hs
        by_cases h2 : x = ' '
        · rw [if_pos h2] at hs
          simp only [Outcome.goto.injEq] at hs
          obtain ⟨rfl, rfl⟩ := hs
          subst h2
          exact ⟨[], xs, v, fun c hc => by simp at hc, rfl, hr⟩
        · rw [if_neg h2] at hs; cases hs

theorem exec_L246_shape (env : Env) (t : List Char) :
    ∀ (v : Int) (n : Nat) (st : State) (b : Body) (st' : State), '\n' ∉ t →
    exec env .PEDANTIC_PARSING (.L246 v n) st (t ++ ['\n']) = .goto (.L281 b) st' →
    ∃ ds, all_digits ds ∧ (t = ds ∨ t = ds ++ ['\r']) := by
  induction t with
  | nil => intro v n st b st' _ _; exact ⟨[], fun c hc => by simp at hc, Or.inl rfl⟩
  | cons x xs ih =>
    intro v n st b st' hne h
    have hx : x ≠ '\n' := fun e => hne (by simp [e])
    have hxs : '\n' ∉ xs := fun e => hne (by simp [e])
    rw [List.cons_append] at h
    obtain ⟨m1, s1, hs, hr⟩ := exec_cons_inv env _ _ _ _ _ _ _ h
    rw [next_of_ne x st hx] at hs
    by_cases hd : isdigit (some x) = true
    · simp only [step, hd, if_true] at hs
      cases ha : accumulate_clauses n (some x) with
      | none => rw [ha] at hs; cases hs
      | some n1 =>
        rw [ha] at hs
        simp only [Outcome.goto.injEq] at hs
        obtain ⟨rfl, rfl⟩ := hs
        obtain ⟨ds, hds, e⟩ := ih v n1 st b st' hxs hr
        refine ⟨x :: ds, ?_, ?_⟩
        · intro c hc
          rcases List.mem_cons.1 hc with rfl | hc
          · exact hd
          · exact hds c hc
        · rcases e with e | e
          · exact Or.inl (by rw [e])
          · exact Or.inr (by rw [e]; rfl)
    · rw [step_L246_other env v n x st hd hx] at hs
      by_cases h1 : x = '\r'
      · rw [if_pos h1] at hs
        simp only [Outcome.goto.injEq] at hs
        obtain ⟨rfl, rfl⟩ := hs
        cases xs with
        | nil => exact ⟨[], fun c hc => by simp at hc, Or.inr (by rw [h1]; rfl)⟩
        | cons y ys =>
          have hy : y ≠ '\n' := fun e => hxs (by simp [e])
          rw [List.cons_append] at hr
          obtain ⟨m2, s2, hs2, -⟩ := exec_cons_inv env _ _ _ _ _ _ _ hr
          rw [next_of_ne y st hy] at hs2
          exact (step_cr_goto env _ _ y st m2 s2 hy (Or.inr ⟨v, n, rfl⟩) hs2).elim
      · rw [if_neg h1] at hs; cases hs

theorem step_header_mode (env : Env) (strict : strictness) (m : Mode) (x : Char) (s : State)
    (m1 : Mode) (s1 : State) (hm : header_mode m = true)
    (h : step env strict m (some x) s = .goto m1 s1) :
    (x ≠ '\n' → header_mode m1 = true) ∧ (x = '\n' → ∃ b, m1 = .L281 b) := by
  cases m <;> first
    | (simp [header_mode] at hm; done)
    | (simp only [step, header_c, header_variables, header_clauses, header_cr, header_end,
        EOF] at h
       repeat' split at h
       all_goals first
         | (cases h; done)
         | (cases h
            refine ⟨fun hx => ?_, fun hx => ?_⟩
            · first | rfl | simp_all
            · subst hx
              first | (exact ⟨_, rfl⟩) | simp_all [is_blank, isdigit]))

theorem exec_header_mode (env : Env) (strict : strictness) (l : List Char) :
    ∀ (m : Mode) (st : State) (m1 : Mode) (s1 : State), header_mode m = true → '\n' ∉ l →
    exec env strict m st (l ++ ['\n']) = .goto m1 s1 → ∃ b, m1 = .L281 b := by
  induction l with
  | nil =>
    intro m st m1 s1 hm _ h
    obtain ⟨m2, s2, hs, hr⟩ := exec_cons_inv env _ _ _ _ _ _ _ h
    simp only [exec, Outcome.goto.injEq] at hr
    obtain ⟨rfl, rfl⟩ := hr
    exact (step_header_mode env strict m '\n' _ _ _ hm hs).2 rfl
  | cons x xs ih =>
    intro m st m1 s1 hm hne h
    have hx : x ≠ '\n' := fun e => hne (by simp [e])
    have hxs : '\n' ∉ xs := fun e => hne (by simp [e])
    rw [List.cons_append] at h
    obtain ⟨m2, s2, hs, hr⟩ := exec_cons_inv env _ _ _ _ _ _ _ h
    exact ih m2 s2 m1 s1 ((step_header_mode env strict m x _ _ _ hm hs).1 hx) hxs hr

theorem exec_digit_head (env : Env) (m : Mode) (mk : Int → Mode)
    (hstep : ∀ x s m1 s1, step env .PEDANTIC_PARSING m (some x) s = .goto m1 s1 →
      isdigit (some x) = true ∧ m1 = mk (digit_of (some x)) ∧ s1 = s)
    (t : List Char) (hne : '\n' ∉ t) (st : State) (b : Body) (st' : State)
    (h : exec env .PEDANTIC_PARSING m st (t ++ ['\n']) = .goto (.L281 b) st') :
    ∃ x t', t = x :: t' ∧ isdigit (some x) = true ∧
      exec env .PEDANTIC_PARSING (mk (digit_of (some x))) st (t' ++ ['\n']) =
        .goto (.L281 b) st' := by
  cases t with
  | nil =>
    obtain ⟨m', s', hs, -⟩ := exec_cons_inv env _ _ _ _ _ _ _ h
    exact absurd (hstep _ _ _ _ hs).1 (by decide)
  | cons x t' =>
    have hx : x ≠ '\n' := fun e => hne (by simp [e])
    obtain ⟨m', s', hs, hr⟩ := exec_cons_inv env _ _ _ _ _ _ _ h
    obtain ⟨hd, rfl, rfl⟩ := hstep _ _ _ _ hs
    rw [next_of_ne x st hx] at hr
    exact ⟨x, t', rfl, hd, hr⟩

/-- Under `PEDANTIC_PARSING` a line that starts with `p` and is accepted has
    exactly the canonical shape. -/
theorem exec_pedantic_shape (env : Env) (first : Bool) (st : State) (l : List Char)
    (hne : '\n' ∉ l) (b : Body) (st' : State)
    (h : exec env .PEDANTIC_PARSING (.L45 first) st ('p' :: (l ++ ['\n'])) = .goto (.L281 b) st') :
    ∃ dV dC eol, dV ≠ [] ∧ all_digits dV ∧ dC ≠ [] ∧ all_digits dC ∧ is_eol eol ∧
      'p' :: (l ++ ['\n']) = header_line [] [] [] [] dV dC eol := by
  rw [exec_cons_goto env _ 'p' _ (.L45 first) .L185 st st (by simp [step, next])] at h
  obtain ⟨t1, e1, h1⟩ := exec_expect env .L185 .L188 ' ' (by decide)
    (fun x s m1 s1 hs => (step_fixed_goto env _ x s m1 s1 hs).1 rfl) l hne st b st' h
  have hne1 : '\n' ∉ t1 := fun e => hne (by simp [e1, e])
  obtain ⟨t2, e2, h2⟩ := exec_expect env .L188 .L196 'c' (by decide)
    (fun x s m1 s1 hs => (step_fixed_goto env _ x s m1 s1 hs).2.1 rfl) t1 hne1 st b st' h1
  have hne2 : '\n' ∉ t2 := fun e => hne1 (by simp [e2, e])
  obtain ⟨t3, e3, h3⟩ := exec_expect env .L196 .L199 'n' (by decide)
    (fun x s m1 s1 hs => (step_fixed_goto env _ x s m1 s1 hs).2.2.1 rfl) t2 hne2 st b st' h2
  have hne3 : '\n' ∉ t3 := fun e => hne2 (by simp [e3, e])
  obtain ⟨t4, e4, h4⟩ := exec_expect env .L199 .L202 'f' (by decide)
    (fun x s m1 s1 hs => (step_fixed_goto env _ x s m1 s1 hs).2.2.2.1 rfl) t3 hne3 st b st' h3
  have hne4 : '\n' ∉ t4 := fun e => hne3 (by simp [e4, e])
  obtain ⟨t5, e5, h5⟩ := exec_expect env .L202 .L205 ' ' (by decide)
    (fun x s m1 s1 hs => (step_fixed_goto env _ x s m1 s1 hs).2.2.2.2.1 rfl) t4 hne4 st b st' h4
  have hne5 : '\n' ∉ t5 := fun e => hne4 (by simp [e5, e])
  obtain ⟨x, t6, e6, hx, h6⟩ := exec_digit_head env .L205 (fun d => .L214 d)
    (fun x s m1 s1 hs => (step_fixed_goto env _ x s m1 s1 hs).2.2.2.2.2.1 rfl) t5 hne5 st b st' h5
  have hne6 : '\n' ∉ t6 := fun e => hne5 (by simp [e6, e])
  obtain ⟨ds, t7, v, hds, e7, h7⟩ := exec_L214_shape env t6 _ st b st' hne6 h6
  have hne7 : '\n' ∉ t7 := fun e => hne6 (by simp [e7, e])
  obtain ⟨y, t8, e8, hy, h8⟩ := exec_digit_head env (.L237 v) (fun d => .L246 v d.toNat)
    (fun x s m1 s1 hs => (step_fixed_goto env _ x s m1 s1 hs).2.2.2.2.2.2 v rfl) t7 hne7 st b
    st' h7
  have hne8 : '\n' ∉ t8 := fun e => hne7 (by simp [e8, e])
  obtain ⟨ds2, hds2, e9⟩ := exec_L246_shape env t8 _ _ st b st' hne8 h8
  have hdV : all_digits (x :: ds) := by
    intro c hc
    rcases List.mem_cons.1 hc with rfl | hc
    · exact hx
    · exact hds c hc
  have hdC : all_digits (y :: ds2) := by
    intro c hc
    rcases List.mem_cons.1 hc with rfl | hc
    · exact hy
    · exact hds2 c hc
  rcases e9 with e9 | e9
  · exact ⟨x :: ds, y :: ds2, ['\n'], by simp, hdV, by simp, hdC, Or.inl rfl,
      by simp [header_line, e1, e2, e3, e4, e5, e6, e7, e8, e9]⟩
  · exact ⟨x :: ds, y :: ds2, ['\r', '\n'], by simp, hdV, by simp, hdC, Or.inr rfl,
      by simp [header_line, e1, e2, e3, e4, e5, e6, e7, e8, e9]⟩

theorem exec_L214_run (env : Env) (strict : strictness) (ds : List Char) (hd : all_digits ds) :
    ∀ (v : Int) (st : State), (∃ r s, exec env strict (.L214 v) st ds = .ret r s) ∨
      ∃ v', exec env strict (.L214 v) st ds = .goto (.L214 v') st := by
  induction ds with
  | nil => intro v st; exact Or.inr ⟨v, rfl⟩
  | cons c cs ih =>
    intro v st
    have hc : isdigit (some c) = true := hd c (by simp)
    have hcs : all_digits cs := fun x hx => hd x (by simp [hx])
    cases ha : accumulate (↑env.EXTERNAL_MAX_VAR) v (some c) with
    | none =>
      exact Or.inl ⟨_, _, exec_cons_ret env strict c cs _ st st
        (some "maximum variable too large") (by simp only [step, hc, if_true, ha, next_digit c st hc])⟩
    | some v1 =>
      rw [exec_cons_goto env strict c cs _ (.L214 v1) st st
        (by simp only [step, hc, if_true, ha, next_digit c st hc])]
      exact ih hcs v1 st

theorem exec_L246_run (env : Env) (strict : strictness) (V : Int) (ds : List Char)
    (hd : all_digits ds) :
    ∀ (n : Nat) (st : State), (∃ r s, exec env strict (.L246 V n) st ds = .ret r s) ∨
      ∃ n', exec env strict (.L246 V n) st ds = .goto (.L246 V n') st := by
  induction ds with
  | nil => intro n st; exact Or.inr ⟨n, rfl⟩
  | cons c cs ih =>
    intro n st
    have hc : isdigit (some c) = true := hd c (by simp)
    have hcs : all_digits cs := fun x hx => hd x (by simp [hx])
    cases ha : accumulate_clauses n (some c) with
    | none =>
      exact Or.inl ⟨_, _, exec_cons_ret env strict c cs _ st st
        (some "number of clauses too large") (by simp only [step, hc, if_true, ha, next_digit c st hc])⟩
    | some n1 =>
      rw [exec_cons_goto env strict c cs _ (.L246 V n1) st st
        (by simp only [step, hc, if_true, ha, next_digit c st hc])]
      exact ih hcs n1 st

theorem header_line_append (ws1 ws2 ws3 ws4 dV dC eol rest : List Char) :
    header_line ws1 ws2 ws3 ws4 dV dC eol ++ rest =
      header_line ws1 ws2 ws3 ws4 dV dC (eol ++ rest) := by
  simp [header_line]

/-- Under `PEDANTIC_PARSING` a blank in one of the four places of the header
    line makes the parser return. -/
theorem exec_pedantic_blank (env : Env) (first : Bool) (st : State)
    (ws1 ws2 ws3 ws4 dV dC tail : List Char)
    (h1 : blanks ws1) (h2 : blanks ws2) (h3 : blanks ws3) (h4 : blanks ws4)
    (hdV : all_digits dV) (hV0 : dV ≠ []) (hdC : all_digits dC) (hC0 : dC ≠ [])
    (hne : ws1 ≠ [] ∨ ws2 ≠ [] ∨ ws3 ≠ [] ∨ ws4 ≠ []) :
    ∃ r s, exec env .PEDANTIC_PARSING (.L45 first) st
      (header_line ws1 ws2 ws3 ws4 dV dC tail) = .ret r s := by
  unfold header_line
  cases ws1 with
  | cons w ws =>
    have hw := blank_not_special w (h1 w (by simp))
    refine ⟨some "expected 'c' after 'p '", nonl (some w) st, ?_⟩
    rw [exec_cons_goto env _ 'p' _ (.L45 first) .L185 st st (by simp [step, next]),
      exec_cons_goto env _ ' ' _ .L185 .L188 st st (by simp [step, next]), List.cons_append,
      exec_cons_ret env _ w _ .L188 st (nonl (some w) st) (some "expected 'c' after 'p '")
        (by simp [step, next_of_ne w st hw.1, header_c, hw.2.2.1])]
  | nil =>
  rw [exec_p_cnf env _ first st [] blanks_nil (fun _ => rfl)]
  cases ws2 with
  | cons w ws =>
    have hw := blank_not_special w (h2 w (by simp))
    refine ⟨some "expected digit after 'p cnf '", nonl (some w) st, ?_⟩
    rw [List.cons_append,
      exec_cons_ret env _ w _ .L205 st (nonl (some w) st) (some "expected digit after 'p cnf '")
        (by simp [step, next_of_ne w st hw.1, header_variables, hw.2.2.2.1])]
  | nil =>
  cases dV with
  | nil => exact absurd rfl hV0
  | cons c cs =>
  have hc : isdigit (some c) = true := hdV c (by simp)
  have hcs : all_digits cs := fun x hx => hdV x (by simp [hx])
  rw [List.nil_append, List.cons_append,
    ← List.nil_append (c :: (cs ++ ' ' :: (ws3 ++ (dC ++ (ws4 ++ tail))))),
    exec_L205_first env _ st [] blanks_nil (fun _ => rfl) c hc, exec_append]
  rcases exec_L214_run env .PEDANTIC_PARSING cs hcs ((c.toNat - 48 : Nat) : Int) st with
    ⟨r, s, e⟩ | ⟨v, e⟩
  · rw [e]; exact ⟨r, s, rfl⟩
  rw [e]
  show ∃ r s, exec env .PEDANTIC_PARSING (.L214 v) st (' ' :: (ws3 ++ (dC ++ (ws4 ++ tail)))) =
    .ret r s
  rw [exec_L214_space]
  cases ws3 with
  | cons w ws =>
    have hw := blank_not_special w (h3 w (by simp))
    refine ⟨some "expected number of clauses after maximum variable", st, ?_⟩
    rw [List.cons_append,
      exec_cons_ret env _ w _ (.L237 v) st st
        (some "expected number of clauses after maximum variable")
        (by simp [step, next_of_ne w st hw.1, header_clauses, hw.2.2.2.1])]
  | nil =>
  cases dC with
  | nil => exact absurd rfl hC0
  | cons d ds =>
  have hd : isdigit (some d) = true := hdC d (by simp)
  have hds : all_digits ds := fun x hx => hdC x (by simp [hx])
  rw [List.nil_append, List.cons_append,
    ← List.nil_append (d :: (ds ++ (ws4 ++ tail))),
    exec_L237_first env _ v st [] blanks_nil (fun _ => rfl) d hd, exec_append]
  rcases exec_L246_run env .PEDANTIC_PARSING v ds hds (d.toNat - 48) st with
    ⟨r, s, e⟩ | ⟨n, e⟩
  · rw [e]; exact ⟨r, s, rfl⟩
  rw [e]
  show ∃ r s, exec env .PEDANTIC_PARSING (.L246 v n) st (ws4 ++ tail) = .ret r s
  cases ws4 with
  | nil => simp at hne
  | cons w ws =>
    have hw := blank_not_special w (h4 w (by simp))
    have hwd : ¬ isdigit (some w) = true := by rw [hw.2.2.2.1]; decide
    refine ⟨some "expected new-line after parsing number of clauses", st, ?_⟩
    rw [List.cons_append,
      exec_cons_ret env _ w _ (.L246 v n) st st
        (some "expected new-line after parsing number of clauses")
        (by rw [next_of_ne w st hw.1, step_L246_other env v n w st hwd hw.1, if_neg hw.2.1])]

/-- C10. White space in the header line depends on the strictness. The parser
    is at the start of a line before the header (line 45). (1) Under
    `PEDANTIC_PARSING` a line that starts with `p` is either answered with an
    error message or is accepted (control reaches the clause loop), and then
    it is exactly `p`, one space, `cnf`, one space, the digits of the variable
    count, one space, the digits of the clause count and `\n` or `\r\n`.
    (2) Under `PEDANTIC_PARSING` a space or tab after one of the three single
    spaces or between the clause count and the line end is an error. (3) The
    canonical line with counts in range is accepted under every strictness
    with the values of its digits. (4) Under `NORMAL_PARSING` and
    `RELAXED_PARSING` runs of spaces and tabs in these four places give the
    same outcome as the canonical line, so the same variable count and clause
    count, and the rest of the file is parsed to the same result. -/
theorem C10_header_whitespace (env : Env) (first : Bool) (st : State) :
    (∀ l, '\n' ∉ l →
      (∃ msg s, exec env .PEDANTIC_PARSING (.L45 first) st ('p' :: (l ++ ['\n'])) =
        .ret (some msg) s) ∨
      (∃ b s dV dC eol,
        exec env .PEDANTIC_PARSING (.L45 first) st ('p' :: (l ++ ['\n'])) = .goto (.L281 b) s ∧
        dV ≠ [] ∧ all_digits dV ∧ dC ≠ [] ∧ all_digits dC ∧ is_eol eol ∧
        'p' :: (l ++ ['\n']) = header_line [] [] [] [] dV dC eol)) ∧
    (∀ ws1 ws2 ws3 ws4 dV dC eol rest, blanks ws1 → blanks ws2 → blanks ws3 → blanks ws4 →
      all_digits dV → dV ≠ [] → all_digits dC → dC ≠ [] →
      (ws1 ≠ [] ∨ ws2 ≠ [] ∨ ws3 ≠ [] ∨ ws4 ≠ []) →
      ∃ msg, (run env .PEDANTIC_PARSING (.L45 first) st
        (header_line ws1 ws2 ws3 ws4 dV dC eol ++ rest)).error = some msg) ∧
    (∀ strict dV dC eol, all_digits dV → dV ≠ [] → all_digits dC → dC ≠ [] →
      decimal_value 0 dV ≤ env.EXTERNAL_MAX_VAR → decimal_value 0 dC < 2 ^ 64 → is_eol eol →
      exec env strict (.L45 first) st (header_line [] [] [] [] dV dC eol) =
        .goto (.L281 { vars := (decimal_value 0 dV : Nat), clauses := decimal_value 0 dC,
                       parsed := 0, lit := 0 })
          (header_state (decimal_value 0 dV : Nat) (decimal_value 0 dC) st)) ∧
    (∀ strict, strict ≠ .PEDANTIC_PARSING →
      ∀ ws1 ws2 ws3 ws4 dV dC eol eol', blanks ws1 → blanks ws2 → blanks ws3 → blanks ws4 →
      all_digits dV → dV ≠ [] → all_digits dC → dC ≠ [] →
      decimal_value 0 dV ≤ env.EXTERNAL_MAX_VAR → decimal_value 0 dC < 2 ^ 64 →
      is_eol eol → is_eol eol' →
      exec env strict (.L45 first) st (header_line ws1 ws2 ws3 ws4 dV dC eol) =
        exec env strict (.L45 first) st (header_line [] [] [] [] dV dC eol') ∧
      ∀ rest, run env strict (.L45 first) st (header_line ws1 ws2 ws3 ws4 dV dC eol ++ rest) =
        run env strict (.L45 first) st (header_line [] [] [] [] dV dC eol' ++ rest)) := by
  refine ⟨?_, ?_, ?_, ?_⟩
  · intro l hl
    cases e : exec env .PEDANTIC_PARSING (.L45 first) st ('p' :: (l ++ ['\n'])) with
    | ret r s =>
      left
      have hr := exec_ret_error env _ _ _ _ _ _ e
      cases r with
      | none => exact absurd rfl hr
      | some msg => exact ⟨msg, s, rfl⟩
    | goto m s =>
      right
      have e' := e
      rw [exec_cons_goto env _ 'p' _ (.L45 first) .L185 st st (by simp [step, next])] at e'
      obtain ⟨b, rfl⟩ := exec_header_mode env _ l .L185 st m s rfl hl e'
      obtain ⟨dV, dC, eol, h⟩ := exec_pedantic_shape env first st l hl b s e
      exact ⟨b, s, dV, dC, eol, rfl, h⟩
  · intro ws1 ws2 ws3 ws4 dV dC eol rest h1 h2 h3 h4 hdV hV0 hdC hC0 hne
    obtain ⟨r, s, e⟩ := exec_pedantic_blank env first st ws1 ws2 ws3 ws4 dV dC (eol ++ rest)
      h1 h2 h3 h4 hdV hV0 hdC hC0 hne
    have hr := exec_ret_error env _ _ _ _ _ _ e
    rw [header_line_append]
    simp only [run, e]
    cases r with
    | none => exact absurd rfl hr
    | some msg => exact ⟨msg, rfl⟩
  · intro strict dV dC eol hdV hV0 hdC hC0 hV hC heol
    exact exec_header_line env strict first st [] [] [] [] dV dC eol blanks_nil blanks_nil
      blanks_nil blanks_nil (fun _ => ⟨rfl, rfl, rfl, rfl⟩) hdV hV0 hdC hC0 hV hC heol
  · intro strict hs ws1 ws2 ws3 ws4 dV dC eol eol' h1 h2 h3 h4 hdV hV0 hdC hC0 hV hC heol heol'
    have ea := exec_header_line env strict first st ws1 ws2 ws3 ws4 dV dC eol h1 h2 h3 h4
      (fun h => absurd h hs) hdV hV0 hdC hC0 hV hC heol
    have eb := exec_header_line env strict first st [] [] [] [] dV dC eol' blanks_nil blanks_nil
      blanks_nil blanks_nil (fun _ => ⟨rfl, rfl, rfl, rfl⟩) hdV hV0 hdC hC0 hV hC heol'
    refine ⟨by rw [ea, eb], fun rest => ?_⟩
    rw [run_goto env strict _ rest _ _ _ _ ea, run_goto env strict _ rest _ _ _ _ eb]

/-- Witness of C10: `p cnf 3 2` with a second space after `p` is an error
    under `PEDANTIC_PARSING`; with runs of spaces and tabs in all four places
    and `\r\n` it is parsed under `NORMAL_PARSING` to the same result as the
    canonical line; the canonical line is accepted under `PEDANTIC_PARSING`
    with the counts 3 and 2. -/
theorem C10_header_whitespace_witness :
    (∃ msg, (parse_dimacs env0 .PEDANTIC_PARSING "p  cnf 3 2\n1 -3 0\n2 0\n".toList).error =
      some msg) ∧
    parse_dimacs env0 .NORMAL_PARSING "p  \t cnf  3  \t2 \t\r\n1 -3 0\n2 0\n".toList =
      parse_dimacs env0 .NORMAL_PARSING "p cnf 3 2\n1 -3 0\n2 0\n".toList ∧
    exec env0 .PEDANTIC_PARSING (.L45 true) init "p cnf 3 2\n".toList =
      .goto (.L281 { vars := 3, clauses := 2, parsed := 0, lit := 0 }) (header_state 3 2 init) ∧
    ((∃ msg s, exec env0 .PEDANTIC_PARSING (.L45 true) init "p cnf 3 2\r\n".toList =
        .ret (some msg) s) ∨
      ∃ b s dV dC eol,
        exec env0 .PEDANTIC_PARSING (.L45 true) init "p cnf 3 2\r\n".toList = .goto (.L281 b) s ∧
        dV ≠ [] ∧ all_digits dV ∧ dC ≠ [] ∧ all_digits dC ∧ is_eol eol ∧
        "p cnf 3 2\r\n".toList = header_line [] [] [] [] dV dC eol) := by
  have hb1 : blanks [' '] := by unfold blanks; decide
  have hb2 : blanks [' ', '\t', ' '] := by unfold blanks; decide
  have hb3 : blanks [' ', '\t'] := by unfold blanks; decide
  have hd3 : all_digits ['3'] := by unfold all_digits; decide
  have hd2 : all_digits ['2'] := by unfold all_digits; decide
  have h := C10_header_whitespace env0 true init
  have h1 := h.1 " cnf 3 2\r".toList (by decide)
  have h2 := h.2.1 [' '] [] [] [] ['3'] ['2'] ['\n'] "1 -3 0\n2 0\n".toList hb1 blanks_nil
    blanks_nil blanks_nil hd3 (by simp) hd2 (by simp) (Or.inl (by simp))
  have h3 := h.2.2.1 .PEDANTIC_PARSING ['3'] ['2'] ['\n'] hd3 (by simp) hd2 (by simp)
    (by decide) (by decide) (Or.inl rfl)
  have h4 := (h.2.2.2 .NORMAL_PARSING (by decide) [' ', '\t', ' '] [' '] [' ', '\t'] [' ', '\t']
    ['3'] ['2'] ['\r', '\n'] ['\n'] hb2 hb1 hb3 hb3 hd3 (by simp) hd2 (by simp)
    (by decide) (by decide) (Or.inr rfl) (Or.inl rfl)).2 "1 -3 0\n2 0\n".toList
  have t1 : 'p' :: (" cnf 3 2\r".toList ++ ['\n']) = "p cnf 3 2\r\n".toList := by decide
  have t2 : header_line [' '] [] [] [] ['3'] ['2'] ['\n'] ++ "1 -3 0\n2 0\n".toList =
      "p  cnf 3 2\n1 -3 0\n2 0\n".toList := by decide
  have t3 : header_line [] [] [] [] ['3'] ['2'] ['\n'] = "p cnf 3 2\n".toList := by decide
  have t4 : header_line [' ', '\t', ' '] [' '] [' ', '\t'] [' ', '\t'] ['3'] ['2'] ['\r', '\n'] ++
      "1 -3 0\n2 0\n".toList = "p  \t cnf  3  \t2 \t\r\n1 -3 0\n2 0\n".toList := by decide
  have t5 : header_line [] [] [] [] ['3'] ['2'] ['\n'] ++ "1 -3 0\n2 0\n".toList =
      "p cnf 3 2\n1 -3 0\n2 0\n".toList := by decide
  rw [t1] at h1
  rw [t2] at h2
  have v3 : decimal_value 0 ['3'] = 3 := by decide
  have v2 : decimal_value 0 ['2'] = 2 := by decide
  rw [t3, v3, v2] at h3
  rw [t4, t5] at h4
  exact ⟨h2, h4, h3, h1⟩


/-! ## Embedded options -/

theorem lower_not_special (c : Char) (h : is_lower (some c) = true) :
    c ≠ '\n' ∧ c ≠ '\r' ∧ c ≠ '=' ∧ c ≠ '-' ∧ c ≠ ' ' ∧ c ≠ '\t' := by
  simp only [is_lower, decide_eq_true_eq, Char.reduceToNat] at h
  refine ⟨?_, ?_, ?_, ?_, ?_, ?_⟩ <;> apply char_ne_of_toNat <;> simp <;> omega

theorem exec_L95_name (env : Env) (strict : strictness) (name : List Char) (hl : lower_name name) :
    ∀ (pre : List Char) (st : State), (pre ++ name).length ≤ 31 →
    exec env strict (.L95 pre) st name = .goto (.L95 (pre ++ name)) st := by
  induction name with
  | nil => intro pre st _; simp [exec]
  | cons c cs ih =>
    intro pre st hlen
    have hc : is_lower (some c) = true := hl c (by simp)
    have hcs : lower_name cs := fun x hx => hl x (by simp [hx])
    have hsp := lower_not_special c hc
    have h32 : (pre ++ [c]).length ≠ 32 := by
      simp only [List.length_append, List.length_cons, List.length_nil] at hlen ⊢
      omega
    rw [exec_cons_goto env strict c cs _ (.L95 (pre ++ [c])) st st
      (by simp only [step, hc, if_true, next_of_ne c st hsp.1, if_neg h32])]
    have := ih hcs (pre ++ [c]) st (by simpa using hlen)
    simpa using this

theorem exec_L128_digits (env : Env) (strict : strictness) (name : List Char) (sign : Int)
    (ds : List Char) (hd : all_digits ds) : ∀ (n : Nat) (st : State),
    decimal_value n ds ≤ 2147483647 →
    exec env strict (.L128 name sign n) st ds =
      .goto (.L128 name sign (decimal_value n ds : Nat)) st := by
  induction ds with
  | nil => intro n st _; simp [exec, decimal_value_nil]
  | cons c cs ih =>
    intro n st hn
    have hc : isdigit (some c) = true := hd c (by simp)
    have hcs : all_digits cs := fun x hx => hd x (by simp [hx])
    rw [decimal_value_cons] at hn ⊢
    have hle : n * 10 + (c.toNat - 48) ≤ 2147483647 :=
      le_trans (decimal_value_ge cs _) hn
    have ha := accumulate_digit 2147483647 n c hc
    rw [if_pos hle] at ha
    simp only [Nat.cast_ofNat] at ha
    rw [exec_cons_goto env strict c cs _
      (.L128 name sign ((n * 10 + (c.toNat - 48) : Nat) : Int)) st st
      (by simp only [step, hc, if_true, next_digit c st hc, INT_MAX]; rw [ha])]
    exact ih hcs _ st hn

/-- Value of an embedded option: an optional `-` and digits within `INT_MAX`,
    read at line 116, up to the character after the last digit. -/
theorem exec_L116_value (env : Env) (strict : strictness) (name : List Char) (st : State)
    (v : Int) (hv : v.natAbs ≤ 2147483647) :
    ∃ sign : Int, sign * (v.natAbs : Int) = v ∧
      exec env strict (.L116 name) st (literal_text v) =
        .goto (.L128 name sign (v.natAbs : Nat)) st := by
  obtain ⟨c, cs, e, hd, hval, -⟩ := numeral_spec v.natAbs
  have hc : isdigit (some c) = true := hd c (by simp)
  have hcs : all_digits cs := fun x hx => hd x (by simp [hx])
  have hsp := digit_not_special c hc
  have e0 : decimal_value 0 (c :: cs) = decimal_value (c.toNat - 48) cs := by
    simp [decimal_value_cons]
  have hdig : ∀ sign : Int, exec env strict (.L128 name sign ((c.toNat - 48 : Nat) : Int)) st cs =
      .goto (.L128 name sign (v.natAbs : Nat)) st := by
    intro sign
    rw [exec_L128_digits env strict name sign cs hcs _ st (by rw [← e0, hval]; exact hv),
      ← e0, hval]
  by_cases hneg : v < 0
  · refine ⟨-1, by omega, ?_⟩
    simp only [literal_text, if_pos hneg, e]
    rw [exec_cons_goto env strict '-' _ _ (.L120 name) st st (by simp [step, next]),
      exec_cons_goto env strict c cs _ (.L128 name (-1) ((c.toNat - 48 : Nat) : Int)) st st
        (by simp [step, option_value, next_digit, hc, digit_of_digit])]
    exact hdig (-1)
  · refine ⟨1, by omega, ?_⟩
    simp only [literal_text, if_neg hneg, e]
    rw [exec_cons_goto env strict c cs _ (.L128 name 1 ((c.toNat - 48 : Nat) : Int)) st st
        (by simp [step, option_value, next_digit, hc, hsp, digit_of_digit])]
    exact hdig 1

theorem exec_option_line (env : Env) (strict : strictness) (first : Bool) (st : State)
    (name : List Char) (v : Int) (hE : env.EMBEDDED = true)
    (hG : env.GET_OPTION_embedded st.calls = true)
    (hl : lower_name name) (hlen : name.length ≤ 31) (hv : v.natAbs ≤ 2147483647) :
    exec env strict (.L45 first) st (option_line name v) =
      .goto (.L45 false) (option_state env name v st) := by
  obtain ⟨sign, hs, e⟩ := exec_L116_value env strict name st v hv
  unfold option_line
  rw [exec_cons_goto env strict 'c' _ (.L45 first) .L72 st st (by simp [step, next, EOF]),
    exec_cons_goto env strict ' ' _ .L72 .L72 st st (by simp [step, next, EOF]),
    exec_cons_goto env strict '-' _ .L72 .L89 st st (by simp [step, next, EOF, hE, hG]),
    exec_cons_goto env strict '-' _ .L89 (.L95 []) st st (by simp [step, next]),
    exec_goto_append env strict name _ _ _ _ _ (exec_L95_name env strict name hl [] st
      (by simpa using hlen)),
    List.nil_append,
    exec_cons_goto env strict '=' _ (.L95 name) (.L116 name) st st
      (by simp [step, next, is_lower]),
    exec_goto_append env strict _ _ _ _ _ _ e]
  have hnd : isdigit (some '\n') = false := by decide
  have hnb : is_blank (some '\n') = false := by decide
  have hs' : ((v.natAbs : Nat) : Int) * sign = v := by rw [mul_comm]; exact hs
  have hne : (some '\n' : Option Char) ≠ some '\r' := by decide
  rw [exec_cons_goto env strict '\n' [] (.L128 name sign (v.natAbs : Nat)) (.L45 false) st
    (option_state env name v st)
    (by
      simp only [step, hnd, hnb, Bool.false_eq_true, if_false, option_end, if_neg hne,
        ne_eq, not_true_eq_false, Outcome.goto.injEq, true_and]
      simp only [apply_option, option_state, next, hs', if_true]
      split_ifs <;> rfl)]
  rfl

theorem inserted_nonl (pre d : List Call) (ch : Option Char) (t t' : State)
    (h : inserted pre d t t') : inserted pre d (nonl ch t) (nonl ch t') := by
  unfold nonl
  split_ifs
  · exact ⟨by simp only [h.1], h.2.1, by simp only [h.1, h.2.2.1], h.2.2.2⟩
  · exact h

theorem inserted_next (pre d : List Call) (ch : Option Char) (t t' : State)
    (h : inserted pre d t t') : inserted pre d (next ch t) (next ch t') := by
  unfold next
  split_ifs
  · exact ⟨by simp only [h.1], h.2.1, h.2.2.1, h.2.2.2⟩
  · exact h

theorem inserted_calls (pre d x : List Call) (t t' : State) (h : inserted pre d t t') :
    inserted pre d { t with calls := t.calls ++ x } { t' with calls := t'.calls ++ x } := by
  obtain ⟨h1, h2, h3, l, e', e⟩ := h
  exact ⟨h1, h2, h3, l ++ x, by simp [e'], by simp [e]⟩

theorem inserted_apply_option (pre d : List Call) (env : Env) (name : List Char)
    (sign arg : Int) (t t' : State) (h : inserted pre d t t') :
    inserted pre d (apply_option env name sign arg t) (apply_option env name sign arg t') := by
  unfold apply_option
  split_ifs <;> exact inserted_calls pre d _ t t' h

theorem inserted_header (pre d x : List Call) (V : Int) (t t' : State)
    (h : inserted pre d t t') :
    inserted pre d { t with max_var := some V, calls := t.calls ++ x }
      { t' with max_var := some V, calls := t'.calls ++ x } := by
  obtain ⟨h1, h2, h3, l, e', e⟩ := h
  exact ⟨h1, rfl, h3, l ++ x, by simp [e'], by simp [e]⟩

theorem irel_goto (pre d : List Call) (m : Mode) (t t' : State) (h : inserted pre d t t') :
    inserted_rel pre d (.goto m t) (.goto m t') :=
  ⟨rfl, h⟩

theorem irel_ret (pre d : List Call) (r : Option String) (t t' : State)
    (h : inserted pre d t t') : inserted_rel pre d (.ret r t) (.ret r t') :=
  ⟨rfl, h⟩

theorem after_literal_inserted (pre d : List Call) (strict : strictness) (b : Body)
    (sign idx : Int) (ch : Option Char) (t t' : State) (h : inserted pre d t t') :
    inserted_rel pre d (after_literal strict b sign idx ch t)
      (after_literal strict b sign idx ch t') := by
  unfold after_literal
  split_ifs
  · exact irel_ret _ _ _ _ _ (inserted_nonl pre d ch t t' h)
  · exact irel_goto _ _ _ _ _ (inserted_calls pre d _ t t' h)
  · exact irel_ret _ _ _ _ _ h
  · exact irel_goto _ _ _ _ _ (inserted_calls pre d _ t t' h)

theorem finish_inserted (pre d : List Call) (strict : strictness) (b : Body) (t t' : State)
    (h : inserted pre d t t') :
    inserted_rel pre d (finish strict b t) (finish strict b t') := by
  unfold finish
  split_ifs <;> exact irel_ret _ _ _ _ _ h

set_option maxHeartbeats 4000000 in
theorem step_inserted (env : Env) (strict : strictness) (pre d : List Call)
    (hG : ∀ l, env.GET_OPTION_embedded (pre ++ (d ++ l)) = env.GET_OPTION_embedded (pre ++ l))
    (m : Mode) (ch : Option Char) (t t' : State) (h : inserted pre d t t') :
    inserted_rel pre d (step env strict m ch t) (step env strict m ch t') := by
  have hn := inserted_nonl pre d ch t t' h
  have hg : env.GET_OPTION_embedded t.calls = env.GET_OPTION_embedded t'.calls := by
    obtain ⟨-, -, -, l, e', e⟩ := h
    rw [e, e', hG]
  cases m <;>
    simp only [step, COMPLETE, option_value, option_end, header_c, header_variables,
      header_clauses, header_cr, header_end, hg] <;>
    (try split_ifs) <;>
    first
    | with_reducible exact irel_goto _ _ _ _ _ h
    | with_reducible exact irel_ret _ _ _ _ _ h
    | with_reducible exact irel_ret _ _ _ _ _ hn
    | with_reducible exact after_literal_inserted pre d strict _ _ _ _ t t' h
    | with_reducible exact finish_inserted pre d strict _ t t' h
    | with_reducible exact irel_goto _ _ _ _ _ (inserted_apply_option pre d env _ _ _ t t' h)
    | exact irel_goto _ _ _ _ _ (inserted_header pre d _ _ t t' h)
    | (split <;> (try split_ifs) <;>
        first
        | with_reducible exact irel_goto _ _ _ _ _ h
        | with_reducible exact irel_ret _ _ _ _ _ h)

theorem exec_inserted (env : Env) (strict : strictness) (pre d : List Call)
    (hG : ∀ l, env.GET_OPTION_embedded (pre ++ (d ++ l)) = env.GET_OPTION_embedded (pre ++ l))
    (input : List Char) : ∀ (m : Mode) (t t' : State), inserted pre d t t' →
    inserted_rel pre d (exec env strict m t input) (exec env strict m t' input) := by
  induction input with
  | nil => intro m t t' h; exact ⟨rfl, h⟩
  | cons c cs ih =>
    intro m t t' h
    have hs := step_inserted env strict pre d hG m (some c) _ _ (inserted_next pre d (some c) t t' h)
    simp only [exec]
    cases e : step env strict m (some c) (next (some c) t) with
    | ret r s =>
      cases e' : step env strict m (some c) (next (some c) t') with
      | ret r' s' => rw [e, e'] at hs; exact hs
      | goto m1' s' => rw [e, e'] at hs; exact absurd hs id
    | goto m1 s =>
      cases e' : step env strict m (some c) (next (some c) t') with
      | ret r' s' => rw [e, e'] at hs; exact absurd hs id
      | goto m1' s' =>
        rw [e, e'] at hs
        obtain ⟨rfl, hi⟩ := hs
        exact ih m1 s s' hi

theorem at_eof_inserted (env : Env) (strict : strictness) (pre d : List Call)
    (hG : ∀ l, env.GET_OPTION_embedded (pre ++ (d ++ l)) = env.GET_OPTION_embedded (pre ++ l))
    (m : Mode) (t t' : State) (h : inserted pre d t t') :
    (at_eof env strict m t).error = (at_eof env strict m t').error ∧
      inserted pre d (at_eof env strict m t).state (at_eof env strict m t').state := by
  have hs := step_inserted env strict pre d hG m EOF t t' h
  rcases at_eof_returns env strict m t with ⟨r, s, e, ea⟩ | ⟨b, s, r, e, ef, ea⟩ <;>
    rcases at_eof_returns env strict m t' with ⟨r', s', e', ea'⟩ | ⟨b', s', r', e', ef', ea'⟩ <;>
    rw [e, e'] at hs <;> rw [ea, ea']
  · exact hs
  · exact absurd hs id
  · exact absurd hs id
  · obtain ⟨hb, hi⟩ := hs
    cases hb
    have hf := finish_inserted pre d strict b s s' hi
    rw [ef, ef'] at hf
    exact hf

theorem run_inserted (env : Env) (strict : strictness) (pre d : List Call)
    (hG : ∀ l, env.GET_OPTION_embedded (pre ++ (d ++ l)) = env.GET_OPTION_embedded (pre ++ l))
    (input : List Char) (m : Mode) (t t' : State) (h : inserted pre d t t') :
    (run env strict m t input).error = (run env strict m t' input).error ∧
      inserted pre d (run env strict m t input).state (run env strict m t' input).state := by
  have hs := exec_inserted env strict pre d hG input m t t' h
  unfold run
  cases e : exec env strict m t input with
  | ret r s =>
    cases e' : exec env strict m t' input with
    | ret r' s' => rw [e, e'] at hs; exact hs
    | goto m1' s' => rw [e, e'] at hs; exact absurd hs id
  | goto m1 s =>
    cases e' : exec env strict m t' input with
    | ret r' s' => rw [e, e'] at hs; exact absurd hs id
    | goto m1' s' =>
      rw [e, e'] at hs
      obtain ⟨rfl, hi⟩ := hs
      exact at_eof_inserted env strict pre d hG m1 s s' hi

/-- C11. With embedded options compiled in and switched on, let the parser be
    at the start of a line before the header. For a name of 1 to 31 lower
    case letters (the empty name is read in the same way) and an integer `v`
    with `|v| ≤ INT_MAX` the line `c --name=v` is read up to and including its
    new-line: control is back at line 45 (the next character read is the first
    one of the following line, as after the plain comment line `c`), the line
    counter is one higher, and the only calls made are those of the one
    lookup of `name`: `kissat_options_set_opt` and `kissat_verbose` with `name`
    and `v` if the registry has `name`, one `kissat_warning` and no option set
    otherwise. The rest of the file is parsed from there; if these calls do
    not change the value of `GET_OPTION (embedded)`, the result for the rest
    is the one after the plain comment line `c`: the same return value, line
    counter and `*max_var_ptr`, and the same calls after those of the
    lookup. -/
theorem C11_embedded_option (env : Env) (strict : strictness) (first : Bool) (st : State)
    (name : List Char) (v : Int) (hE : env.EMBEDDED = true)
    (hG : env.GET_OPTION_embedded st.calls = true)
    (hl : lower_name name) (hlen : name.length ≤ 31)
    (hv : |v| ≤ INT_MAX) :
    exec env strict (.L45 first) st (option_line name v) =
      .goto (.L45 false) (option_state env name v st) ∧
    exec env strict (.L45 first) st ['c', '\n'] =
      .goto (.L45 false) { st with lineno := (st.lineno + 1) % 2 ^ 64 } ∧
    (option_state env name v st).lineno = (st.lineno + 1) % 2 ^ 64 ∧
    (option_state env name v st).max_var = st.max_var ∧
    (env.kissat_options_has name = true → (option_state env name v st).calls =
      st.calls ++ [.kissat_options_set_opt name v, .kissat_verbose name v]) ∧
    (env.kissat_options_has name = false → (option_state env name v st).calls =
      st.calls ++ [.kissat_warning name v]) ∧
    (∀ rest, run env strict (.L45 first) st (option_line name v ++ rest) =
      run env strict (.L45 false) (option_state env name v st) rest) ∧
    ∀ d, (option_state env name v st).calls = st.calls ++ d →
      (∀ l, env.GET_OPTION_embedded (st.calls ++ (d ++ l)) =
        env.GET_OPTION_embedded (st.calls ++ l)) →
      ∀ rest,
        (run env strict (.L45 first) st (option_line name v ++ rest)).error =
          (run env strict (.L45 first) st (['c', '\n'] ++ rest)).error ∧
        (run env strict (.L45 first) st (option_line name v ++ rest)).state.lineno =
          (run env strict (.L45 first) st (['c', '\n'] ++ rest)).state.lineno ∧
        (run env strict (.L45 first) st (option_line name v ++ rest)).state.max_var =
          (run env strict (.L45 first) st (['c', '\n'] ++ rest)).state.max_var ∧
        ∃ l, (run env strict (.L45 first) st (['c', '\n'] ++ rest)).state.calls = st.calls ++ l ∧
          (run env strict (.L45 first) st (option_line name v ++ rest)).state.calls =
            st.calls ++ (d ++ l) := by
  have hv' : v.natAbs ≤ 2147483647 := by
    simp only [INT_MAX] at hv
    have := abs_le.1 hv
    omega
  have e := exec_option_line env strict first st name v hE hG hl hlen hv'
  have ec : exec env strict (.L45 first) st ['c', '\n'] =
      .goto (.L45 false) { st with lineno := (st.lineno + 1) % 2 ^ 64 } := by
    simp [exec, step, next, EOF]
  refine ⟨e, ec, rfl, rfl, ?_, ?_, fun rest => run_goto env strict _ rest _ _ _ _ e, ?_⟩
  · intro h; simp [option_state, h]
  · intro h; simp [option_state, h]
  · intro d hd hGd rest
    have hi : inserted st.calls d (option_state env name v st)
        { st with lineno := (st.lineno + 1) % 2 ^ 64 } :=
      ⟨rfl, rfl, rfl, [], by simp, by simpa using hd⟩
    rw [run_goto env strict _ rest _ _ _ _ e, run_goto env strict _ rest _ _ _ _ ec]
    obtain ⟨h1, h2, h3, -, l, h4, h5⟩ := run_inserted env strict st.calls d hGd rest (.L45 false)
      _ _ hi
    exact ⟨h1, h2, h3, l, h4, h5⟩

/-- Witness of C11: `c --opt=-5` sets the registered option `opt` to -5,
    `c --foo=7` warns about the unknown name `foo`; the file that follows is
    parsed as after the comment line `c`. -/
theorem C11_embedded_option_witness :
    parse_dimacs env0 .NORMAL_PARSING "c --opt=-5\np cnf 1 1\n1 0\n".toList =
      ⟨none, { lineno := 4, max_var := some 1,
               calls := [.kissat_options_set_opt "opt".toList (-5),
                         .kissat_verbose "opt".toList (-5),
                         .kissat_message 1 1, .kissat_reserve 1, .kissat_add 1, .kissat_add 0],
               nonl_assert_failed := false }⟩ ∧
    exec env0 .PEDANTIC_PARSING (.L45 true) init "c --foo=7\n".toList =
      .goto (.L45 false) { init with lineno := 2, calls := [.kissat_warning "foo".toList 7] } ∧
    (parse_dimacs env0 .NORMAL_PARSING "c --opt=-5\np cnf 1 1\n1 0\n".toList).error =
      (parse_dimacs env0 .NORMAL_PARSING "c\np cnf 1 1\n1 0\n".toList).error := by
  have h := C11_embedded_option env0 .NORMAL_PARSING true init "opt".toList (-5) rfl rfl
    (by unfold lower_name; decide) (by decide) (by decide)
  have h1 := h.2.2.2.2.2.2.1 "p cnf 1 1\n1 0\n".toList
  have h3 := (h.2.2.2.2.2.2.2
    [.kissat_options_set_opt "opt".toList (-5), .kissat_verbose "opt".toList (-5)]
    (by decide) (fun _ => rfl) "p cnf 1 1\n1 0\n".toList).1
  have h2 := (C11_embedded_option env0 .PEDANTIC_PARSING true init "foo".toList 7 rfl rfl
    (by unfold lower_name; decide) (by decide) (by decide)).1
  have t1 : option_line "opt".toList (-5) ++ "p cnf 1 1\n1 0\n".toList =
      "c --opt=-5\np cnf 1 1\n1 0\n".toList := by decide
  have t2 : option_line "foo".toList 7 = "c --foo=7\n".toList := by decide
  have t3 : ['c', '\n'] ++ "p cnf 1 1\n1 0\n".toList = "c\np cnf 1 1\n1 0\n".toList := by decide
  rw [t1] at h1 h3
  rw [t3] at h3
  rw [t2] at h2
  refine ⟨?_, ?_, h3⟩
  · unfold parse_dimacs
    rw [h1]
    decide
  · rw [h2]
    decide

/-- Counterexample to C11 as stated: in the build `env1` the line
    `c --embedded=0` (a registered name of 8 lower case letters, read with the
    feature switched on) sets the option `embedded` to 0, and the rest of the
    file is not parsed as after the plain comment line `c`: the option of
    the following line `c --opt=1` is no longer applied, and the following
    line `c -` no longer makes the parser read on into the header line. -/
theorem C11_rest_depends_on_embedded :
    env1.EMBEDDED = true ∧ env1.GET_OPTION_embedded init.calls = true ∧
    option_line "embedded".toList 0 = "c --embedded=0\n".toList ∧
    (parse_dimacs env1 .NORMAL_PARSING
        "c --embedded=0\nc --opt=1\np cnf 1 1\n1 0\n".toList).state.calls =
      [.kissat_options_set_opt "embedded".toList 0, .kissat_verbose "embedded".toList 0,
       .kissat_message 1 1, .kissat_reserve 1, .kissat_add 1, .kissat_add 0] ∧
    (parse_dimacs env1 .NORMAL_PARSING "c\nc --opt=1\np cnf 1 1\n1 0\n".toList).state.calls =
      [.kissat_options_set_opt "opt".toList 1, .kissat_verbose "opt".toList 1,
       .kissat_message 1 1, .kissat_reserve 1, .kissat_add 1, .kissat_add 0] ∧
    (parse_dimacs env1 .NORMAL_PARSING
        "c --embedded=0\nc -\np cnf 1 1\n1 0\n".toList).error = none ∧
    (parse_dimacs env1 .NORMAL_PARSING "c\nc -\np cnf 1 1\n1 0\n".toList).error =
      some "expected 'c' or 'p' at start of line" := by
  refine ⟨rfl, by decide, by decide, by decide, by decide, by decide, by decide⟩

/-! ## Comments that only look like an embedded option -/

/-- C12. With embedded options switched on, the comment lines `c -` and
    `c --opt=` are not read like plain comments: the jump to `COMPLETE` is
    taken with the new-line in `ch`, the loop of line 166 goes on to read the
    line that follows as part of the comment, and on `p cnf 1 1`, `1 0` after
    them `parse_dimacs` returns "expected 'c' or 'p' at start of line" at
    line 3 with no call made, where the build without `EMBEDDED` returns no
    error and adds 1, 0. The line `c --=5` is read to its new-line, with no
    error and the additions 1, 0, but its empty name is looked up and a
    warning is made. A comment `c -x`, left at a character that is not a
    new-line, is read like a plain comment. -/
theorem C12_malformed_option_comment :
    parse_dimacs env0 .NORMAL_PARSING "c -\np cnf 1 1\n1 0\n".toList =
      ⟨some "expected 'c' or 'p' at start of line",
        { lineno := 3, max_var := none, calls := [], nonl_assert_failed := false }⟩ ∧
    parse_dimacs env0 .NORMAL_PARSING "c --opt=\np cnf 1 1\n1 0\n".toList =
      ⟨some "expected 'c' or 'p' at start of line",
        { lineno := 3, max_var := none, calls := [], nonl_assert_failed := false }⟩ ∧
    parse_dimacs env0 .NORMAL_PARSING "c --=5\np cnf 1 1\n1 0\n".toList =
      ⟨none, { lineno := 4, max_var := some 1,
               calls := [.kissat_warning [] 5, .kissat_message 1 1, .kissat_reserve 1,
                         .kissat_add 1, .kissat_add 0],
               nonl_assert_failed := false }⟩ ∧
    (∀ file ∈ ["c -\np cnf 1 1\n1 0\n", "c --opt=\np cnf 1 1\n1 0\n", "c --=5\np cnf 1 1\n1 0\n",
               "c -x\np cnf 1 1\n1 0\n"],
      parse_dimacs env_plain .NORMAL_PARSING file.toList =
        ⟨none, { lineno := 4, max_var := some 1,
                 calls := [.kissat_message 1 1, .kissat_reserve 1, .kissat_add 1, .kissat_add 0],
                 nonl_assert_failed := false }⟩) ∧
    parse_dimacs env0 .NORMAL_PARSING "c -x\np cnf 1 1\n1 0\n".toList =
      parse_dimacs env_plain .NORMAL_PARSING "c -x\np cnf 1 1\n1 0\n".toList := by
  refine ⟨by decide, by decide, by decide, by decide, by decide⟩

/-! ## Carriage returns inside comments -/

/-- C13. A carriage return that is not followed by a new-line is accepted
    inside a comment after the header: the loops of lines 297 and 358 only
    look for the new-line and the end of the file. On `p cnf 1 1`, `c a\rb`,
    `1 0` and on `p cnf 1 1`, `1 0c a\rb` `parse_dimacs` returns no error under
    every strictness (the additions are 1, 0), although the `\r` has been
    read. The same comment before the header is rejected with "expected
    new-line after carriage-return" by the loop of lines 166–178. -/
theorem C13_bare_carriage_return_in_comment :
    (∀ strict : strictness,
      (parse_dimacs env0 strict "p cnf 1 1\nc a\rb\n1 0\n".toList).error = none ∧
      adds (parse_dimacs env0 strict "p cnf 1 1\nc a\rb\n1 0\n".toList).state.calls = [1, 0] ∧
      (parse_dimacs env0 strict "p cnf 1 1\nc a\rb\n1 0\n".toList).state.lineno = 4 ∧
      (parse_dimacs env0 strict "p cnf 1 1\n1 0c a\rb\n".toList).error = none ∧
      adds (parse_dimacs env0 strict "p cnf 1 1\n1 0c a\rb\n".toList).state.calls = [1, 0] ∧
      (parse_dimacs env0 strict "c a\rb\np cnf 1 1\n1 0\n".toList).error =
        some "expected new-line after carriage-return") := by
  intro strict
  cases strict <;> decide


/-! ## The reader of the unsat order -/

theorem digit_not_space (c : Char) (h : isdigit (some c) = true) :
    isspace c = false ∧ c ≠ '-' ∧ c ≠ '+' := by
  rw [isdigit_iff] at h
  refine ⟨?_, ?_, ?_⟩
  · simp only [isspace, decide_eq_false_iff_not, not_or]
    exact ⟨char_ne_of_toNat _ _ (by simp; omega), by omega⟩
  · exact char_ne_of_toNat _ _ (by simp; omega)
  · exact char_ne_of_toNat _ _ (by simp; omega)

theorem space_not_digit (c : Char) (h : isspace c = true) : isdigit (some c) = false := by
  cases hd : isdigit (some c) with
  | false => rfl
  | true => rw [(digit_not_space c hd).1] at h; cases h

/-- A list does not start with an element that satisfies `p`. -/
theorem takeWhile_dropWhile_all {α : Type} (p : α → Bool) (a b : List α) (ha : ∀ x ∈ a, p x = true)
    (hb : ∀ x ∈ b.head?, p x = false) :
    (a ++ b).takeWhile p = a ∧ (a ++ b).dropWhile p = b := by
  induction a with
  | nil =>
    cases b with
    | nil => exact ⟨rfl, rfl⟩
    | cons x xs =>
      have hx : p x = false := hb x (by simp)
      simp [List.takeWhile, List.dropWhile, hx]
  | cons x xs ih =>
    have hx : p x = true := ha x (by simp)
    have := ih (fun y hy => ha y (by simp [hy]))
    simp [List.takeWhile, List.dropWhile, hx, this]

theorem fscanf_u_token (ws ds rest : List Char) (hws : all_space ws) (hds : all_digits ds)
    (hne : ds ≠ []) (hv : decimal_value 0 ds < 2 ^ 32)
    (hrest : ∀ x ∈ rest.head?, isdigit (some x) = false) :
    fscanf_u (ws ++ ds ++ rest) = .assigned (decimal_value 0 ds) rest := by
  cases ds with
  | nil => exact absurd rfl hne
  | cons d ds' =>
    have hd : isdigit (some d) = true := hds d (by simp)
    have hsp := digit_not_space d hd
    have h1 := (takeWhile_dropWhile_all isspace ws (d :: ds' ++ rest) hws
      (by intro x hx; simp at hx; rw [← hx]; exact hsp.1)).2
    have h2 := takeWhile_dropWhile_all (fun c => isdigit (some c)) (d :: ds') rest hds hrest
    have hsign : decide (d = '-' ∨ d = '+') = false := by simp [hsp.2.1, hsp.2.2]
    unfold fscanf_u
    rw [List.append_assoc, h1]
    simp only [List.cons_append, hsign, Bool.false_eq_true, if_false]
    rw [← List.cons_append, h2.1, h2.2, if_neg (by simp)]
    have h64 : ¬ 2 ^ 64 - 1 < decimal_value 0 (d :: ds') := by omega
    simp only [if_neg h64, if_neg hsp.2.1, Nat.mod_eq_of_lt hv]

theorem fscanf_u_space (ws : List Char) (hws : all_space ws) : fscanf_u ws = .eof := by
  have h := (takeWhile_dropWhile_all isspace ws [] hws (by simp)).2
  rw [List.append_nil] at h
  simp [fscanf_u, h]

theorem unsatord_loop_tokens (vs : List Nat) (text : List Char) (h : token_text vs text) :
    ∀ (fuel eidx : Nat) (calls : List Sink), vs.length < fuel →
    unsatord_loop fuel eidx text calls = .returned (calls ++ vs.map .kissat_add_unsatord) := by
  induction h with
  | done ws hws =>
    intro fuel eidx calls hf
    cases fuel with
    | zero => cases hf
    | succ n => simp [unsatord_loop, fscanf_u_space ws hws]
  | last ws ds hws hds hne hv =>
    intro fuel eidx calls hf
    cases fuel with
    | zero => cases hf
    | succ n =>
      cases n with
      | zero => simp at hf
      | succ k =>
        have e := fscanf_u_token ws ds [] hws hds hne hv (by simp)
        rw [List.append_nil] at e
        have e2 : fscanf_u [] = .eof := rfl
        simp only [unsatord_loop, e, e2]
        simp
  | more ws ds w rest vs hws hds hne hv hw _ ih =>
    intro fuel eidx calls hf
    cases fuel with
    | zero => cases hf
    | succ n =>
      have e := fscanf_u_token ws ds (w :: rest) hws hds hne hv
        (by intro x hx; simp at hx; rw [← hx]; exact space_not_digit w hw)
      simp only [unsatord_loop, e]
      rw [ih n _ _ (by simpa using hf)]
      simp

/-- C14. On a file of unsigned decimal numerals, each below `2 ^ 32`,
    separated by white space, `kissat_parse_unsatord` returns (after one
    iteration of its loop per numeral and a last call of `fscanf` that meets
    the end of the file) and has called `kissat_add_unsatord` once per
    numeral with its value, in the order of the file, and nothing else; the
    values are passed on as they are read. -/
theorem C14_unsatord_calls (vs : List Nat) (text : List Char) (h : token_text vs text)
    (fuel eidx : Nat) (hf : vs.length < fuel) :
    kissat_parse_unsatord fuel eidx text = .returned (vs.map .kissat_add_unsatord) := by
  have := unsatord_loop_tokens vs text h fuel eidx [] hf
  simpa [kissat_parse_unsatord] using this

/-- Witness of C14: the file `2 5 1` gives the calls with 2, 5 and 1. -/
theorem C14_unsatord_calls_witness :
    token_text [2, 5, 1] "2 5 1".toList ∧
    kissat_parse_unsatord 4 0 "2 5 1".toList =
      .returned [.kissat_add_unsatord 2, .kissat_add_unsatord 5, .kissat_add_unsatord 1] := by
  have hs : all_space [] := fun c hc => by simp at hc
  have h1 : all_space [' '] := by unfold all_space; decide
  have d2 : all_digits ['2'] := by unfold all_digits; decide
  have d5 : all_digits ['5'] := by unfold all_digits; decide
  have d1 : all_digits ['1'] := by unfold all_digits; decide
  have t1 : token_text [1] [' ', '1'] :=
    token_text.last [' '] ['1'] h1 d1 (by simp) (by decide)
  have t5 : token_text [5, 1] [' ', '5', ' ', '1'] :=
    token_text.more [' '] ['5'] ' ' ['1'] [1] h1 d5 (by simp) (by decide) (by decide) t1
  have t2 : token_text [2, 5, 1] "2 5 1".toList :=
    token_text.more [] ['2'] ' ' ['5', ' ', '1'] [5, 1] hs d2 (by simp) (by decide) (by decide) t5
  exact ⟨t2, C14_unsatord_calls [2, 5, 1] "2 5 1".toList t2 4 0 (by decide)⟩

theorem unsatord_loop_stuck (n : Nat) : ∀ (calls : List Sink),
    unsatord_loop n 2 "x 5".toList calls =
      .running (calls ++ List.replicate n (.kissat_add_unsatord 2)) := by
  have e : fscanf_u "x 5".toList = .failure "x 5".toList := by decide
  induction n with
  | zero => intro calls; simp [unsatord_loop]
  | succ k ih =>
    intro calls
    simp only [unsatord_loop, e]
    rw [ih, List.replicate_succ, List.append_assoc]
    rfl

/-- C15. On the file `2 x 5` `kissat_parse_unsatord` does not return: `fscanf`
    stores 2, then fails to match at `x`, returns 0 and leaves `x` unread;
    the loop only stops at `EOF`, so its body runs again with the value 2
    still in `eidx`, and so on without end. After any number `fuel` of
    iterations the function is still in the loop and has called
    `kissat_add_unsatord` with 2 that many times, whatever `eidx` held at
    the start. -/
theorem C15_unsatord_malformed_token (fuel eidx : Nat) :
    kissat_parse_unsatord fuel eidx "2 x 5".toList =
      .running (List.replicate fuel (.kissat_add_unsatord 2)) := by
  cases fuel with
  | zero => rfl
  | succ n =>
    have e : fscanf_u "2 x 5".toList = .assigned 2 " x 5".toList := by decide
    simp only [kissat_parse_unsatord, unsatord_loop, e]
    cases n with
    | zero => rfl
    | succ k =>
      have e2 : fscanf_u " x 5".toList = .failure "x 5".toList := by decide
      simp only [unsatord_loop, e2]
      rw [unsatord_loop_stuck]
      rfl


/-! ## The order of the calls -/

theorem before_header_next (ch : Option Char) (st : State) (h : before_header st) :
    before_header (next ch st) ∧ before_header (nonl ch (next ch st)) := by
  simp only [before_header, nonl_calls, next_calls, nonl_max_var, next_max_var]
  exact ⟨h, h⟩

theorem after_header_next (V : Int) (ch : Option Char) (st : State) (h : after_header V st) :
    after_header V (next ch st) ∧ after_header V (nonl ch (next ch st)) := by
  simp only [after_header, nonl_calls, next_calls, nonl_max_var, next_max_var]
  exact ⟨h, h⟩

theorem before_header_apply_option (env : Env) (name : List Char) (sign arg : Int) (st : State)
    (h : before_header st) : before_header (apply_option env name sign arg st) := by
  unfold apply_option before_header
  split_ifs
  · refine ⟨fun c hc => ?_, h.2⟩
    simp only [List.mem_append, List.mem_cons, List.mem_singleton, List.not_mem_nil,
      or_false] at hc
    rcases hc with hc | rfl | rfl
    · exact h.1 c hc
    · rfl
    · rfl
  · refine ⟨fun c hc => ?_, h.2⟩
    simp only [List.mem_append, List.mem_singleton] at hc
    rcases hc with hc | rfl
    · exact h.1 c hc
    · rfl

theorem after_header_add (V : Int) (l : Int) (st : State) (h : after_header V st) :
    after_header V { st with calls := st.calls ++ [.kissat_add l] } := by
  obtain ⟨C, opts, lits, ho, hc, hm⟩ := h
  refine ⟨C, opts, lits ++ [l], ho, ?_, hm⟩
  simp [hc]

theorem after_literal_order (strict : strictness) (b : Body) (sign idx : Int)
    (ch : Option Char) (st : State) (h : after_header b.vars st) :
    (after_literal strict b sign idx ch st).sat order_inv order_post := by
  unfold after_literal
  split_ifs <;> simp only [Outcome.sat, order_inv, order_post]
  · right
    refine ⟨b.vars, ?_⟩
    simp only [after_header, nonl_calls, nonl_max_var]
    exact h
  · exact after_header_add _ _ _ h
  · exact Or.inr ⟨_, h⟩
  · exact after_header_add _ _ _ h

theorem finish_order (strict : strictness) (b : Body) (st : State) (h : after_header b.vars st) :
    (finish strict b st).sat order_inv order_post := by
  unfold finish
  split_ifs <;> simp only [Outcome.sat, order_post] <;> exact Or.inr ⟨_, h⟩

theorem header_end_order (V : Int) (C : Nat) (st : State) (h : before_header st) :
    after_header V { st with
      max_var := some V
      calls := st.calls ++ [.kissat_message V C, .kissat_reserve V] } :=
  ⟨C, st.calls, [], h.1, by simp, rfl⟩

theorem step_order (env : Env) (strict : strictness)
    (m : Mode) (ch : Option Char) (st : State) (h : order_inv m st) :
    (step env strict m ch (next ch st)).sat order_inv order_post := by
  have hB := before_header_next ch st
  have hA := fun V => after_header_next V ch st
  cases m <;> simp only [order_inv] at h <;>
    simp only [step, COMPLETE, option_value, option_end, header_c, header_variables,
      header_clauses, header_cr, header_end] <;>
    repeat' split
  all_goals simp only [Outcome.sat, order_inv, order_post]
  all_goals first
    | with_reducible exact (hB h).1
    | with_reducible exact Or.inl ⟨Option.some_ne_none _, (hB h).1⟩
    | with_reducible exact Or.inl ⟨Option.some_ne_none _, (hB h).2⟩
    | with_reducible exact (hA _ h).1
    | with_reducible exact Or.inr ⟨_, (hA _ h).1⟩
    | with_reducible exact Or.inr ⟨_, (hA _ h).2⟩
    | with_reducible exact before_header_apply_option env _ _ _ _ (hB h).1
    | exact after_literal_order strict _ _ _ _ _ (hA _ h).1
    | exact finish_order strict _ _ (hA _ h).1
    | with_reducible exact header_end_order _ _ _ (hB h).1

theorem run_order (env : Env) (strict : strictness) (file : List Char) :
    order_post (parse_dimacs env strict file).error (parse_dimacs env strict file).state :=
  run_sat env strict order_inv order_post (step_order env strict) file (.L45 true) init
    ⟨fun c hc => by simp [init] at hc, rfl⟩

theorem before_header_calls (st : State) (h : before_header st) :
    ¬ header_accepted st.calls ∧ (∀ V, Call.kissat_reserve V ∉ st.calls) ∧
      ∀ l, Call.kissat_add l ∉ st.calls := by
  refine ⟨?_, ?_, ?_⟩
  · rintro ⟨V, C, hm⟩
    have := h.1 _ hm
    simp [is_option_call] at this
  · intro V hm
    have := h.1 _ hm
    simp [is_option_call] at this
  · intro l hm
    have := h.1 _ hm
    simp [is_option_call] at this

theorem count_reserve (V V' : Int) (C : Nat) (opts : List Call) (lits : List Int)
    (ho : ∀ c ∈ opts, is_option_call c = true) :
    (opts ++ (Call.kissat_message V C :: Call.kissat_reserve V ::
      lits.map Call.kissat_add)).count (Call.kissat_reserve V') = if V' = V then 1 else 0 := by
  have h1 : opts.count (Call.kissat_reserve V') = 0 := by
    apply List.count_eq_zero_of_not_mem
    intro hm
    have := ho _ hm
    simp [is_option_call] at this
  have h2 : (lits.map Call.kissat_add).count (Call.kissat_reserve V') = 0 := by
    apply List.count_eq_zero_of_not_mem
    simp
  rw [List.count_append, h1, List.count_cons, List.count_cons, h2]
  by_cases hV : V' = V
  · subst hV; simp
  · have : ¬ V = V' := fun e => hV e.symm
    simp [hV, this]

/-- C17. In the calls that `parse_dimacs` has made when it returns: if the
    header has not been accepted (no header has been announced), the result
    is an error, neither `kissat_reserve` nor `kissat_add` has been called and
    `*max_var_ptr` has not been written; if the header has been accepted, the
    calls are the embedded options, then the announcement of the header and
    one `kissat_reserve` with the declared number of variables `V`, then only
    `kissat_add` calls; `kissat_reserve` is called exactly once, and
    `*max_var_ptr` holds `V`. -/
theorem C17_reserve_once (env : Env) (strict : strictness) (file : List Char) :
    (¬ header_accepted (parse_dimacs env strict file).state.calls →
      (parse_dimacs env strict file).error ≠ none ∧
      (∀ V, Call.kissat_reserve V ∉ (parse_dimacs env strict file).state.calls) ∧
      (∀ l, Call.kissat_add l ∉ (parse_dimacs env strict file).state.calls) ∧
      (parse_dimacs env strict file).state.max_var = none) ∧
    (header_accepted (parse_dimacs env strict file).state.calls →
      ∃ (V : Int) (C : Nat) (opts : List Call) (lits : List Int),
        (∀ c ∈ opts, is_option_call c = true) ∧
        (parse_dimacs env strict file).state.calls =
          opts ++ (.kissat_message V C :: .kissat_reserve V :: lits.map .kissat_add) ∧
        (parse_dimacs env strict file).state.max_var = some V ∧
        ∀ V', (parse_dimacs env strict file).state.calls.count (.kissat_reserve V') =
          if V' = V then 1 else 0) := by
  have h := run_order env strict file
  generalize parse_dimacs env strict file = r at h
  rcases h with ⟨he, hb⟩ | ⟨V, C, opts, lits, ho, hc, hm⟩
  · have hcalls := before_header_calls r.state hb
    exact ⟨fun _ => ⟨he, hcalls.2.1, hcalls.2.2, hb.2⟩, fun ha => absurd ha hcalls.1⟩
  · have ha : header_accepted r.state.calls := ⟨V, C, by rw [hc]; simp⟩
    refine ⟨fun hn => absurd ha hn, fun _ => ⟨V, C, opts, lits, ho, hc, hm, fun V' => ?_⟩⟩
    rw [hc]
    exact count_reserve V V' C opts lits ho

/-- Witness of C17: the file `c --opt=3`, `p cnf 2 1`, `1 -2 0` (header
    accepted) and the file `p cnf x` (header rejected). -/
theorem C17_reserve_once_witness :
    (parse_dimacs env0 .NORMAL_PARSING "c --opt=3\np cnf 2 1\n1 -2 0\n".toList).state.calls =
      [.kissat_options_set_opt "opt".toList 3, .kissat_verbose "opt".toList 3,
       .kissat_message 2 1, .kissat_reserve 2, .kissat_add 1, .kissat_add (-2), .kissat_add 0] ∧
    (∃ (V : Int) (C : Nat) (opts : List Call) (lits : List Int),
      (∀ c ∈ opts, is_option_call c = true) ∧
      (parse_dimacs env0 .NORMAL_PARSING "c --opt=3\np cnf 2 1\n1 -2 0\n".toList).state.calls =
        opts ++ (.kissat_message V C :: .kissat_reserve V :: lits.map .kissat_add) ∧
      (parse_dimacs env0 .NORMAL_PARSING "c --opt=3\np cnf 2 1\n1 -2 0\n".toList).state.max_var =
        some V ∧
      ∀ V', (parse_dimacs env0 .NORMAL_PARSING
          "c --opt=3\np cnf 2 1\n1 -2 0\n".toList).state.calls.count (.kissat_reserve V') =
        if V' = V then 1 else 0) ∧
    ((parse_dimacs env0 .NORMAL_PARSING "p cnf x\n1 0\n".toList).error ≠ none ∧
      (∀ V, Call.kissat_reserve V ∉
        (parse_dimacs env0 .NORMAL_PARSING "p cnf x\n1 0\n".toList).state.calls) ∧
      (∀ l, Call.kissat_add l ∉
        (parse_dimacs env0 .NORMAL_PARSING "p cnf x\n1 0\n".toList).state.calls) ∧
      (parse_dimacs env0 .NORMAL_PARSING "p cnf x\n1 0\n".toList).state.max_var = none) := by
  have e1 : (parse_dimacs env0 .NORMAL_PARSING "c --opt=3\np cnf 2 1\n1 -2 0\n".toList).state.calls =
      [.kissat_options_set_opt "opt".toList 3, .kissat_verbose "opt".toList 3,
       .kissat_message 2 1, .kissat_reserve 2, .kissat_add 1, .kissat_add (-2), .kissat_add 0] := by
    decide
  have e2 : (parse_dimacs env0 .NORMAL_PARSING "p cnf x\n1 0\n".toList).state.calls = [] := by
    decide
  refine ⟨e1, ?_, ?_⟩
  · exact (C17_reserve_once env0 .NORMAL_PARSING "c --opt=3\np cnf 2 1\n1 -2 0\n".toList).2
      ⟨2, 1, by rw [e1]; decide⟩
  · exact (C17_reserve_once env0 .NORMAL_PARSING "p cnf x\n1 0\n".toList).1
      (by rintro ⟨V, C, hm⟩; rw [e2] at hm; cases hm)

/-! ## The messages of the header keyword -/

/-- C18. For a header line that begins with `p cn` and goes on with a character
    other than `f`, line 201 returns the message "expected 'n' after 'p cn'":
    it names `n`, not the `f` that line 200 tests for. The message differs
    from the one of line 198 for `p c` ("expected 'n' after 'p c'"), and the
    messages of lines 195 and 198 name the characters that are tested. -/
theorem C18_message_after_p_cn :
    (∀ strict : strictness,
      (parse_dimacs env0 strict "p cnx 1 1\n1 0\n".toList).error =
        some "expected 'n' after 'p cn'" ∧
      (parse_dimacs env0 strict "p cnx 1 1\n1 0\n".toList).error ≠
        some "expected 'f' after 'p cn'" ∧
      (parse_dimacs env0 strict "p cxf 1 1\n1 0\n".toList).error =
        some "expected 'n' after 'p c'" ∧
      (parse_dimacs env0 strict "p xnf 1 1\n1 0\n".toList).error =
        some "expected 'c' after 'p '" ∧
      (parse_dimacs env0 strict "p cnx 1 1\n1 0\n".toList).error ≠
        (parse_dimacs env0 strict "p cxf 1 1\n1 0\n".toList).error) := by
  intro strict
  cases strict <;> decide


/-! ## The line counter -/

theorem after_literal_nonl (strict : strictness) (b : Body) (sign idx : Int)
    (ch : Option Char) (t : State) :
    (after_literal strict b sign idx ch t).sat
      (fun _ s => s.lineno = t.lineno ∧ s.nonl_assert_failed = t.nonl_assert_failed)
      (fun res s => (via_nonl res = true ∧ s = nonl ch t) ∨ (via_nonl res = false ∧ s = t)) := by
  unfold after_literal
  split_ifs <;> dsimp only [Outcome.sat]
  · exact Or.inl ⟨by decide, rfl⟩
  · exact ⟨rfl, rfl⟩
  · exact Or.inr ⟨by decide, rfl⟩
  · exact ⟨rfl, rfl⟩

theorem finish_nonl (strict : strictness) (b : Body) (ch : Option Char) (t : State) :
    (finish strict b t).sat
      (fun _ s => s.lineno = t.lineno ∧ s.nonl_assert_failed = t.nonl_assert_failed)
      (fun res s => (via_nonl res = true ∧ s = nonl ch t) ∨ (via_nonl res = false ∧ s = t)) := by
  unfold finish
  split_ifs <;> dsimp only [Outcome.sat] <;> exact Or.inr ⟨by decide, rfl⟩

theorem apply_option_counter (env : Env) (name : List Char) (sign arg : Int) (t : State) :
    (apply_option env name sign arg t).lineno = t.lineno ∧
      (apply_option env name sign arg t).nonl_assert_failed = t.nonl_assert_failed := by
  unfold apply_option; split_ifs <;> exact ⟨rfl, rfl⟩

/-- One step: on the way to the next `NEXT ()` the line counter is not
    touched; a `return` goes through `nonl` with the character read last
    exactly for the messages of `via_nonl`. -/
theorem step_nonl (env : Env) (strict : strictness) (m : Mode) (ch : Option Char) (t : State) :
    (step env strict m ch t).sat
      (fun _ s => s.lineno = t.lineno ∧ s.nonl_assert_failed = t.nonl_assert_failed)
      (fun res s => (via_nonl res = true ∧ s = nonl ch t) ∨ (via_nonl res = false ∧ s = t)) := by
  cases m <;>
    simp only [step, COMPLETE, option_value, option_end, header_c, header_variables,
      header_clauses, header_cr, header_end] <;>
    repeat' split
  all_goals first
    | exact after_literal_nonl strict _ _ _ ch t
    | exact finish_nonl strict _ ch t
    | (dsimp only [Outcome.sat]
       first
         | with_reducible exact ⟨rfl, rfl⟩
         | exact apply_option_counter env _ _ _ t
         | exact Or.inl ⟨by decide, rfl⟩
         | exact Or.inr ⟨by decide, rfl⟩)

theorem nonl_of_ne (ch : Option Char) (t : State) (h : ch ≠ some '\n') : nonl ch t = t := by
  simp [nonl, h]

theorem next_flag (ch : Option Char) (st : State) :
    (next ch st).nonl_assert_failed = st.nonl_assert_failed := by
  unfold next; split_ifs <;> rfl

theorem next_newline_lineno (st : State) (h : st.lineno + 1 < 2 ^ 64) :
    (next (some '\n') st).lineno = st.lineno + 1 := by
  simp only [next, if_true]
  exact Nat.mod_eq_of_lt h

theorem nonl_next_flag (st : State) (h1 : 1 ≤ st.lineno) (h : st.lineno + 1 < 2 ^ 64) :
    (nonl (some '\n') (next (some '\n') st)).nonl_assert_failed = st.nonl_assert_failed := by
  have e := next_newline_lineno st h
  simp only [nonl, if_true, next_flag, e]
  have : decide (st.lineno + 1 > 1) = true := by simp; omega
  simp only [this, Bool.not_true, Bool.or_false]

theorem reads_ne_nil (env : Env) (strict : strictness) (input : List Char) (m : Mode)
    (st : State) : reads env strict m st input ≠ [] := by
  cases input with
  | nil => simp only [reads, reads_eof]; split <;> simp
  | cons c cs => simp only [reads]; split <;> simp

theorem nonl_decrement_cons (res : Option String) (a : Option Char) (rs : List (Option Char))
    (h : rs ≠ []) : nonl_decrement res (a :: rs) = nonl_decrement res rs := by
  cases rs with
  | nil => exact absurd rfl h
  | cons b l => simp [nonl_decrement, List.getLast?_cons_cons]

/-- One character: the counter goes up by one for a new-line and comes down by
    the decrement of `nonl` when `parse_dimacs` returns. -/
theorem step_counter (env : Env) (strict : strictness) (m : Mode) (c : Char) (st : State)
    (hf : st.nonl_assert_failed = false) (h1 : 1 ≤ st.lineno)
    (hw : st.lineno + (if c = '\n' then 1 else 0) < 2 ^ 64) :
    (step env strict m (some c) (next (some c) st)).sat
      (fun _ s => s.nonl_assert_failed = false ∧
        s.lineno = st.lineno + (if c = '\n' then 1 else 0))
      (fun res s => s.nonl_assert_failed = false ∧ res ≠ none ∧
        s.lineno + nonl_decrement res [some c] = st.lineno + (if c = '\n' then 1 else 0)) := by
  have hs := step_nonl env strict m (some c) (next (some c) st)
  have he := step_char_error env strict m c (next (some c) st)
  have hn : (next (some c) st).nonl_assert_failed = false ∧
      (next (some c) st).lineno = st.lineno + (if c = '\n' then 1 else 0) := by
    by_cases hc : c = '\n'
    · subst hc
      rw [if_pos rfl] at hw ⊢
      exact ⟨by rw [next_flag]; exact hf, next_newline_lineno st hw⟩
    · rw [next_of_ne c st hc, if_neg hc]
      exact ⟨hf, rfl⟩
  cases e : step env strict m (some c) (next (some c) st) with
  | goto m' s =>
    rw [e] at hs
    simp only [Outcome.sat] at hs ⊢
    exact ⟨by rw [hs.2]; exact hn.1, by rw [hs.1]; exact hn.2⟩
  | ret res s =>
    rw [e] at hs he
    simp only [Outcome.sat] at hs he ⊢
    rcases hs with ⟨hv, rfl⟩ | ⟨hv, rfl⟩
    · by_cases hc : c = '\n'
      · subst hc
        rw [if_pos rfl] at hw ⊢
        refine ⟨by rw [nonl_next_flag st h1 hw]; exact hf, he, ?_⟩
        rw [nonl_next_lineno st (by omega)]
        simp [nonl_decrement, hv]
      · have hc' : (some c : Option Char) ≠ some '\n' := by simpa using hc
        rw [nonl_of_ne _ _ hc']
        refine ⟨hn.1, he, ?_⟩
        rw [hn.2]
        simp [nonl_decrement, hc]
    · refine ⟨hn.1, he, ?_⟩
      rw [hn.2]
      simp [nonl_decrement, hv]

theorem at_eof_counter (env : Env) (strict : strictness) (m : Mode) (st : State) :
    (at_eof env strict m st).state.nonl_assert_failed = st.nonl_assert_failed ∧
    (at_eof env strict m st).state.lineno = st.lineno ∧
    (reads_eof env strict m st).count (some '\n') = 0 ∧
    nonl_decrement (at_eof env strict m st).error (reads_eof env strict m st) = 0 := by
  have hs := step_nonl env strict m EOF st
  have hr : reads_eof env strict m st = [none] ∨ reads_eof env strict m st = [none, none] := by
    simp only [reads_eof]
    split <;> simp
  have hd : ∀ res, nonl_decrement res (reads_eof env strict m st) = 0 := by
    intro res
    rcases hr with hr | hr <;> simp [nonl_decrement, hr]
  have hc : (reads_eof env strict m st).count (some '\n') = 0 := by
    rcases hr with hr | hr <;> simp [hr]
  rcases at_eof_returns env strict m st with ⟨res, st', e, e'⟩ | ⟨b, st', res, e, ef, e'⟩
  · rw [e] at hs
    simp only [Outcome.sat] at hs
    have hst : st' = st := by
      rcases hs with ⟨-, h⟩ | ⟨-, h⟩
      · rw [h]; exact nonl_of_ne _ _ (by simp [EOF])
      · exact h
    rw [e', hst]
    exact ⟨rfl, rfl, hc, hd _⟩
  · rw [e] at hs
    simp only [Outcome.sat] at hs
    rw [e']
    exact ⟨hs.2, hs.1, hc, hd _⟩

theorem count_newline_cons (c : Char) (l : List (Option Char)) :
    (some c :: l).count (some '\n') = (if c = '\n' then 1 else 0) + l.count (some '\n') := by
  by_cases hc : c = '\n'
  · subst hc; rw [List.count_cons_self, if_pos rfl, Nat.add_comm]
  · have hne : (some '\n' : Option Char) ≠ some c := by
      intro h; exact hc (Option.some.inj h).symm
    rw [List.count_cons_of_ne hne, if_neg hc, Nat.zero_add]

theorem run_counter (env : Env) (strict : strictness) (input : List Char) :
    ∀ (m : Mode) (st : State), st.nonl_assert_failed = false → 1 ≤ st.lineno →
    st.lineno + input.count '\n' < 2 ^ 64 →
    (run env strict m st input).state.nonl_assert_failed = false ∧
    (run env strict m st input).state.lineno +
        nonl_decrement (run env strict m st input).error (reads env strict m st input) =
      st.lineno + (reads env strict m st input).count (some '\n') ∧
    ((run env strict m st input).error = none →
      (reads env strict m st input).count (some '\n') = input.count '\n') := by
  induction input with
  | nil =>
    intro m st hf h1 _
    obtain ⟨e1, e2, e3, e4⟩ := at_eof_counter env strict m st
    rw [run_nil]
    simp only [reads]
    rw [e1, e2, e3, e4]
    exact ⟨hf, rfl, fun _ => rfl⟩
  | cons c cs ih =>
    intro m st hf h1 hw
    have hcount : (c :: cs).count '\n' = (if c = '\n' then 1 else 0) + cs.count '\n' := by
      by_cases hc : c = '\n'
      · subst hc; simp [Nat.add_comm]
      · simp [hc, List.count_cons_of_ne (Ne.symm hc)]
    rw [hcount] at hw ⊢
    have hs := step_counter env strict m c st hf h1 (by omega)
    rw [run_cons]
    simp only [reads]
    cases e : step env strict m (some c) (next (some c) st) with
    | ret res s =>
      rw [e] at hs
      simp only [Outcome.sat] at hs
      simp only [continue_run]
      refine ⟨hs.1, ?_, fun hn => absurd hn hs.2.1⟩
      rw [hs.2.2, count_newline_cons, List.count_nil, Nat.add_zero]
    | goto m' s =>
      rw [e] at hs
      simp only [Outcome.sat] at hs
      simp only [continue_run]
      obtain ⟨i1, i2, i3⟩ := ih m' s hs.1 (by rw [hs.2]; omega) (by rw [hs.2]; omega)
      have hne := reads_ne_nil env strict cs m' s
      rw [nonl_decrement_cons _ _ _ hne, i2, hs.2, count_newline_cons]
      exact ⟨i1, by omega, fun hn => by rw [i3 hn]⟩

/-- The characters among the values of `reads` are a prefix of the input. -/
theorem reads_initial (env : Env) (strict : strictness) (input : List Char) :
    ∀ (m : Mode) (st : State),
    (reads env strict m st input).filterMap id <+: input := by
  induction input with
  | nil =>
    intro m st
    simp only [reads, reads_eof]
    split <;> simp
  | cons c cs ih =>
    intro m st
    simp only [reads]
    split
    · simp
    · rename_i m' s _
      simpa using ih m' s

theorem decrement_le_count (res : Option String) (rs : List (Option Char)) :
    nonl_decrement res rs ≤ rs.count (some '\n') := by
  unfold nonl_decrement
  split_ifs with h
  · have hm : some '\n' ∈ rs := List.mem_of_getLast?_eq_some h.2
    exact List.count_pos_iff.2 hm
  · exact Nat.zero_le _

/-- C19. The line counter of `parse_dimacs`, on a file with fewer than
    `2 ^ 64 - 1` new-lines (so that the `uint64_t` counter does not wrap):
    it starts at 1; the assertion `*lineno_ptr > 1` of `nonl` does not fail;
    with `reads` the values delivered by `NEXT ()` up to the `return` (the
    characters among them are a prefix of the file), the counter at the
    `return` is 1 plus the number of new-lines read, minus 1 exactly when the
    message is one of those returned through `nonl` and the value read last
    is a new-line; it is at least 1; and when no error is returned it is 1
    plus the number of new-lines of the file. -/
theorem C19_line_counter (env : Env) (strict : strictness) (file : List Char)
    (h : file.count '\n' < 2 ^ 64 - 1) :
    init.lineno = 1 ∧
    (parse_dimacs env strict file).state.nonl_assert_failed = false ∧
    (reads env strict (.L45 true) init file).filterMap id <+: file ∧
    (parse_dimacs env strict file).state.lineno +
        nonl_decrement (parse_dimacs env strict file).error
          (reads env strict (.L45 true) init file) =
      1 + (reads env strict (.L45 true) init file).count (some '\n') ∧
    nonl_decrement (parse_dimacs env strict file).error
        (reads env strict (.L45 true) init file) ≤
      (reads env strict (.L45 true) init file).count (some '\n') ∧
    1 ≤ (parse_dimacs env strict file).state.lineno ∧
    ((parse_dimacs env strict file).error = none →
      (parse_dimacs env strict file).state.lineno = 1 + file.count '\n') := by
  have hi : init.lineno = 1 := rfl
  obtain ⟨h1, h2, h3⟩ := run_counter env strict file (.L45 true) init rfl (by rw [hi])
    (by rw [hi]; omega)
  have hd := decrement_le_count (parse_dimacs env strict file).error
    (reads env strict (.L45 true) init file)
  rw [hi] at h2
  unfold parse_dimacs at hd ⊢
  refine ⟨rfl, h1, reads_initial env strict file _ _, h2, hd, by omega, fun hn => ?_⟩
  have h0 : nonl_decrement (run env strict (.L45 true) init file).error
      (reads env strict (.L45 true) init file) = 0 := by
    rw [hn]; simp [nonl_decrement, via_nonl]
  rw [h0, h3 hn] at h2
  exact h2

/-- Witness of C19: on `p cnf 1 1`, `-` and a new-line the message
    "unexpected new-line after '-'" comes through `nonl` after two new-lines
    have been read, and the counter is 2; on `p cnf 1 1`, `1 0` there is no
    error and the counter is 3. -/
theorem C19_line_counter_witness :
    (parse_dimacs env0 .NORMAL_PARSING "p cnf 1 1\n-\n".toList).error =
      some "unexpected new-line after '-'" ∧
    (reads env0 .NORMAL_PARSING (.L45 true) init "p cnf 1 1\n-\n".toList).count (some '\n') = 2 ∧
    nonl_decrement (parse_dimacs env0 .NORMAL_PARSING "p cnf 1 1\n-\n".toList).error
      (reads env0 .NORMAL_PARSING (.L45 true) init "p cnf 1 1\n-\n".toList) = 1 ∧
    (parse_dimacs env0 .NORMAL_PARSING "p cnf 1 1\n-\n".toList).state.lineno = 2 ∧
    (parse_dimacs env0 .NORMAL_PARSING "p cnf 1 1\n1 0\n".toList).state.lineno = 3 := by
  have e1 : (parse_dimacs env0 .NORMAL_PARSING "p cnf 1 1\n-\n".toList).error =
      some "unexpected new-line after '-'" := by decide
  have e2 : (reads env0 .NORMAL_PARSING (.L45 true) init "p cnf 1 1\n-\n".toList).count
      (some '\n') = 2 := by decide
  have e3 : nonl_decrement (parse_dimacs env0 .NORMAL_PARSING "p cnf 1 1\n-\n".toList).error
      (reads env0 .NORMAL_PARSING (.L45 true) init "p cnf 1 1\n-\n".toList) = 1 := by decide
  have e4 : (parse_dimacs env0 .NORMAL_PARSING "p cnf 1 1\n1 0\n".toList).error = none := by
    decide
  have h1 := (C19_line_counter env0 .NORMAL_PARSING "p cnf 1 1\n-\n".toList (by decide)).2.2.2.1
  have h2 := (C19_line_counter env0 .NORMAL_PARSING "p cnf 1 1\n1 0\n".toList
    (by decide)).2.2.2.2.2.2 e4
  rw [e2, e3] at h1
  refine ⟨e1, e2, e3, by omega, ?_⟩
  rw [h2]
  decide


/-! ## Strictness -/

theorem follows_self (o : Outcome) : follows o o := by
  cases o with
  | goto m s => rfl
  | ret res s => intro h; rw [h]

theorem after_literal_follows (a b : strictness) (h : stricter a b) (bd : Body) (sign idx : Int)
    (ch : Option Char) (t : State) :
    follows (after_literal b bd sign idx ch t) (after_literal a bd sign idx ch t) := by
  rcases h with ⟨rfl, rfl⟩ | ⟨rfl, rfl⟩ <;> unfold after_literal <;>
    simp only [ne_eq, reduceCtorEq, not_false_eq_true, not_true_eq_false, true_and,
      false_and, if_false] <;>
    split_ifs <;> simp [follows]

theorem finish_follows (a b : strictness) (h : stricter a b) (bd : Body) (t : State) :
    follows (finish b bd t) (finish a bd t) := by
  rcases h with ⟨rfl, rfl⟩ | ⟨rfl, rfl⟩ <;> unfold finish <;>
    simp only [ne_eq, reduceCtorEq, not_false_eq_true, not_true_eq_false, true_and,
      false_and, if_false] <;>
    split_ifs <;> simp [follows]

theorem follows_error (o' o : Outcome) (h : ∃ msg s, o = .ret (some msg) s) : follows o' o := by
  obtain ⟨msg, s, rfl⟩ := h
  intro hn; cases hn

theorem blank_header (vars : Int) (clauses : Nat) (ch : Option Char) (t : State)
    (h : is_blank ch = true) :
    (∃ msg s, header_c ch t = .ret (some msg) s) ∧
    (∃ msg s, header_variables ch t = .ret (some msg) s) ∧
    (∃ msg s, header_clauses vars ch t = .ret (some msg) s) ∧
    (∃ msg s, header_cr vars clauses ch t = .ret (some msg) s) := by
  simp only [is_blank, decide_eq_true_eq] at h
  rcases h with rfl | rfl <;>
    simp [header_c, header_variables, header_clauses, header_cr, header_end, isdigit, EOF]

set_option maxHeartbeats 4000000 in
theorem step_follows (env : Env) (a b : strictness) (h : stricter a b) (m : Mode)
    (ch : Option Char) (t : State) :
    follows (step env b m ch t) (step env a m ch t) := by
  have hPN : stricter .PEDANTIC_PARSING .NORMAL_PARSING := Or.inl ⟨rfl, rfl⟩
  have hNR : stricter .NORMAL_PARSING .RELAXED_PARSING := Or.inr ⟨rfl, rfl⟩
  cases m
  all_goals try (simp only [step]; with_reducible exact follows_self _)
  all_goals
    rcases h with ⟨rfl, rfl⟩ | ⟨rfl, rfl⟩ <;>
    simp only [step, ne_eq, reduceCtorEq, not_false_eq_true, not_true_eq_false, true_and,
      false_and, if_true, if_false] <;>
    (try split_ifs) <;>
    first
      | with_reducible exact follows_self _
      | with_reducible exact after_literal_follows _ _ hPN _ _ _ _ _
      | with_reducible exact after_literal_follows _ _ hNR _ _ _ _ _
      | with_reducible exact finish_follows _ _ hPN _ _
      | with_reducible exact finish_follows _ _ hNR _ _
      | with_reducible exact follows_error _ _ ⟨_, _, rfl⟩
      | exact follows_error _ _ (blank_header 0 0 _ _ (by assumption)).1
      | exact follows_error _ _ (blank_header 0 0 _ _ (by assumption)).2.1
      | exact follows_error _ _ (blank_header _ 0 _ _ (by assumption)).2.2.1
      | exact follows_error _ _ (blank_header _ _ _ _ (by assumption)).2.2.2

theorem exec_follows (env : Env) (a b : strictness) (h : stricter a b) (input : List Char) :
    ∀ (m : Mode) (st : State),
    follows (exec env b m st input) (exec env a m st input) := by
  induction input with
  | nil => intro m st; exact follows_self _
  | cons c cs ih =>
    intro m st
    have hs := step_follows env a b h m (some c) (next (some c) st)
    simp only [exec]
    cases e : step env a m (some c) (next (some c) st) with
    | ret res s =>
      rw [e] at hs
      intro hn
      rw [hs hn]
    | goto m' s =>
      rw [e] at hs
      simp only [follows] at hs
      rw [hs]
      exact ih m' s

theorem at_eof_follows (env : Env) (a b : strictness) (h : stricter a b) (m : Mode) (st : State)
    (hok : (at_eof env a m st).error = none) :
    at_eof env b m st = at_eof env a m st := by
  have hs := step_follows env a b h m EOF st
  unfold at_eof at hok ⊢
  cases e : step env a m EOF st with
  | ret res s =>
    rw [e] at hs hok
    simp only at hok
    rw [hs hok, hok]
  | goto m' s =>
    rw [e] at hs hok
    simp only [follows] at hs
    rw [hs]
    simp only at hok ⊢
    have hs' := step_follows env a b h m' EOF s
    unfold at_eof_again at hok ⊢
    cases e' : step env a m' EOF s with
    | ret res s' =>
      rw [e'] at hs' hok
      simp only at hok
      rw [hs' hok, hok]
    | goto m2 s2 =>
      rw [e'] at hok
      simp at hok

theorem run_follows (env : Env) (a b : strictness) (h : stricter a b) (input : List Char)
    (m : Mode) (st : State) (hok : (run env a m st input).error = none) :
    run env b m st input = run env a m st input := by
  have hs := exec_follows env a b h input m st
  unfold run at hok ⊢
  cases e : exec env a m st input with
  | ret res s =>
    rw [e] at hs hok
    simp only at hok
    rw [hs hok, hok]
  | goto m' s =>
    rw [e] at hs hok
    simp only [follows] at hs
    rw [hs]
    exact at_eof_follows env a b h m' s hok

/-- C20. Strictness is monotone: for the same `Env` and file, if
    `parse_dimacs` returns no error under `PEDANTIC_PARSING` then under
    `NORMAL_PARSING`, and if it returns no error under `NORMAL_PARSING` then
    under `RELAXED_PARSING`, it returns no error either and leaves the same
    state: the same `*max_var_ptr`, the same calls in the same order
    (`kissat_reserve`, `kissat_add`, the embedded options) and the same line
    counter. -/
theorem C20_strictness_monotone (env : Env) (a b : strictness) (file : List Char)
    (h : (a = .PEDANTIC_PARSING ∧ b = .NORMAL_PARSING) ∨
      (a = .NORMAL_PARSING ∧ b = .RELAXED_PARSING))
    (hok : (parse_dimacs env a file).error = none) :
    (parse_dimacs env b file).error = none ∧
    (parse_dimacs env b file).state.max_var = (parse_dimacs env a file).state.max_var ∧
    (parse_dimacs env b file).state.calls = (parse_dimacs env a file).state.calls ∧
    (parse_dimacs env b file).state.lineno = (parse_dimacs env a file).state.lineno ∧
    parse_dimacs env b file = parse_dimacs env a file := by
  have e : parse_dimacs env b file = parse_dimacs env a file :=
    run_follows env a b h file (.L45 true) init hok
  rw [e]
  exact ⟨hok, rfl, rfl, rfl, rfl⟩

/-- Witness of C20: the file `c x`, `p cnf 2 2`, `1 -2 0`, `2 0`, accepted
    under `PEDANTIC_PARSING`, is parsed to the same result under
    `NORMAL_PARSING`. -/
theorem C20_strictness_monotone_witness :
    (parse_dimacs env0 .PEDANTIC_PARSING "c x\np cnf 2 2\n1 -2 0\n2 0\n".toList).error = none ∧
    parse_dimacs env0 .NORMAL_PARSING "c x\np cnf 2 2\n1 -2 0\n2 0\n".toList =
      parse_dimacs env0 .PEDANTIC_PARSING "c x\np cnf 2 2\n1 -2 0\n2 0\n".toList ∧
    adds (parse_dimacs env0 .NORMAL_PARSING "c x\np cnf 2 2\n1 -2 0\n2 0\n".toList).state.calls =
      [1, -2, 0, 2, 0] := by
  have e : (parse_dimacs env0 .PEDANTIC_PARSING "c x\np cnf 2 2\n1 -2 0\n2 0\n".toList).error =
      none := by decide
  have h := C20_strictness_monotone env0 .PEDANTIC_PARSING .NORMAL_PARSING
    "c x\np cnf 2 2\n1 -2 0\n2 0\n".toList (Or.inl ⟨rfl, rfl⟩) e
  refine ⟨e, h.2.2.2.2, ?_⟩
  rw [h.2.2.1]
  decide

end Parse
